import Mathlib

/-!
# uBASIC (no-std port): a shallow embedding of `tokenizer.c` and `ubasic.c`

The C program keeps all of its state in file-level `static` variables.  The
embedding makes that state explicit: `Tokenizer` holds the statics of
`tokenizer.c`, `State` those of `ubasic.c` together with a log of the calls
made to the host (`circle_basic_print`, `circle_basic_print_num`, the poke
callback).

Conventions.

* Program text is a list of bytes; a `char const *` into the program is an
  offset into that list.  The byte read at or after the end of the list is
  the terminating NUL.
* `int` / `VARIABLE_TYPE` values are `Int`s kept in the 32-bit two's
  complement range by `wrap`.
* `HALT()` is `while(1)`: a function that reaches it never returns.  It is the
  outcome `Res.halt`.  Loops and recursion whose length depends on the
  program take a `fuel` argument; running out of fuel is the outcome
  `Res.timeout`, so "never returns" is "no amount of fuel gives a result".
* A division C leaves undefined (by zero, or of -2147483648 by -1) and an
  array access outside the array are `Res.fault`.
-/

namespace UBasic

/-! ## tokenizer.h -/

/-- Token kinds of `tokenizer.h`.  The header is not among the sources; the
constructors are the `TOKENIZER_*` constants that `tokenizer.c` and
`ubasic.c` use. -/
inductive Token where
  | TOKENIZER_ERROR
  | TOKENIZER_ENDOFINPUT
  | TOKENIZER_NUMBER
  | TOKENIZER_STRING
  | TOKENIZER_VARIABLE
  | TOKENIZER_LET
  | TOKENIZER_PRINT
  | TOKENIZER_IF
  | TOKENIZER_THEN
  | TOKENIZER_ELSE
  | TOKENIZER_FOR
  | TOKENIZER_TO
  | TOKENIZER_NEXT
  | TOKENIZER_GOTO
  | TOKENIZER_GOSUB
  | TOKENIZER_RETURN
  | TOKENIZER_CALL
  | TOKENIZER_REM
  | TOKENIZER_PEEK
  | TOKENIZER_POKE
  | TOKENIZER_END
  | TOKENIZER_COMMA
  | TOKENIZER_SEMICOLON
  | TOKENIZER_PLUS
  | TOKENIZER_MINUS
  | TOKENIZER_AND
  | TOKENIZER_OR
  | TOKENIZER_ASTR
  | TOKENIZER_SLASH
  | TOKENIZER_MOD
  | TOKENIZER_HASH
  | TOKENIZER_LEFTPAREN
  | TOKENIZER_RIGHTPAREN
  | TOKENIZER_LT
  | TOKENIZER_GT
  | TOKENIZER_EQ
  | TOKENIZER_CR
  deriving DecidableEq, Repr

open Token

/-! ## Machine integers -/

/-- Reduction of an integer to the range of a 32-bit two's complement `int`. -/
def wrap (x : Int) : Int := (x + 2147483648) % 4294967296 - 2147483648

/-- The bytes of a string literal. -/
def bytes (s : String) : List Nat := s.toList.map Char.toNat

/-- The byte `p[i]` of a NUL-terminated text. -/
def byteAt (text : List Nat) (i : Nat) : Nat := text.getD i 0

/-! ## tokenizer.c -/

/-- The statics of `tokenizer.c`: the text that `ptr` and `nextptr` point
into, the two pointers as offsets, and `current_token`. -/
structure Tokenizer where
  text : List Nat
  ptr : Nat
  nextptr : Nat
  current_token : Token
  deriving DecidableEq, Repr

def MAX_NUMLEN : Nat := 6

/-- The keyword table `keywords[]`, without its sentinel entry. -/
def keywords : List (List Nat × Token) :=
  [ (bytes "let", TOKENIZER_LET),
    (bytes "print", TOKENIZER_PRINT),
    (bytes "if", TOKENIZER_IF),
    (bytes "then", TOKENIZER_THEN),
    (bytes "else", TOKENIZER_ELSE),
    (bytes "for", TOKENIZER_FOR),
    (bytes "to", TOKENIZER_TO),
    (bytes "next", TOKENIZER_NEXT),
    (bytes "goto", TOKENIZER_GOTO),
    (bytes "gosub", TOKENIZER_GOSUB),
    (bytes "return", TOKENIZER_RETURN),
    (bytes "call", TOKENIZER_CALL),
    (bytes "rem", TOKENIZER_REM),
    (bytes "peek", TOKENIZER_PEEK),
    (bytes "poke", TOKENIZER_POKE),
    (bytes "end", TOKENIZER_END) ]

def is_digit (c : Nat) : Bool := decide (48 ≤ c) && decide (c ≤ 57)

/-- The loop of `custom_atoi` over the bytes from `s` on, `res` being the
value accumulated so far. -/
def custom_atoi_loop : List Nat → Int → Int
  | [], res => res
  | c :: cs, res =>
    if is_digit c then custom_atoi_loop cs (wrap (res * 10 + ((c : Int) - 48))) else res

def custom_atoi (text : List Nat) (s : Nat) : Int :=
  custom_atoi_loop (text.drop s) 0

/-- The loop of `custom_strchr` over the bytes from offset `s` on: the offset
of the first byte equal to `c`, or `none` for the null pointer when the
terminating NUL comes first. -/
def custom_strchr_loop (c : Nat) : List Nat → Nat → Option Nat
  | [], s => if c = 0 then some s else none
  | b :: bs, s =>
    if b = c then some s
    else if b = 0 then none
    else custom_strchr_loop c bs (s + 1)

def custom_strchr (text : List Nat) (s : Nat) (c : Nat) : Option Nat :=
  custom_strchr_loop c (text.drop s) s

/-- The function `singlechar`; `none` is its return value 0. -/
def singlechar (t : Tokenizer) : Option Token :=
  let c := byteAt t.text t.ptr
  if c = 10 then some TOKENIZER_CR
  else if c = 44 then some TOKENIZER_COMMA
  else if c = 59 then some TOKENIZER_SEMICOLON
  else if c = 43 then some TOKENIZER_PLUS
  else if c = 45 then some TOKENIZER_MINUS
  else if c = 38 then some TOKENIZER_AND
  else if c = 124 then some TOKENIZER_OR
  else if c = 42 then some TOKENIZER_ASTR
  else if c = 47 then some TOKENIZER_SLASH
  else if c = 37 then some TOKENIZER_MOD
  else if c = 40 then some TOKENIZER_LEFTPAREN
  else if c = 35 then some TOKENIZER_HASH
  else if c = 41 then some TOKENIZER_RIGHTPAREN
  else if c = 60 then some TOKENIZER_LT
  else if c = 62 then some TOKENIZER_GT
  else if c = 61 then some TOKENIZER_EQ
  else none

/-- The digit loop of `get_next_token`, `for(i = 0; i < MAX_NUMLEN; ++i)`,
with `n` iterations left. -/
def number_loop (t : Tokenizer) : Nat → Nat → Token × Tokenizer
  | 0, _ => (TOKENIZER_ERROR, t)
  | n + 1, i =>
    if !is_digit (byteAt t.text (t.ptr + i)) then
      if i > 0 then (TOKENIZER_NUMBER, { t with nextptr := t.ptr + i })
      else (TOKENIZER_ERROR, t)
    else number_loop t n (i + 1)

/-- The string loop of `get_next_token`, entered after the first `++nextptr`:
`rest` are the bytes from `nextptr` on. -/
def string_loop : List Nat → Nat → Nat
  | [], nextptr => nextptr
  | c :: cs, nextptr =>
    if c ≠ 34 ∧ c ≠ 0 then string_loop cs (nextptr + 1) else nextptr

/-- The test `strncmp(ptr, kw, strlen(kw)) == 0` on the bytes from `ptr` on. -/
def starts_with : List Nat → List Nat → Bool
  | _, [] => true
  | [], _ :: _ => false
  | c :: cs, k :: ks => decide (c = k) && decide (c ≠ 0) && starts_with cs ks

/-- The keyword loop of `get_next_token`. -/
def keyword_loop (t : Tokenizer) : List (List Nat × Token) → Option (Token × Tokenizer)
  | [] => none
  | (kw, tok) :: kts =>
    if starts_with (t.text.drop t.ptr) kw then
      some (tok, { t with nextptr := t.ptr + kw.length })
    else keyword_loop t kts

/-- The function `get_next_token`: the token at `ptr`, and the tokenizer with
`nextptr` updated where the C code assigns it. -/
def get_next_token (t : Tokenizer) : Token × Tokenizer :=
  let c := byteAt t.text t.ptr
  if c = 0 then (TOKENIZER_ENDOFINPUT, t)
  else if is_digit c then number_loop t MAX_NUMLEN 0
  else
    match singlechar t with
    | some tok => (tok, { t with nextptr := t.ptr + 1 })
    | none =>
      if c = 34 then
        let np := string_loop (t.text.drop (t.ptr + 1)) (t.ptr + 1)
        let np := if byteAt t.text np = 34 then np + 1 else np
        (TOKENIZER_STRING, { t with nextptr := np })
      else
        match keyword_loop t keywords with
        | some r => r
        | none =>
          if 97 ≤ c ∧ c ≤ 122 then (TOKENIZER_VARIABLE, { t with nextptr := t.ptr + 1 })
          else (TOKENIZER_ERROR, t)

/-- The function `tokenizer_goto` on the text the tokenizer already holds. -/
def tokenizer_goto (t : Tokenizer) (program : Nat) : Tokenizer :=
  let r := get_next_token { t with ptr := program }
  { r.2 with current_token := r.1 }

/-- The function `tokenizer_init` on a new program text. -/
def tokenizer_init (t : Tokenizer) (program : List Nat) : Tokenizer :=
  tokenizer_goto { t with text := program } 0

def tokenizer_token (t : Tokenizer) : Token := t.current_token

def tokenizer_finished (t : Tokenizer) : Bool :=
  decide (byteAt t.text t.ptr = 0) || decide (t.current_token = TOKENIZER_ENDOFINPUT)

/-- The whitespace loop of `tokenizer_next` over the bytes from `ptr` on. -/
def skip_blanks : List Nat → Nat → Nat
  | [], ptr => ptr
  | c :: cs, ptr =>
    if c = 32 ∨ c = 9 ∨ c = 13 then skip_blanks cs (ptr + 1) else ptr

/-- The comment loop of `tokenizer_next` over the bytes from `nextptr` on. -/
def rem_loop : List Nat → Nat → Nat
  | [], nextptr => nextptr
  | c :: cs, nextptr =>
    if !(decide (c = 10) || decide (c = 0)) then rem_loop cs (nextptr + 1) else nextptr

/-- The function `tokenizer_next`, with `depth` bounding the nesting of its
recursive call after a comment. -/
def tokenizer_next_aux : Nat → Tokenizer → Tokenizer
  | 0, t => t
  | depth + 1, t =>
    if tokenizer_finished t then t
    else
      let p := skip_blanks (t.text.drop t.nextptr) t.nextptr
      let r := get_next_token { t with ptr := p }
      let t1 : Tokenizer := { r.2 with current_token := r.1 }
      if r.1 = TOKENIZER_REM then
        let np := rem_loop (t1.text.drop t1.nextptr) t1.nextptr
        let np := if byteAt t1.text np = 10 then np + 1 else np
        tokenizer_next_aux depth { t1 with nextptr := np }
      else t1

/-- The function `tokenizer_next`.  Every nested call starts at least three
bytes further into the text, so the text length bounds the nesting. -/
def tokenizer_next (t : Tokenizer) : Tokenizer :=
  tokenizer_next_aux (t.text.length + 1) t

def tokenizer_num (t : Tokenizer) : Int := custom_atoi t.text t.ptr

def tokenizer_variable_num (t : Tokenizer) : Int := (byteAt t.text t.ptr : Int) - 97

def tokenizer_pos (t : Tokenizer) : Nat := t.ptr

/-! ## ubasic.c: state -/

/-- The type `struct for_state`; its member `to` is `to_` here. -/
structure for_state where
  line_after_for : Int
  for_variable : Int
  to_ : Int
  deriving DecidableEq, Repr

/-- The type `struct line_index`; the text position is an offset. -/
structure line_index where
  line_number : Int
  program_text_position : Nat
  deriving DecidableEq, Repr

/-- A call made to the host: `circle_basic_print(s)`,
`circle_basic_print_num(n)`, or a call `f(addr, val)` of a poke callback,
callbacks being identified by a number. -/
inductive Event where
  | print (s : List Nat)
  | print_num (n : Int)
  | poke (f : Nat) (addr val : Int)
  deriving DecidableEq, Repr

def MAX_STRINGLEN : Nat := 40
def MAX_GOSUB_STACK_DEPTH : Nat := 10
def MAX_FOR_STACK_DEPTH : Nat := 4
def MAX_LINE_INDEXES : Nat := 256
def MAX_VARNUM : Nat := 26

/-- The statics of `ubasic.c` (`program_ptr` is offset 0 of `tok.text`, the
array `variables` is `variables_`), the
tokenizer, and the log `events` of the calls made to the host.  A null
function pointer is `none`. -/
structure State where
  tok : Tokenizer
  string : List Nat
  gosub_stack : List Int
  gosub_stack_ptr : Int
  for_stack : List for_state
  for_stack_ptr : Int
  line_index_table : List line_index
  line_index_current_ptr : Int
  variables_ : List Int
  ended : Bool
  peek_function : Option (Int → Int)
  poke_function : Option Nat
  poke_ptr : Option Nat
  events : List Event

/-- The state of a freshly loaded program image: zero-initialised statics,
`current_token = TOKENIZER_ERROR`, null callbacks, nothing logged. -/
def State.initial : State where
  tok := { text := [], ptr := 0, nextptr := 0, current_token := TOKENIZER_ERROR }
  string := List.replicate MAX_STRINGLEN 0
  gosub_stack := List.replicate MAX_GOSUB_STACK_DEPTH 0
  gosub_stack_ptr := 0
  for_stack := List.replicate MAX_FOR_STACK_DEPTH ⟨0, 0, 0⟩
  for_stack_ptr := 0
  line_index_table := List.replicate MAX_LINE_INDEXES ⟨0, 0⟩
  line_index_current_ptr := 0
  variables_ := List.replicate MAX_VARNUM 0
  ended := false
  peek_function := none
  poke_function := none
  poke_ptr := none
  events := []

/-- Outcome of running a piece of the interpreter: it returns `a` in state
`s`; it reaches `HALT()` in state `s` and never returns; it performs an
operation C leaves undefined (division by zero or of -2147483648 by -1,
access outside an array); or
the fuel given to the model is used up. -/
inductive Res (α : Type) where
  | ok (a : α) (s : State)
  | halt (s : State)
  | fault
  | timeout

/-- Sequencing: run `k` on the result of `r` when `r` returned. -/
def Res.andThen {α β : Type} (r : Res α) (k : α → State → Res β) : Res β :=
  match r with
  | .ok a s => k a s
  | .halt s => .halt s
  | .fault => .fault
  | .timeout => .timeout

/-- Read of `a[i]`; `none` outside the array. -/
def aget {α : Type} (a : List α) (i : Int) : Option α :=
  if 0 ≤ i then a.get? i.toNat else none

/-- Write of `a[i] = x`; `none` outside the array. -/
def aset {α : Type} (a : List α) (i : Int) (x : α) : Option (List α) :=
  if 0 ≤ i ∧ i.toNat < a.length then some (a.set i.toNat x) else none

def ubasic_set_poke_function (s : State) (f : Option Nat) : State :=
  { s with poke_ptr := f }

def circle_basic_print (s : State) (str : List Nat) : State :=
  { s with events := s.events ++ [Event.print str] }

def circle_basic_print_num (s : State) (n : Int) : State :=
  { s with events := s.events ++ [Event.print_num n] }

def ubasic_init (s : State) (program : List Nat) : State :=
  { s with
    for_stack_ptr := 0
    gosub_stack_ptr := 0
    line_index_current_ptr := 0
    tok := tokenizer_init s.tok program
    ended := false }

def ubasic_init_peek_poke (s : State) (program : List Nat)
    (peek : Option (Int → Int)) (poke : Option Nat) : State :=
  { s with
    for_stack_ptr := 0
    gosub_stack_ptr := 0
    line_index_current_ptr := 0
    peek_function := peek
    poke_function := poke
    tok := tokenizer_init s.tok program
    ended := false }

def ubasic_set_variable (s : State) (varnum : Int) (value : Int) : State :=
  if 0 ≤ varnum ∧ varnum < MAX_VARNUM then
    { s with variables_ := s.variables_.set varnum.toNat value }
  else s

def ubasic_get_variable (s : State) (varnum : Int) : Int :=
  if 0 ≤ varnum ∧ varnum < MAX_VARNUM then s.variables_.getD varnum.toNat 0 else 0

def accept (token : Token) (s : State) : Res Unit :=
  if token ≠ tokenizer_token s.tok then
    .halt (circle_basic_print s (bytes "Unexpected token error\n"))
  else .ok () { s with tok := tokenizer_next s.tok }

def varfactor (s : State) : Res Int :=
  let r := ubasic_get_variable s (tokenizer_variable_num s.tok)
  (accept TOKENIZER_VARIABLE s).andThen fun _ s => .ok r s

/-! ## ubasic.c: expressions -/

/-- The operands for which C leaves `f1 / f2` and `f1 % f2` undefined: a zero
divisor, and `INT_MIN` divided by -1, whose quotient is not an `int`. -/
def div_undefined (f1 f2 : Int) : Bool :=
  decide (f2 = 0) || (decide (f1 = -2147483648) && decide (f2 = -1))

/-- The body of the loop of `term` after both operands are known: `f1 * f2`,
`f1 / f2` or `f1 % f2`, and `none` where the division is undefined. -/
def term_op (op : Token) (f1 f2 : Int) : Option Int :=
  if op = TOKENIZER_ASTR then some (wrap (f1 * f2))
  else if op = TOKENIZER_SLASH then
    if div_undefined f1 f2 then none else some (wrap (Int.tdiv f1 f2))
  else if op = TOKENIZER_MOD then
    if div_undefined f1 f2 then none else some (wrap (Int.tmod f1 f2))
  else some f1

/-- The body of the loop of `expr` after both operands are known. -/
def expr_op (op : Token) (t1 t2 : Int) : Int :=
  if op = TOKENIZER_PLUS then wrap (t1 + t2)
  else if op = TOKENIZER_MINUS then wrap (t1 - t2)
  else if op = TOKENIZER_AND then Int.land t1 t2
  else if op = TOKENIZER_OR then Int.lor t1 t2
  else t1

/-- The body of the loop of `relation` after both operands are known. -/
def relation_op (op : Token) (r1 r2 : Int) : Int :=
  if op = TOKENIZER_LT then (if r1 < r2 then 1 else 0)
  else if op = TOKENIZER_GT then (if r1 > r2 then 1 else 0)
  else if op = TOKENIZER_EQ then (if r1 = r2 then 1 else 0)
  else r1

mutual

def factor : Nat → State → Res Int
  | 0, _ => .timeout
  | fuel + 1, s =>
    match tokenizer_token s.tok with
    | TOKENIZER_NUMBER =>
      let r := tokenizer_num s.tok
      (accept TOKENIZER_NUMBER s).andThen fun _ s => .ok r s
    | TOKENIZER_LEFTPAREN =>
      (accept TOKENIZER_LEFTPAREN s).andThen fun _ s =>
      (expr fuel s).andThen fun r s =>
      (accept TOKENIZER_RIGHTPAREN s).andThen fun _ s => .ok r s
    | _ => varfactor s

/-- The `while` loop of `term`, entered with `f1` computed and
`op = tokenizer_token()`. -/
def term_loop : Nat → Int → State → Res Int
  | 0, _, _ => .timeout
  | fuel + 1, f1, s =>
    let op := tokenizer_token s.tok
    if op = TOKENIZER_ASTR ∨ op = TOKENIZER_SLASH ∨ op = TOKENIZER_MOD then
      (factor fuel { s with tok := tokenizer_next s.tok }).andThen fun f2 s =>
      match term_op op f1 f2 with
      | none => .fault
      | some f1 => term_loop fuel f1 s
    else .ok f1 s

def term : Nat → State → Res Int
  | 0, _ => .timeout
  | fuel + 1, s => (factor fuel s).andThen fun f1 s => term_loop fuel f1 s

/-- The `while` loop of `expr`. -/
def expr_loop : Nat → Int → State → Res Int
  | 0, _, _ => .timeout
  | fuel + 1, t1, s =>
    let op := tokenizer_token s.tok
    if op = TOKENIZER_PLUS ∨ op = TOKENIZER_MINUS ∨ op = TOKENIZER_AND ∨ op = TOKENIZER_OR then
      (term fuel { s with tok := tokenizer_next s.tok }).andThen fun t2 s =>
      expr_loop fuel (expr_op op t1 t2) s
    else .ok t1 s

def expr : Nat → State → Res Int
  | 0, _ => .timeout
  | fuel + 1, s => (term fuel s).andThen fun t1 s => expr_loop fuel t1 s

end

/-- The `while` loop of `relation`. -/
def relation_loop : Nat → Int → State → Res Int
  | 0, _, _ => .timeout
  | fuel + 1, r1, s =>
    let op := tokenizer_token s.tok
    if op = TOKENIZER_LT ∨ op = TOKENIZER_GT ∨ op = TOKENIZER_EQ then
      (expr fuel { s with tok := tokenizer_next s.tok }).andThen fun r2 s =>
      relation_loop fuel (relation_op op r1 r2) s
    else .ok r1 s

def relation (fuel : Nat) (s : State) : Res Int :=
  (expr fuel s).andThen fun r1 s => relation_loop fuel r1 s

/-! ## ubasic.c: the line index and jumps -/

def index_free (s : State) : State := { s with line_index_current_ptr := 0 }

/-- The loop of `index_find` from index `i` on, with `k` iterations left.  The
outer `none` is a read outside `line_index_table`; `some none` is the null
pointer. -/
def index_find_loop (s : State) (linenum : Int) : Nat → Int → Option (Option Nat)
  | 0, _ => some none
  | k + 1, i =>
    match aget s.line_index_table i with
    | none => none
    | some e =>
      if e.line_number = linenum then some (some e.program_text_position)
      else index_find_loop s linenum k (i + 1)

def index_find (s : State) (linenum : Int) : Option (Option Nat) :=
  index_find_loop s linenum s.line_index_current_ptr.toNat 0

def index_add (s : State) (linenum : Int) (sourcepos : Nat) : Res Unit :=
  match index_find s linenum with
  | none => .fault
  | some (some _) => .ok () s
  | some none =>
    if s.line_index_current_ptr < MAX_LINE_INDEXES then
      match aset s.line_index_table s.line_index_current_ptr ⟨linenum, sourcepos⟩ with
      | none => .fault
      | some table =>
        .ok () { s with line_index_table := table
                        line_index_current_ptr := s.line_index_current_ptr + 1 }
    else .ok () s

/-- The innermost loop of `jump_linenum_slow`:
`do tokenizer_next(); while(token != CR && token != ENDOFINPUT)`. -/
def jump_skip_line : Nat → Tokenizer → Option Tokenizer
  | 0, _ => none
  | fuel + 1, t =>
    let t := tokenizer_next t
    if tokenizer_token t ≠ TOKENIZER_CR ∧ tokenizer_token t ≠ TOKENIZER_ENDOFINPUT then
      jump_skip_line fuel t
    else some t

/-- The middle loop of `jump_linenum_slow`: skip lines
`while(token != TOKENIZER_NUMBER)`. -/
def jump_next_line : Nat → Tokenizer → Option Tokenizer
  | 0, _ => none
  | fuel + 1, t =>
    match jump_skip_line fuel t with
    | none => none
    | some t =>
      let t := if tokenizer_token t = TOKENIZER_CR then tokenizer_next t else t
      if tokenizer_token t ≠ TOKENIZER_NUMBER then jump_next_line fuel t else some t

/-- The outer loop of `jump_linenum_slow`: `while(tokenizer_num() != linenum)`. -/
def jump_scan : Nat → Int → Tokenizer → Option Tokenizer
  | 0, _, _ => none
  | fuel + 1, linenum, t =>
    if tokenizer_num t ≠ linenum then
      match jump_next_line fuel t with
      | none => none
      | some t => jump_scan fuel linenum t
    else some t

def jump_linenum_slow (fuel : Nat) (linenum : Int) (s : State) : Res Unit :=
  match jump_scan fuel linenum (tokenizer_init s.tok s.tok.text) with
  | none => .timeout
  | some t => .ok () { s with tok := t }

def jump_linenum (fuel : Nat) (linenum : Int) (s : State) : Res Unit :=
  match index_find s linenum with
  | none => .fault
  | some (some pos) => .ok () { s with tok := tokenizer_goto s.tok pos }
  | some none => jump_linenum_slow fuel linenum s

/-! ## tokenizer.c: string payloads -/

/-- The call `memcpy(dest, src, n)`: the first `n` bytes of `dest` are
replaced by those of `src`. -/
def memcpy (dest src : List Nat) (n : Nat) : List Nat :=
  src.take n ++ dest.drop n

/-- The function `tokenizer_string(dest, len)`: the contents of `dest`
afterwards, or `none` when the store `dest[string_len] = 0` falls outside
`dest`. -/
def tokenizer_string (t : Tokenizer) (dest : List Nat) (len : Int) : Option (List Nat) :=
  if tokenizer_token t ≠ TOKENIZER_STRING then some dest
  else
    match custom_strchr t.text (t.ptr + 1) 34 with
    | none => some dest
    | some string_end =>
      let string_len : Int := (string_end : Int) - (t.ptr : Int) - 1
      let string_len : Int := if len < string_len then len else string_len
      aset (memcpy dest (t.text.drop (t.ptr + 1)) string_len.toNat) string_len 0

/-- The bytes of the C string held in a buffer: those before its first NUL. -/
def c_string (buf : List Nat) : List Nat := buf.takeWhile (fun c => c ≠ 0)

/-! ## ubasic.c: statements -/

def goto_statement (fuel : Nat) (s : State) : Res Unit :=
  (accept TOKENIZER_GOTO s).andThen fun _ s =>
  jump_linenum fuel (tokenizer_num s.tok) s

/-- One pass through the body of the `do` loop of `print_statement`; the
result is `false` when the body leaves the loop by `break`. -/
def print_item (fuel : Nat) (s : State) : Res Bool :=
  if tokenizer_token s.tok = TOKENIZER_STRING then
    match tokenizer_string s.tok s.string MAX_STRINGLEN with
    | none => .fault
    | some buf =>
      let s := { s with string := buf }
      let s := circle_basic_print s (c_string s.string)
      .ok true { s with tok := tokenizer_next s.tok }
  else if tokenizer_token s.tok = TOKENIZER_COMMA then
    let s := circle_basic_print s (bytes " ")
    .ok true { s with tok := tokenizer_next s.tok }
  else if tokenizer_token s.tok = TOKENIZER_SEMICOLON then
    .ok true { s with tok := tokenizer_next s.tok }
  else if tokenizer_token s.tok = TOKENIZER_VARIABLE
      ∨ tokenizer_token s.tok = TOKENIZER_NUMBER then
    (expr fuel s).andThen fun n s => .ok true (circle_basic_print_num s n)
  else .ok false s

/-- The `do ... while` loop of `print_statement`. -/
def print_loop : Nat → State → Res Unit
  | 0, _ => .timeout
  | fuel + 1, s =>
    (print_item fuel s).andThen fun continued s =>
    if continued ∧ tokenizer_token s.tok ≠ TOKENIZER_CR
        ∧ tokenizer_token s.tok ≠ TOKENIZER_ENDOFINPUT then
      print_loop fuel s
    else .ok () s

def print_statement (fuel : Nat) (s : State) : Res Unit :=
  (accept TOKENIZER_PRINT s).andThen fun _ s =>
  (print_loop fuel s).andThen fun _ s =>
  let s := circle_basic_print s (bytes "\n")
  .ok () { s with tok := tokenizer_next s.tok }

def let_statement (fuel : Nat) (s : State) : Res Unit :=
  let var := tokenizer_variable_num s.tok
  (accept TOKENIZER_VARIABLE s).andThen fun _ s =>
  (accept TOKENIZER_EQ s).andThen fun _ s =>
  (expr fuel s).andThen fun v s =>
  accept TOKENIZER_CR (ubasic_set_variable s var v)

def gosub_statement (fuel : Nat) (s : State) : Res Unit :=
  (accept TOKENIZER_GOSUB s).andThen fun _ s =>
  let linenum := tokenizer_num s.tok
  (accept TOKENIZER_NUMBER s).andThen fun _ s =>
  (accept TOKENIZER_CR s).andThen fun _ s =>
  if s.gosub_stack_ptr < MAX_GOSUB_STACK_DEPTH then
    match aset s.gosub_stack s.gosub_stack_ptr (tokenizer_num s.tok) with
    | none => .fault
    | some stack =>
      jump_linenum fuel linenum
        { s with gosub_stack := stack, gosub_stack_ptr := s.gosub_stack_ptr + 1 }
  else .ok () s

def return_statement (fuel : Nat) (s : State) : Res Unit :=
  (accept TOKENIZER_RETURN s).andThen fun _ s =>
  if s.gosub_stack_ptr > 0 then
    let s := { s with gosub_stack_ptr := s.gosub_stack_ptr - 1 }
    match aget s.gosub_stack s.gosub_stack_ptr with
    | none => .fault
    | some linenum => jump_linenum fuel linenum s
  else .ok () s

def next_statement (fuel : Nat) (s : State) : Res Unit :=
  (accept TOKENIZER_NEXT s).andThen fun _ s =>
  let var := tokenizer_variable_num s.tok
  (accept TOKENIZER_VARIABLE s).andThen fun _ s =>
  if s.for_stack_ptr > 0 then
    match aget s.for_stack (s.for_stack_ptr - 1) with
    | none => .fault
    | some top =>
      if var = top.for_variable then
        let s := ubasic_set_variable s var (wrap (ubasic_get_variable s var + 1))
        if ubasic_get_variable s var ≤ top.to_ then
          jump_linenum fuel top.line_after_for s
        else
          accept TOKENIZER_CR { s with for_stack_ptr := s.for_stack_ptr - 1 }
      else accept TOKENIZER_CR s
  else accept TOKENIZER_CR s

def for_statement (fuel : Nat) (s : State) : Res Unit :=
  (accept TOKENIZER_FOR s).andThen fun _ s =>
  let for_variable := tokenizer_variable_num s.tok
  (accept TOKENIZER_VARIABLE s).andThen fun _ s =>
  (accept TOKENIZER_EQ s).andThen fun _ s =>
  (expr fuel s).andThen fun v s =>
  let s := ubasic_set_variable s for_variable v
  (accept TOKENIZER_TO s).andThen fun _ s =>
  (expr fuel s).andThen fun to_ s =>
  (accept TOKENIZER_CR s).andThen fun _ s =>
  if s.for_stack_ptr < MAX_FOR_STACK_DEPTH then
    match aset s.for_stack s.for_stack_ptr ⟨tokenizer_num s.tok, for_variable, to_⟩ with
    | none => .fault
    | some stack =>
      .ok () { s with for_stack := stack, for_stack_ptr := s.for_stack_ptr + 1 }
  else .ok () s

def peek_statement (fuel : Nat) (s : State) : Res Unit :=
  (accept TOKENIZER_PEEK s).andThen fun _ s =>
  (expr fuel s).andThen fun peek_addr s =>
  (accept TOKENIZER_COMMA s).andThen fun _ s =>
  let var := tokenizer_variable_num s.tok
  (accept TOKENIZER_VARIABLE s).andThen fun _ s =>
  (accept TOKENIZER_CR s).andThen fun _ s =>
  match s.peek_function with
  | some f => .ok () (ubasic_set_variable s var (f peek_addr))
  | none => .ok () s

def poke_statement (fuel : Nat) (s : State) : Res Unit :=
  (accept TOKENIZER_POKE s).andThen fun _ s =>
  (expr fuel s).andThen fun addr s =>
  (accept TOKENIZER_COMMA s).andThen fun _ s =>
  (expr fuel s).andThen fun val s =>
  (accept TOKENIZER_CR s).andThen fun _ s =>
  match s.poke_ptr with
  | some f => .ok () { s with events := s.events ++ [Event.poke f addr val] }
  | none => .ok () s

def end_statement (s : State) : Res Unit :=
  (accept TOKENIZER_END s).andThen fun _ s => .ok () { s with ended := true }

/-- The `do ... while` loop of `if_statement` that looks for `else`. -/
def else_scan : Nat → Tokenizer → Option Tokenizer
  | 0, _ => none
  | fuel + 1, t =>
    let t := tokenizer_next t
    if tokenizer_token t ≠ TOKENIZER_ELSE ∧ tokenizer_token t ≠ TOKENIZER_CR
        ∧ tokenizer_token t ≠ TOKENIZER_ENDOFINPUT then
      else_scan fuel t
    else some t

mutual

def if_statement : Nat → State → Res Unit
  | 0, _ => .timeout
  | fuel + 1, s =>
    (accept TOKENIZER_IF s).andThen fun _ s =>
    (relation fuel s).andThen fun r s =>
    (accept TOKENIZER_THEN s).andThen fun _ s =>
    if r ≠ 0 then statement fuel s
    else
      match else_scan fuel s.tok with
      | none => .timeout
      | some t =>
        let s := { s with tok := t }
        if tokenizer_token s.tok = TOKENIZER_ELSE then
          statement fuel { s with tok := tokenizer_next s.tok }
        else if tokenizer_token s.tok = TOKENIZER_CR then
          .ok () { s with tok := tokenizer_next s.tok }
        else .ok () s

def statement : Nat → State → Res Unit
  | 0, _ => .timeout
  | fuel + 1, s =>
    match tokenizer_token s.tok with
    | TOKENIZER_PRINT => print_statement fuel s
    | TOKENIZER_IF => if_statement fuel s
    | TOKENIZER_GOTO => goto_statement fuel s
    | TOKENIZER_GOSUB => gosub_statement fuel s
    | TOKENIZER_RETURN => return_statement fuel s
    | TOKENIZER_FOR => for_statement fuel s
    | TOKENIZER_PEEK => peek_statement fuel s
    | TOKENIZER_POKE => poke_statement fuel s
    | TOKENIZER_NEXT => next_statement fuel s
    | TOKENIZER_END => end_statement s
    | TOKENIZER_LET =>
      (accept TOKENIZER_LET s).andThen fun _ s => let_statement fuel s
    | TOKENIZER_VARIABLE => let_statement fuel s
    | _ => .halt (circle_basic_print s (bytes "Unknown statement\n"))

end

def line_statement (fuel : Nat) (s : State) : Res Unit :=
  (index_add s (tokenizer_num s.tok) (tokenizer_pos s.tok)).andThen fun _ s =>
  (accept TOKENIZER_NUMBER s).andThen fun _ s =>
  statement fuel s

def ubasic_run (fuel : Nat) (s : State) : Res Unit :=
  if !tokenizer_finished s.tok && !s.ended then line_statement fuel s else .ok () s

def ubasic_finished (s : State) : Bool := s.ended || tokenizer_finished s.tok

/-! ## Observations on outcomes -/

/-- The state in which a run returned, if it returned. -/
def Res.returned {α : Type} : Res α → Option State
  | .ok _ s => some s
  | _ => none

/-- The host calls logged when the run returned. -/
def Res.events {α : Type} (r : Res α) : Option (List Event) :=
  r.returned.map State.events

/-- The state in which a run reached `HALT()`, if it did. -/
def Res.halted {α : Type} : Res α → Option State
  | .halt s => some s
  | _ => none

/-- The property `P` holds of the state in which a run ended, whether it
returned or reached `HALT()`. -/
def Res.sat {α : Type} (r : Res α) (P : State → Prop) : Prop :=
  match r with
  | .ok _ s => P s
  | .halt s => P s
  | .fault => True
  | .timeout => True

/-- The states `s` and `s'` agree on both stacks, the line index and the
ended flag. -/
def State.same_control (s s' : State) : Prop :=
  s'.gosub_stack = s.gosub_stack ∧ s'.gosub_stack_ptr = s.gosub_stack_ptr
    ∧ s'.for_stack = s.for_stack ∧ s'.for_stack_ptr = s.for_stack_ptr
    ∧ s'.line_index_table = s.line_index_table
    ∧ s'.line_index_current_ptr = s.line_index_current_ptr
    ∧ s'.ended = s.ended

/-- The two stacks and the line index have their declared sizes and their
fill counters lie within them. -/
def State.stacks_ok (s : State) : Prop :=
  s.gosub_stack.length = MAX_GOSUB_STACK_DEPTH
    ∧ 0 ≤ s.gosub_stack_ptr ∧ s.gosub_stack_ptr ≤ MAX_GOSUB_STACK_DEPTH
    ∧ s.for_stack.length = MAX_FOR_STACK_DEPTH
    ∧ 0 ≤ s.for_stack_ptr ∧ s.for_stack_ptr ≤ MAX_FOR_STACK_DEPTH
    ∧ s.line_index_table.length = MAX_LINE_INDEXES
    ∧ 0 ≤ s.line_index_current_ptr ∧ s.line_index_current_ptr ≤ MAX_LINE_INDEXES

/-- What a step may do to the bookkeeping: it keeps the stacks and the line
index within their bounds, and it does not clear the ended flag. -/
def State.evolves (s s' : State) : Prop :=
  (s.stacks_ok → s'.stacks_ok) ∧ (s.ended = true → s'.ended = true)

/-- The entries stored in the line index: the first `line_index_current_ptr`
cells of the table, oldest first. -/
def index_entries (s : State) : List line_index :=
  s.line_index_table.take s.line_index_current_ptr.toNat

/-- The line numbers stored in the line index. -/
def index_numbers (s : State) : List Int := (index_entries s).map line_index.line_number

/-- A sequence of `index_add` calls, in order; `none` when one of them does
not return. -/
def index_adds (s : State) : List (Int × Nat) → Option State
  | [] => some s
  | (n, p) :: rest =>
    match index_add s n p with
    | .ok _ s1 => index_adds s1 rest
    | _ => none

/-- The run performed an operation that C leaves undefined. -/
def Res.undefined {α : Type} : Res α → Bool
  | .fault => true
  | _ => false

/-- The token the scanner yields for a cursor placed at the start of `text`. -/
def first_token (text : List Nat) : Token :=
  (tokenizer_init State.initial.tok text).current_token

/-! ## The expression grammar of the specification

`factor := number | "(" expr ")" | variable`,
`term := factor (("*"|"/"|"%") factor)*`,
`expr := term (("+"|"-"|"&"|"|") term)*`,
`relation := expr (("<"|">"|"=") expr)*`, every operator left-associative.
A parse is a tree whose left operand is the whole chain read so far. -/

/-- What the scanner shows at one cursor position: a number token with its
value, a variable token with its index, a terminated string token with its
payload, or a token that carries no value. -/
inductive Lexeme where
  | num (n : Int)
  | var (v : Int)
  | str (payload : List Nat)
  | sym (k : Token)
  deriving DecidableEq, Repr

/-- The scanner shows lexeme `x` at the cursor of `t`.  For a string the
cursor is on the opening quote, the payload is the text between it and the
next quote, and that quote comes before the end of the text. -/
def Lexeme.shown (t : Tokenizer) : Lexeme → Bool
  | .num n => decide (tokenizer_token t = TOKENIZER_NUMBER) && decide (tokenizer_num t = n)
  | .var v =>
    decide (tokenizer_token t = TOKENIZER_VARIABLE) && decide (tokenizer_variable_num t = v)
  | .str payload =>
    decide (tokenizer_token t = TOKENIZER_STRING)
      && decide (custom_strchr t.text (t.ptr + 1) 34 = some (t.ptr + 1 + payload.length))
      && decide ((t.text.drop (t.ptr + 1)).take payload.length = payload)
  | .sym k => decide (tokenizer_token t = k)

/-- The scanner delivers the lexemes `xs` one after the other from the cursor
of `t` on, each followed by `tokenizer_next`; the result is the tokenizer
after the last of them. -/
def scan : Tokenizer → List Lexeme → Option Tokenizer
  | t, [] => some t
  | t, x :: xs => if x.shown t then scan (tokenizer_next t) xs else none

inductive MulOp where
  | mul
  | div
  | mod
  deriving DecidableEq, Repr

inductive AddOp where
  | add
  | sub
  | and
  | or
  deriving DecidableEq, Repr

inductive RelOp where
  | lt
  | gt
  | eq
  deriving DecidableEq, Repr

def MulOp.token : MulOp → Token
  | .mul => TOKENIZER_ASTR
  | .div => TOKENIZER_SLASH
  | .mod => TOKENIZER_MOD

def AddOp.token : AddOp → Token
  | .add => TOKENIZER_PLUS
  | .sub => TOKENIZER_MINUS
  | .and => TOKENIZER_AND
  | .or => TOKENIZER_OR

def RelOp.token : RelOp → Token
  | .lt => TOKENIZER_LT
  | .gt => TOKENIZER_GT
  | .eq => TOKENIZER_EQ

/-- Value of `a op b` for a multiplicative operator: product, quotient
truncated toward zero, remainder of that division; no value when dividing by
zero, nor when dividing -2147483648 by -1, whose quotient is not a 32-bit
integer. -/
def MulOp.apply : MulOp → Int → Int → Option Int
  | .mul, a, b => some (wrap (a * b))
  | .div, a, b =>
    if b = 0 ∨ (a = -2147483648 ∧ b = -1) then none else some (wrap (Int.tdiv a b))
  | .mod, a, b =>
    if b = 0 ∨ (a = -2147483648 ∧ b = -1) then none else some (wrap (Int.tmod a b))

/-- Value of `a op b` for an additive operator; `&` and `|` are bitwise. -/
def AddOp.apply : AddOp → Int → Int → Int
  | .add, a, b => wrap (a + b)
  | .sub, a, b => wrap (a - b)
  | .and, a, b => Int.land a b
  | .or, a, b => Int.lor a b

/-- Value of `a op b` for a comparison: 1 when it holds, 0 otherwise. -/
def RelOp.apply : RelOp → Int → Int → Int
  | .lt, a, b => if a < b then 1 else 0
  | .gt, a, b => if a > b then 1 else 0
  | .eq, a, b => if a = b then 1 else 0

mutual

/-- A parse of `factor`. -/
inductive SFactor where
  | num (n : Int)
  | var (v : Int)
  | paren (e : SExpr)

/-- A parse of `term`: a factor, or a term followed by an operator and a
factor. -/
inductive STerm where
  | factor (f : SFactor)
  | binop (t : STerm) (op : MulOp) (f : SFactor)

/-- A parse of `expr`: a term, or an expr followed by an operator and a term. -/
inductive SExpr where
  | term (t : STerm)
  | binop (e : SExpr) (op : AddOp) (t : STerm)

end

/-- A parse of `relation`. -/
inductive SRelation where
  | expr (e : SExpr)
  | binop (r : SRelation) (op : RelOp) (e : SExpr)

mutual

/-- The lexemes of a factor, in source order. -/
def SFactor.toks : SFactor → List Lexeme
  | .num n => [Lexeme.num n]
  | .var v => [Lexeme.var v]
  | .paren e =>
    Lexeme.sym TOKENIZER_LEFTPAREN :: (e.toks ++ [Lexeme.sym TOKENIZER_RIGHTPAREN])

def STerm.toks : STerm → List Lexeme
  | .factor f => f.toks
  | .binop t op f => t.toks ++ Lexeme.sym op.token :: f.toks

def SExpr.toks : SExpr → List Lexeme
  | .term t => t.toks
  | .binop e op t => e.toks ++ Lexeme.sym op.token :: t.toks

end

def SRelation.toks : SRelation → List Lexeme
  | .expr e => e.toks
  | .binop r op e => r.toks ++ Lexeme.sym op.token :: e.toks

mutual

/-- The value of a factor when variable `v` holds `vars v`. -/
def SFactor.eval (vars : Int → Int) : SFactor → Option Int
  | .num n => some n
  | .var v => some (vars v)
  | .paren e => e.eval vars

def STerm.eval (vars : Int → Int) : STerm → Option Int
  | .factor f => f.eval vars
  | .binop t op f =>
    match t.eval vars, f.eval vars with
    | some a, some b => op.apply a b
    | _, _ => none

def SExpr.eval (vars : Int → Int) : SExpr → Option Int
  | .term t => t.eval vars
  | .binop e op t =>
    match e.eval vars, t.eval vars with
    | some a, some b => some (op.apply a b)
    | _, _ => none

end

def SRelation.eval (vars : Int → Int) : SRelation → Option Int
  | .expr e => e.eval vars
  | .binop r op e =>
    match r.eval vars, e.eval vars with
    | some a, some b => some (op.apply a b)
    | _, _ => none

/-- Tokens that continue a `term`. -/
def is_mul_op (k : Token) : Bool :=
  decide (k = TOKENIZER_ASTR) || decide (k = TOKENIZER_SLASH) || decide (k = TOKENIZER_MOD)

/-- Tokens that continue an `expr`. -/
def is_add_op (k : Token) : Bool :=
  decide (k = TOKENIZER_PLUS) || decide (k = TOKENIZER_MINUS)
    || decide (k = TOKENIZER_AND) || decide (k = TOKENIZER_OR)

/-- Tokens that continue a `relation`. -/
def is_rel_op (k : Token) : Bool :=
  decide (k = TOKENIZER_LT) || decide (k = TOKENIZER_GT) || decide (k = TOKENIZER_EQ)

/-- The state `s` with its tokenizer replaced by `t`. -/
def State.at_cursor (s : State) (t : Tokenizer) : State := { s with tok := t }

/-- The interpreter initialised on a program text, from the zero-initialised
statics. -/
def cursor_on (text : String) : State := ubasic_init State.initial (bytes text)

/-- The arrays have their declared sizes and the three fill counters lie
within them. -/
def State.wf (s : State) : Bool :=
  decide (s.string.length = MAX_STRINGLEN)
    && decide (s.variables_.length = MAX_VARNUM)
    && decide (s.gosub_stack.length = MAX_GOSUB_STACK_DEPTH)
    && decide (0 ≤ s.gosub_stack_ptr) && decide (s.gosub_stack_ptr ≤ MAX_GOSUB_STACK_DEPTH)
    && decide (s.for_stack.length = MAX_FOR_STACK_DEPTH)
    && decide (0 ≤ s.for_stack_ptr) && decide (s.for_stack_ptr ≤ MAX_FOR_STACK_DEPTH)
    && decide (s.line_index_table.length = MAX_LINE_INDEXES)
    && decide (0 ≤ s.line_index_current_ptr)
    && decide (s.line_index_current_ptr ≤ MAX_LINE_INDEXES)

/-! ## The items of a PRINT line -/

/-- An item of a PRINT line: a string literal, a comma, a semicolon, or an
expression. -/
inductive PrintItem where
  | str (payload : List Nat)
  | comma
  | semicolon
  | expr (e : SExpr)

def PrintItem.toks : PrintItem → List Lexeme
  | .str payload => [Lexeme.str payload]
  | .comma => [Lexeme.sym TOKENIZER_COMMA]
  | .semicolon => [Lexeme.sym TOKENIZER_SEMICOLON]
  | .expr e => e.toks

/-- The lexemes of a list of items, in order. -/
def print_toks : List PrintItem → List Lexeme
  | [] => []
  | i :: is => i.toks ++ print_toks is

/-- What an item emits: the payload of a string, one space for a comma,
nothing for a semicolon, the value of an expression. -/
def PrintItem.emits (vars : Int → Int) : PrintItem → Option (List Event)
  | .str payload => some [Event.print payload]
  | .comma => some [Event.print (bytes " ")]
  | .semicolon => some []
  | .expr e => (e.eval vars).map fun n => [Event.print_num n]

/-- What a list of items emits, in item order. -/
def print_emits (vars : Int → Int) : List PrintItem → Option (List Event)
  | [] => some []
  | i :: is =>
    match i.emits vars, print_emits vars is with
    | some a, some b => some (a ++ b)
    | _, _ => none

/-- The first lexeme of a list is a number or a variable. -/
def starts_plain : List Lexeme → Bool
  | Lexeme.num _ :: _ => true
  | Lexeme.var _ :: _ => true
  | _ => false

/-- The items the claim admits: strings shorter than the buffer, commas,
semicolons, and expressions that start with a variable or a number. -/
def PrintItem.admitted : PrintItem → Bool
  | .str payload => decide (payload.length < MAX_STRINGLEN)
  | .comma => true
  | .semicolon => true
  | .expr e => starts_plain e.toks

/-- Tokens that start an item of a PRINT line. -/
def is_print_start (k : Token) : Bool :=
  decide (k = TOKENIZER_STRING) || decide (k = TOKENIZER_COMMA)
    || decide (k = TOKENIZER_SEMICOLON) || decide (k = TOKENIZER_VARIABLE)
    || decide (k = TOKENIZER_NUMBER)

/-- The state `s` after printing: cursor `t`, string buffer `buf`, and the
events `evs` added to the host log. -/
def State.printed (s : State) (t : Tokenizer) (buf : List Nat) (evs : List Event) : State :=
  { s with tok := t, string := buf, events := s.events ++ evs }

/-! ## The lines of a program text -/

/-- The offsets at which a line of the text starts: offset 0, and after each
newline byte the first offset that is not a blank. -/
def line_starts (text : List Nat) : List Nat :=
  0 :: (List.range text.length).filterMap fun i =>
    if byteAt text i = 10 then some (skip_blanks (text.drop (i + 1)) (i + 1)) else none

/-- No line of the text starts with the decimal number `L`. -/
def no_line_numbered (text : List Nat) (L : Int) : Bool :=
  (line_starts text).all fun p =>
    !(is_digit (byteAt text p)) || decide (custom_atoi text p ≠ L)

/-- Consistency of the lookahead with the text, as far as the line scan
needs it. -/
def Tokenizer.inv (t : Tokenizer) : Prop :=
  (t.current_token = TOKENIZER_CR → byteAt t.text t.ptr = 10 ∧ t.nextptr = t.ptr + 1)
  ∧ (t.current_token = TOKENIZER_NUMBER → is_digit (byteAt t.text t.ptr) = true)

/-! ## Programs as the scanner delivers them -/

/-- The token kind a lexeme is shown with. -/
def Lexeme.token : Lexeme → Token
  | .num _ => TOKENIZER_NUMBER
  | .var _ => TOKENIZER_VARIABLE
  | .str _ => TOKENIZER_STRING
  | .sym k => k

/-- A program line: its line number and the lexemes between the number and
the newline that ends the line. -/
structure TLine where
  number : Int
  body : List Lexeme

/-- The lexemes of a line: number, body, newline. -/
def TLine.toks (l : TLine) : List Lexeme :=
  Lexeme.num l.number :: (l.body ++ [Lexeme.sym TOKENIZER_CR])

/-- The lexemes of a list of lines, in order. -/
def prog_toks : List TLine → List Lexeme
  | [] => []
  | l :: ls => l.toks ++ prog_toks ls

/-- The body of the line holds no newline and no end of input. -/
def TLine.clean (l : TLine) : Bool :=
  l.body.all fun x =>
    decide (x.token ≠ TOKENIZER_CR) && decide (x.token ≠ TOKENIZER_ENDOFINPUT)

/-- The cursor that `tokenizer_init` puts on the start of a text. -/
def start_cursor (text : List Nat) : Tokenizer := tokenizer_init State.initial.tok text

/-- The cursor on the number of line `k` (counted from 0) of the program `p`
laid out in `text`: what the scanner reaches after the lexemes of the first
`k` lines. -/
def line_cursor (text : List Nat) (p : List TLine) (k : Nat) : Option Tokenizer :=
  scan (start_cursor text) (prog_toks (p.take k))

/-- The text is the program `p`: the scanner delivers the lines of `p` one
after the other from the start of the text, no line body holds a line
terminator, and the line numbers are pairwise distinct. -/
def is_program (text : List Nat) (p : List TLine) : Bool :=
  (scan (start_cursor text) (prog_toks p)).isSome && p.all TLine.clean
    && decide ((p.map TLine.number).Nodup)

/-- Every entry of the line index is a line of the program with the offset
of its number token. -/
def index_ok (text : List Nat) (p : List TLine) (s : State) : Prop :=
  ∀ i : Nat, (i : Int) < s.line_index_current_ptr →
    ∃ k l u, p.get? k = some l ∧ line_cursor text p k = some u
      ∧ s.line_index_table.get? i = some ⟨l.number, u.ptr⟩

/-- The outcome of `n` calls of `ubasic_run` in a row. -/
def run_steps (fuel : Nat) : Nat → State → Res Unit
  | 0, s => .ok () s
  | n + 1, s => (ubasic_run fuel s).andThen fun _ s => run_steps fuel n s

/-- The interpreter is about to execute line `k` of the program `p` laid out
in `text`: the state is well-formed and has not ended, the line index holds
program lines only, and the cursor is on the number of line `k`. -/
def at_line (text : List Nat) (p : List TLine) (s : State) (k : Nat) : Prop :=
  s.wf = true ∧ s.ended = false ∧ index_ok text p s ∧ line_cursor text p k = some s.tok

/-! ## Nested GOSUB calls -/

/-- Line `b` of the program is a straight-line statement that does not assign
variable `v`: from every state about to execute it, the step returns with the
cursor on the next line, the value of `v` unchanged and the FOR stack
untouched. -/
def straight_line (text : List Nat) (p : List TLine) (v : Int) (b : Nat) : Prop :=
  ∀ s, at_line text p s b →
    ∃ s', at_line text p s' (b + 1)
      ∧ ubasic_get_variable s' v = ubasic_get_variable s v
      ∧ s'.for_stack = s.for_stack ∧ s'.for_stack_ptr = s.for_stack_ptr
      ∧ ∃ F, ∀ fuel, F ≤ fuel → ubasic_run fuel s = .ok () s'

/-- The text `10 for a=1 to 3 / 20 print a / 30 next a / 40 end`. -/
def counting_loop_text : List Nat :=
  bytes "10 for a=1 to 3\n20 print a\n30 next a\n40 end\n"

/-- The lines of `counting_loop_text`. -/
def counting_loop : List TLine :=
  [ ⟨10, [Lexeme.sym TOKENIZER_FOR, Lexeme.var 0, Lexeme.sym TOKENIZER_EQ, Lexeme.num 1,
          Lexeme.sym TOKENIZER_TO, Lexeme.num 3]⟩,
    ⟨20, [Lexeme.sym TOKENIZER_PRINT, Lexeme.var 0]⟩,
    ⟨30, [Lexeme.sym TOKENIZER_NEXT, Lexeme.var 0]⟩,
    ⟨40, [Lexeme.sym TOKENIZER_END]⟩ ]

/-! ## Theorems -/

/-- C1 (code defect): a poke callback registered through
`ubasic_init_peek_poke` is never invoked.  On the program `10 poke 1,2` the
step returns without any call to the callback 7 given to
`ubasic_init_peek_poke`, because `poke_statement` reads `poke_ptr`, which only
`ubasic_set_poke_function` assigns; registered through that function, the
same step calls it once with address 1 and value 2. -/
theorem C1_poke_registered_by_init_is_not_invoked :
    (ubasic_run 50 (ubasic_init_peek_poke State.initial (bytes "10 poke 1,2\n")
        none (some 7))).events = some []
    ∧ (ubasic_run 50 (ubasic_set_poke_function
        (ubasic_init State.initial (bytes "10 poke 1,2\n")) (some 7))).events
      = some [Event.poke 7 1 2] := by
  decide!

/-- C2 (code defect): a literal of six digits is an error token.  The digit
loop of `get_next_token` runs `i` over `0..MAX_NUMLEN-1` and returns a number
token only from inside the loop, at the first non-digit, so with
`MAX_NUMLEN = 6` the longest accepted literal has five digits. -/
theorem C2_six_digit_literal_is_error :
    first_token (bytes "123456\n") = TOKENIZER_ERROR
    ∧ first_token (bytes "12345\n") = TOKENIZER_NUMBER
    ∧ first_token (bytes "1234567\n") = TOKENIZER_ERROR := by
  decide!

/-! ### Expressions (C3) -/

theorem accept_ok (k : Token) (s : State) (h : s.tok.current_token = k) :
    accept k s = .ok () (s.at_cursor (tokenizer_next s.tok)) := by
  simp [accept, tokenizer_token, h, State.at_cursor]

theorem scan_cons_some {t t' : Tokenizer} {x : Lexeme} {xs : List Lexeme}
    (h : scan t (x :: xs) = some t') :
    x.shown t = true ∧ scan (tokenizer_next t) xs = some t' := by
  simp only [scan] at h
  split at h
  · exact ⟨by assumption, h⟩
  · cases h

theorem scan_append_some {xs ys : List Lexeme} :
    ∀ {t t' : Tokenizer}, scan t (xs ++ ys) = some t' →
      ∃ t1, scan t xs = some t1 ∧ scan t1 ys = some t' := by
  induction xs with
  | nil => intro t t' h; exact ⟨t, rfl, h⟩
  | cons x xs ih =>
    intro t t' h
    obtain ⟨hx, h'⟩ := scan_cons_some (by simpa using h)
    obtain ⟨t1, h1, h2⟩ := ih h'
    exact ⟨t1, by simp [scan, hx, h1], h2⟩

theorem shown_sym {t : Tokenizer} {k : Token} (h : (Lexeme.sym k).shown t = true) :
    t.current_token = k := by
  simpa [Lexeme.shown, tokenizer_token] using h

theorem shown_num {t : Tokenizer} {n : Int} (h : (Lexeme.num n).shown t = true) :
    t.current_token = TOKENIZER_NUMBER ∧ tokenizer_num t = n := by
  simpa [Lexeme.shown, tokenizer_token] using h

theorem shown_var {t : Tokenizer} {v : Int} (h : (Lexeme.var v).shown t = true) :
    t.current_token = TOKENIZER_VARIABLE ∧ tokenizer_variable_num t = v := by
  simpa [Lexeme.shown, tokenizer_token] using h

theorem factor_num (fuel : Nat) (s : State) (h : s.tok.current_token = TOKENIZER_NUMBER) :
    factor (fuel + 1) s = .ok (tokenizer_num s.tok) (s.at_cursor (tokenizer_next s.tok)) := by
  rw [factor]
  simp [tokenizer_token, h, accept_ok, Res.andThen]

theorem factor_var (fuel : Nat) (s : State) (h : s.tok.current_token = TOKENIZER_VARIABLE) :
    factor (fuel + 1) s
      = .ok (ubasic_get_variable s (tokenizer_variable_num s.tok))
          (s.at_cursor (tokenizer_next s.tok)) := by
  rw [factor]
  simp [tokenizer_token, h, varfactor, accept_ok, Res.andThen]

theorem factor_paren (fuel : Nat) (s : State) (h : s.tok.current_token = TOKENIZER_LEFTPAREN) :
    factor (fuel + 1) s
      = (expr fuel (s.at_cursor (tokenizer_next s.tok))).andThen fun r s =>
          (accept TOKENIZER_RIGHTPAREN s).andThen fun _ s => .ok r s := by
  rw [factor]
  simp [tokenizer_token, h, accept_ok, Res.andThen]

@[simp] theorem at_cursor_tok (s : State) (t : Tokenizer) : (s.at_cursor t).tok = t := rfl

@[simp] theorem at_cursor_at_cursor (s : State) (t t' : Tokenizer) :
    (s.at_cursor t).at_cursor t' = s.at_cursor t' := rfl

@[simp] theorem get_variable_at_cursor (s : State) (t : Tokenizer) :
    ubasic_get_variable (s.at_cursor t) = ubasic_get_variable s := rfl

theorem term_op_eq (op : MulOp) (a b : Int) : term_op op.token a b = op.apply a b := by
  cases op <;> simp [term_op, MulOp.token, MulOp.apply, div_undefined]

theorem expr_op_eq (op : AddOp) (a b : Int) : expr_op op.token a b = op.apply a b := by
  cases op <;> simp [expr_op, AddOp.token, AddOp.apply]

theorem relation_op_eq (op : RelOp) (a b : Int) : relation_op op.token a b = op.apply a b := by
  cases op <;> simp [relation_op, RelOp.token, RelOp.apply]

theorem term_loop_step (fuel : Nat) (f1 : Int) (s : State) (op : MulOp)
    (h : s.tok.current_token = op.token) :
    term_loop (fuel + 1) f1 s
      = (factor fuel (s.at_cursor (tokenizer_next s.tok))).andThen fun f2 s =>
          match op.apply f1 f2 with
          | none => .fault
          | some f1 => term_loop fuel f1 s := by
  rw [term_loop]
  have : tokenizer_token s.tok = TOKENIZER_ASTR ∨ tokenizer_token s.tok = TOKENIZER_SLASH
      ∨ tokenizer_token s.tok = TOKENIZER_MOD := by
    cases op <;> simp [tokenizer_token, h, MulOp.token]
  simp only [this, if_true]
  simp only [tokenizer_token, h, term_op_eq]
  rfl

theorem term_loop_done (fuel : Nat) (f1 : Int) (s : State)
    (h : is_mul_op s.tok.current_token = false) :
    term_loop (fuel + 1) f1 s = .ok f1 s := by
  rw [term_loop]
  simp [is_mul_op] at h
  simp [tokenizer_token, h]

theorem expr_loop_step (fuel : Nat) (t1 : Int) (s : State) (op : AddOp)
    (h : s.tok.current_token = op.token) :
    expr_loop (fuel + 1) t1 s
      = (term fuel (s.at_cursor (tokenizer_next s.tok))).andThen fun t2 s =>
          expr_loop fuel (op.apply t1 t2) s := by
  rw [expr_loop]
  have : tokenizer_token s.tok = TOKENIZER_PLUS ∨ tokenizer_token s.tok = TOKENIZER_MINUS
      ∨ tokenizer_token s.tok = TOKENIZER_AND ∨ tokenizer_token s.tok = TOKENIZER_OR := by
    cases op <;> simp [tokenizer_token, h, AddOp.token]
  simp only [this, if_true]
  simp only [tokenizer_token, h, expr_op_eq]
  rfl

theorem expr_loop_done (fuel : Nat) (t1 : Int) (s : State)
    (h : is_add_op s.tok.current_token = false) :
    expr_loop (fuel + 1) t1 s = .ok t1 s := by
  rw [expr_loop]
  simp [is_add_op] at h
  simp [tokenizer_token, h]

theorem relation_loop_step (fuel : Nat) (r1 : Int) (s : State) (op : RelOp)
    (h : s.tok.current_token = op.token) :
    relation_loop (fuel + 1) r1 s
      = (expr fuel (s.at_cursor (tokenizer_next s.tok))).andThen fun r2 s =>
          relation_loop fuel (op.apply r1 r2) s := by
  rw [relation_loop]
  have : tokenizer_token s.tok = TOKENIZER_LT ∨ tokenizer_token s.tok = TOKENIZER_GT
      ∨ tokenizer_token s.tok = TOKENIZER_EQ := by
    cases op <;> simp [tokenizer_token, h, RelOp.token]
  simp only [this, if_true]
  simp only [tokenizer_token, h, relation_op_eq]
  rfl

theorem relation_loop_done (fuel : Nat) (r1 : Int) (s : State)
    (h : is_rel_op s.tok.current_token = false) :
    relation_loop (fuel + 1) r1 s = .ok r1 s := by
  rw [relation_loop]
  simp [is_rel_op] at h
  simp [tokenizer_token, h]

theorem mul_op_not_add (op : AddOp) : is_mul_op op.token = false := by
  cases op <;> rfl

theorem add_op_not_rel (op : RelOp) : is_add_op op.token = false := by
  cases op <;> rfl

theorem mul_op_not_rel (op : RelOp) : is_mul_op op.token = false := by
  cases op <;> rfl

mutual

theorem sfactor_parse_ok : ∀ (f : SFactor) (s : State) (t' : Tokenizer) (v : Int),
    scan s.tok f.toks = some t' → f.eval (ubasic_get_variable s) = some v →
    ∃ F, ∀ fuel, F ≤ fuel → factor fuel s = .ok v (s.at_cursor t')
  | .num n, s, t', v, hs, hv => by
    refine ⟨1, fun fuel hf => ?_⟩
    obtain ⟨k, rfl⟩ : ∃ k, fuel = k + 1 := ⟨fuel - 1, by omega⟩
    simp only [SFactor.toks] at hs
    obtain ⟨hx, h'⟩ := scan_cons_some hs
    obtain ⟨h1, h2⟩ := shown_num hx
    simp only [scan, Option.some.injEq] at h'
    simp only [SFactor.eval, Option.some.injEq] at hv
    rw [factor_num k s h1, h2, h', hv]
  | .var x, s, t', v, hs, hv => by
    refine ⟨1, fun fuel hf => ?_⟩
    obtain ⟨k, rfl⟩ : ∃ k, fuel = k + 1 := ⟨fuel - 1, by omega⟩
    simp only [SFactor.toks] at hs
    obtain ⟨hx, h'⟩ := scan_cons_some hs
    obtain ⟨h1, h2⟩ := shown_var hx
    simp only [scan, Option.some.injEq] at h'
    simp only [SFactor.eval, Option.some.injEq] at hv
    rw [factor_var k s h1, h2, h', hv]
  | .paren e, s, t', v, hs, hv => by
    simp only [SFactor.toks] at hs
    obtain ⟨hx, h'⟩ := scan_cons_some hs
    have h1 := shown_sym hx
    obtain ⟨t2, h2, h3⟩ := scan_append_some h'
    obtain ⟨hy, h4⟩ := scan_cons_some h3
    have h5 := shown_sym hy
    simp only [scan, Option.some.injEq] at h4
    simp only [SFactor.eval] at hv
    have hmul : is_mul_op t2.current_token = false := by rw [h5]; rfl
    have hadd : is_add_op t2.current_token = false := by rw [h5]; rfl
    obtain ⟨F, hF⟩ := sexpr_prefix_ok e (s.at_cursor (tokenizer_next s.tok)) t2 v
      (by simpa using h2) (by simpa using hv) hmul 1
    refine ⟨F + 1, fun fuel hf => ?_⟩
    obtain ⟨k, rfl⟩ : ∃ k, fuel = k + 1 := ⟨fuel - 1, by omega⟩
    obtain ⟨fuel', hm, he⟩ := hF k (by omega)
    obtain ⟨j, rfl⟩ : ∃ j, fuel' = j + 1 := ⟨fuel' - 1, by omega⟩
    rw [factor_paren k s h1, he, expr_loop_done j v _ (by simpa using hadd)]
    simp only [Res.andThen]
    rw [accept_ok TOKENIZER_RIGHTPAREN _ (by simpa using h5)]
    simp [h4]

theorem sterm_prefix_ok : ∀ (T : STerm) (s : State) (t' : Tokenizer) (v : Int),
    scan s.tok T.toks = some t' → T.eval (ubasic_get_variable s) = some v →
    ∀ m, ∃ F, ∀ fuel, F ≤ fuel →
      ∃ fuel', m ≤ fuel' ∧ term fuel s = term_loop fuel' v (s.at_cursor t')
  | .factor f, s, t', v, hs, hv => by
    intro m
    simp only [STerm.toks] at hs
    simp only [STerm.eval] at hv
    obtain ⟨F, hF⟩ := sfactor_parse_ok f s t' v hs hv
    refine ⟨max F m + 1, fun fuel hf => ?_⟩
    obtain ⟨k, rfl⟩ : ∃ k, fuel = k + 1 := ⟨fuel - 1, by omega⟩
    refine ⟨k, by omega, ?_⟩
    rw [term, hF k (by omega)]
    rfl
  | .binop T op f, s, t', v, hs, hv => by
    intro m
    simp only [STerm.toks] at hs
    obtain ⟨t1, h1, h2⟩ := scan_append_some hs
    obtain ⟨hx, h3⟩ := scan_cons_some h2
    have h4 := shown_sym hx
    simp only [STerm.eval] at hv
    cases ha : T.eval (ubasic_get_variable s) with
    | none => simp [ha] at hv
    | some a =>
      cases hb : f.eval (ubasic_get_variable s) with
      | none => simp [ha, hb] at hv
      | some b =>
        simp only [ha, hb] at hv
        obtain ⟨Ff, hFf⟩ := sfactor_parse_ok f (s.at_cursor (tokenizer_next t1)) t' b
          (by simpa using h3) (by simpa using hb)
        obtain ⟨F, hF⟩ := sterm_prefix_ok T s t1 a h1 ha (max Ff m + 1)
        refine ⟨F, fun fuel hf => ?_⟩
        obtain ⟨fuel', hm, he⟩ := hF fuel hf
        obtain ⟨j, rfl⟩ : ∃ j, fuel' = j + 1 := ⟨fuel' - 1, by omega⟩
        refine ⟨j, by omega, ?_⟩
        rw [he, term_loop_step j a _ op (by simpa using h4)]
        simp only [at_cursor_tok, at_cursor_at_cursor]
        rw [hFf j (by omega)]
        simp [Res.andThen, hv]

theorem sexpr_prefix_ok : ∀ (E : SExpr) (s : State) (t' : Tokenizer) (v : Int),
    scan s.tok E.toks = some t' → E.eval (ubasic_get_variable s) = some v →
    is_mul_op t'.current_token = false →
    ∀ m, ∃ F, ∀ fuel, F ≤ fuel →
      ∃ fuel', m ≤ fuel' ∧ expr fuel s = expr_loop fuel' v (s.at_cursor t')
  | .term T, s, t', v, hs, hv, hmul => by
    intro m
    simp only [SExpr.toks] at hs
    simp only [SExpr.eval] at hv
    obtain ⟨F, hF⟩ := sterm_prefix_ok T s t' v hs hv 1
    refine ⟨max F m + 1, fun fuel hf => ?_⟩
    obtain ⟨k, rfl⟩ : ∃ k, fuel = k + 1 := ⟨fuel - 1, by omega⟩
    obtain ⟨fuel', hm, he⟩ := hF k (by omega)
    obtain ⟨j, rfl⟩ : ∃ j, fuel' = j + 1 := ⟨fuel' - 1, by omega⟩
    refine ⟨k, by omega, ?_⟩
    rw [expr, he, term_loop_done j v _ (by simpa using hmul)]
    rfl
  | .binop E op T, s, t', v, hs, hv, hmul => by
    intro m
    simp only [SExpr.toks] at hs
    obtain ⟨t1, h1, h2⟩ := scan_append_some hs
    obtain ⟨hx, h3⟩ := scan_cons_some h2
    have h4 := shown_sym hx
    simp only [SExpr.eval] at hv
    cases ha : E.eval (ubasic_get_variable s) with
    | none => simp [ha] at hv
    | some a =>
      cases hb : T.eval (ubasic_get_variable s) with
      | none => simp [ha, hb] at hv
      | some b =>
        simp only [ha, hb, Option.some.injEq] at hv
        obtain ⟨Ft, hFt⟩ := sterm_prefix_ok T (s.at_cursor (tokenizer_next t1)) t' b
          (by simpa using h3) (by simpa using hb) 1
        obtain ⟨F, hF⟩ := sexpr_prefix_ok E s t1 a h1 ha
          (by rw [h4]; exact mul_op_not_add op) (max Ft m + 1)
        refine ⟨F, fun fuel hf => ?_⟩
        obtain ⟨fuel', hm, he⟩ := hF fuel hf
        obtain ⟨j, rfl⟩ : ∃ j, fuel' = j + 1 := ⟨fuel' - 1, by omega⟩
        refine ⟨j, by omega, ?_⟩
        rw [he, expr_loop_step j a _ op (by simpa using h4)]
        simp only [at_cursor_tok, at_cursor_at_cursor]
        obtain ⟨fuel2, hm2, he2⟩ := hFt j (by omega)
        obtain ⟨i, rfl⟩ : ∃ i, fuel2 = i + 1 := ⟨fuel2 - 1, by omega⟩
        rw [he2, term_loop_done i b _ (by simpa using hmul)]
        simp [Res.andThen, hv]

end

/-- An `expr` whose lexemes the scanner delivers, followed by a token that
continues neither a term nor an expr, is evaluated to its value, given
enough fuel; only the cursor moves. -/
theorem expr_ok (E : SExpr) (s : State) (t' : Tokenizer) (v : Int)
    (hs : scan s.tok E.toks = some t') (hv : E.eval (ubasic_get_variable s) = some v)
    (hmul : is_mul_op t'.current_token = false)
    (hadd : is_add_op t'.current_token = false) :
    ∃ F, ∀ fuel, F ≤ fuel → expr fuel s = .ok v (s.at_cursor t') := by
  obtain ⟨F, hF⟩ := sexpr_prefix_ok E s t' v hs hv hmul 1
  refine ⟨F, fun fuel hf => ?_⟩
  obtain ⟨fuel', hm, he⟩ := hF fuel hf
  obtain ⟨j, rfl⟩ : ∃ j, fuel' = j + 1 := ⟨fuel' - 1, by omega⟩
  rw [he, expr_loop_done j v _ (by simpa using hadd)]

theorem srelation_prefix_ok (R : SRelation) : ∀ (s : State) (t' : Tokenizer) (v : Int),
    scan s.tok R.toks = some t' → R.eval (ubasic_get_variable s) = some v →
    is_mul_op t'.current_token = false → is_add_op t'.current_token = false →
    ∀ m, ∃ F, ∀ fuel, F ≤ fuel →
      ∃ fuel', m ≤ fuel' ∧ relation fuel s = relation_loop fuel' v (s.at_cursor t') := by
  induction R with
  | expr E =>
    intro s t' v hs hv hmul hadd m
    simp only [SRelation.toks] at hs
    simp only [SRelation.eval] at hv
    obtain ⟨F, hF⟩ := expr_ok E s t' v hs hv hmul hadd
    refine ⟨max F m, fun fuel hf => ⟨fuel, by omega, ?_⟩⟩
    rw [relation, hF fuel (by omega)]
    rfl
  | binop R op E ih =>
    intro s t' v hs hv hmul hadd m
    simp only [SRelation.toks] at hs
    obtain ⟨t1, h1, h2⟩ := scan_append_some hs
    obtain ⟨hx, h3⟩ := scan_cons_some h2
    have h4 := shown_sym hx
    simp only [SRelation.eval] at hv
    cases ha : R.eval (ubasic_get_variable s) with
    | none => simp [ha] at hv
    | some a =>
      cases hb : E.eval (ubasic_get_variable s) with
      | none => simp [ha, hb] at hv
      | some b =>
        simp only [ha, hb, Option.some.injEq] at hv
        obtain ⟨Fe, hFe⟩ := expr_ok E (s.at_cursor (tokenizer_next t1)) t' b
          (by simpa using h3) (by simpa using hb) hmul hadd
        obtain ⟨F, hF⟩ := ih s t1 a h1 ha
          (by rw [h4]; exact mul_op_not_rel op) (by rw [h4]; exact add_op_not_rel op)
          (max Fe m + 1)
        refine ⟨F, fun fuel hf => ?_⟩
        obtain ⟨fuel', hm, he⟩ := hF fuel hf
        obtain ⟨j, rfl⟩ : ∃ j, fuel' = j + 1 := ⟨fuel' - 1, by omega⟩
        refine ⟨j, by omega, ?_⟩
        rw [he, relation_loop_step j a _ op (by simpa using h4)]
        simp only [at_cursor_tok, at_cursor_at_cursor]
        rw [hFe j (by omega)]
        simp [Res.andThen, hv]

/-- C3: a well-formed expression is evaluated to the value of its parse
under the grammar of the specification.  When the scanner delivers the
lexemes of a parse `R` of `relation` from the cursor on, the token after them
is not an operator, and `R` has a value (no `/` or `%` in it divides by zero
or divides -2147483648 by -1, the two cases C leaves undefined), then
`relation` returns the value of `R` (multiplicative operators applied before
additive ones, those before comparisons, each chain from left to right, `/`
truncating), leaving the cursor after the expression and the rest of the
state as it was. -/
theorem C3_relation_returns_value_of_parse (R : SRelation) (s : State) (t' : Tokenizer)
    (v : Int) (hs : scan s.tok R.toks = some t')
    (hv : R.eval (ubasic_get_variable s) = some v)
    (hmul : is_mul_op t'.current_token = false)
    (hadd : is_add_op t'.current_token = false)
    (hrel : is_rel_op t'.current_token = false) :
    ∃ F, ∀ fuel, F ≤ fuel → relation fuel s = .ok v (s.at_cursor t') := by
  obtain ⟨F, hF⟩ := srelation_prefix_ok R s t' v hs hv hmul hadd 1
  refine ⟨F, fun fuel hf => ?_⟩
  obtain ⟨fuel', hm, he⟩ := hF fuel hf
  obtain ⟨j, rfl⟩ : ∃ j, fuel' = j + 1 := ⟨fuel' - 1, by omega⟩
  rw [he, relation_loop_done j v _ (by simpa using hrel)]

/-- C3, on the expressions of the specification: `2+3*4` is 14, `(2+3)*4` is
20, `10%3` is 1 and `10/3` is 3. -/
theorem C3_relation_returns_value_of_parse_witness :
    (∃ F, ∀ fuel, F ≤ fuel → relation fuel (cursor_on "2+3*4\n")
        = .ok 14 ((cursor_on "2+3*4\n").at_cursor ⟨bytes "2+3*4\n", 5, 6, TOKENIZER_CR⟩))
    ∧ (∃ F, ∀ fuel, F ≤ fuel → relation fuel (cursor_on "(2+3)*4\n")
        = .ok 20 ((cursor_on "(2+3)*4\n").at_cursor ⟨bytes "(2+3)*4\n", 7, 8, TOKENIZER_CR⟩))
    ∧ (∃ F, ∀ fuel, F ≤ fuel → relation fuel (cursor_on "10%3\n")
        = .ok 1 ((cursor_on "10%3\n").at_cursor ⟨bytes "10%3\n", 4, 5, TOKENIZER_CR⟩))
    ∧ (∃ F, ∀ fuel, F ≤ fuel → relation fuel (cursor_on "10/3\n")
        = .ok 3 ((cursor_on "10/3\n").at_cursor ⟨bytes "10/3\n", 4, 5, TOKENIZER_CR⟩)) :=
  ⟨C3_relation_returns_value_of_parse
      (.expr (.binop (.term (.factor (.num 2))) .add
        (.binop (.factor (.num 3)) .mul (.num 4))))
      _ _ 14 (by decide!) (by decide!) (by decide!) (by decide!) (by decide!),
   C3_relation_returns_value_of_parse
      (.expr (.term (.binop
        (.factor (.paren (.binop (.term (.factor (.num 2))) .add (.factor (.num 3)))))
        .mul (.num 4))))
      _ _ 20 (by decide!) (by decide!) (by decide!) (by decide!) (by decide!),
   C3_relation_returns_value_of_parse
      (.expr (.term (.binop (.factor (.num 10)) .mod (.num 3))))
      _ _ 1 (by decide!) (by decide!) (by decide!) (by decide!) (by decide!),
   C3_relation_returns_value_of_parse
      (.expr (.term (.binop (.factor (.num 10)) .div (.num 3))))
      _ _ 3 (by decide!) (by decide!) (by decide!) (by decide!) (by decide!)⟩

/-! ### Assignment (C4) -/

theorem tokenizer_next_finished (t : Tokenizer) (h : tokenizer_finished t = true) :
    tokenizer_next t = t := by
  simp [tokenizer_next, tokenizer_next_aux, h]

/-- Two different tokens in a row: the scanner was not at the end. -/
theorem not_finished_of_scan (k k' : Token) {t t' : Tokenizer} {x y : Lexeme}
    {xs : List Lexeme} (h : scan t (x :: y :: xs) = some t')
    (hx : x.shown t = true → t.current_token = k)
    (hy : ∀ u, y.shown u = true → u.current_token = k') (hne : k ≠ k') :
    tokenizer_finished t = false := by
  obtain ⟨h1, h2⟩ := scan_cons_some h
  obtain ⟨h3, _⟩ := scan_cons_some h2
  cases hf : tokenizer_finished t with
  | false => rfl
  | true =>
    rw [tokenizer_next_finished t hf] at h3
    exact absurd ((hx h1).symm.trans (hy t h3)) hne

theorem wf_unfold {s : State} (h : s.wf = true) :
    s.string.length = 40 ∧ s.variables_.length = 26
    ∧ s.gosub_stack.length = 10 ∧ 0 ≤ s.gosub_stack_ptr ∧ s.gosub_stack_ptr ≤ 10
    ∧ s.for_stack.length = 4 ∧ 0 ≤ s.for_stack_ptr ∧ s.for_stack_ptr ≤ 4
    ∧ s.line_index_table.length = 256 ∧ 0 ≤ s.line_index_current_ptr
    ∧ s.line_index_current_ptr ≤ 256 := by
  simpa [State.wf, MAX_STRINGLEN, MAX_VARNUM, MAX_GOSUB_STACK_DEPTH, MAX_FOR_STACK_DEPTH,
    MAX_LINE_INDEXES, and_assoc] using h

theorem index_find_loop_in_bounds (s : State) (linenum : Int) :
    ∀ (k : Nat) (i : Int), 0 ≤ i → i + k ≤ s.line_index_table.length →
      index_find_loop s linenum k i ≠ none := by
  intro k
  induction k with
  | zero => intro i _ _; simp [index_find_loop]
  | succ k ih =>
    intro i h0 h1
    rw [index_find_loop]
    have hlt : i.toNat < s.line_index_table.length := by
      have : (i.toNat : Int) = i := Int.toNat_of_nonneg h0
      omega
    have hget : aget s.line_index_table i = some (s.line_index_table.get ⟨i.toNat, hlt⟩) := by
      simp [aget, h0, List.get?_eq_get hlt]
    rw [hget]
    simp only
    split
    · simp
    · exact ih (i + 1) (by omega) (by push_cast at h1 ⊢; omega)

theorem index_find_ne_none (s : State) (linenum : Int) (h : s.wf = true) :
    index_find s linenum ≠ none := by
  obtain ⟨_, _, _, _, _, _, _, _, h1, h2, h3⟩ := wf_unfold h
  apply index_find_loop_in_bounds s linenum _ 0 (le_refl 0)
  have : (s.line_index_current_ptr.toNat : Int) = s.line_index_current_ptr :=
    Int.toNat_of_nonneg h2
  omega

/-- In a well-formed state `index_add` returns, and changes at most the line
index. -/
theorem index_add_ok (s : State) (linenum : Int) (pos : Nat) (h : s.wf = true) :
    ∃ table ptr, index_add s linenum pos
      = .ok () { s with line_index_table := table, line_index_current_ptr := ptr }
      ∧ ({ s with line_index_table := table, line_index_current_ptr := ptr } : State).wf
          = true := by
  obtain ⟨_, _, _, _, _, _, _, _, h1, h2, h3⟩ := wf_unfold h
  unfold index_add
  cases hf : index_find s linenum with
  | none => exact absurd hf (index_find_ne_none s linenum h)
  | some r =>
    cases r with
    | some p => exact ⟨s.line_index_table, s.line_index_current_ptr, rfl, h⟩
    | none =>
      simp only
      split
      · rename_i hlt
        simp only [MAX_LINE_INDEXES] at hlt
        have hlt' : s.line_index_current_ptr.toNat < s.line_index_table.length := by
          have : (s.line_index_current_ptr.toNat : Int) = s.line_index_current_ptr :=
            Int.toNat_of_nonneg h2
          omega
        simp only [aset, h2, hlt', and_self, if_true]
        refine ⟨_, _, rfl, ?_⟩
        simp only [State.wf, MAX_STRINGLEN, MAX_VARNUM, MAX_GOSUB_STACK_DEPTH,
          MAX_FOR_STACK_DEPTH, MAX_LINE_INDEXES] at h ⊢
        simp only [List.length_set]
        simp only [Bool.and_eq_true, decide_eq_true_eq] at h ⊢
        push_cast at hlt ⊢
        omega
      · exact ⟨s.line_index_table, s.line_index_current_ptr, rfl, h⟩

theorem set_variable_in_range (s : State) (v n : Int) (h0 : 0 ≤ v) (h1 : v < 26) :
    ubasic_set_variable s v n = { s with variables_ := s.variables_.set v.toNat n } := by
  simp [ubasic_set_variable, MAX_VARNUM, h0, h1]

theorem get_set_variable_same (s : State) (v n : Int) (h0 : 0 ≤ v) (h1 : v < 26)
    (hl : s.variables_.length = 26) :
    ubasic_get_variable (ubasic_set_variable s v n) v = n := by
  have hlt : v.toNat < s.variables_.length := by
    have : (v.toNat : Int) = v := Int.toNat_of_nonneg h0
    omega
  rw [set_variable_in_range s v n h0 h1]
  simp [ubasic_get_variable, MAX_VARNUM, h0, h1, List.getD_eq_getElem?_getD, hlt]

theorem get_set_variable_other (s : State) (v n j : Int) (hj : j ≠ v) :
    ubasic_get_variable (ubasic_set_variable s v n) j = ubasic_get_variable s j := by
  unfold ubasic_set_variable
  split
  · rename_i hv
    unfold ubasic_get_variable
    split
    · rename_i hjr
      have hne : v.toNat ≠ j.toNat := by
        have h1 : (v.toNat : Int) = v := Int.toNat_of_nonneg hv.1
        have h2 : (j.toNat : Int) = j := Int.toNat_of_nonneg hjr.1
        intro h
        apply hj
        rw [← h1, ← h2, h]
      simp [List.getD_eq_getElem?_getD, List.getElem?_set_ne hne]
    · rfl
  · rfl

/-- The handler `let_statement` on `v = e` followed by a newline. -/
theorem let_statement_ok (s : State) (v : Int) (E : SExpr) (n : Int) (t' : Tokenizer)
    (hs : scan s.tok (Lexeme.var v :: Lexeme.sym TOKENIZER_EQ
            :: (E.toks ++ [Lexeme.sym TOKENIZER_CR])) = some t')
    (hv : E.eval (ubasic_get_variable s) = some n) :
    ∃ F, ∀ fuel, F ≤ fuel →
      let_statement fuel s = .ok () ((ubasic_set_variable s v n).at_cursor t') := by
  obtain ⟨hx, h1⟩ := scan_cons_some hs
  obtain ⟨hvar, hnum⟩ := shown_var hx
  obtain ⟨hy, h2⟩ := scan_cons_some h1
  have heq := shown_sym hy
  obtain ⟨tE, h3, h4⟩ := scan_append_some h2
  obtain ⟨hz, h5⟩ := scan_cons_some h4
  have hcr := shown_sym hz
  simp only [scan, Option.some.injEq] at h5
  obtain ⟨F, hF⟩ := expr_ok E
    (s.at_cursor (tokenizer_next (tokenizer_next s.tok))) tE n
    (by simpa using h3) (by simpa using hv) (by rw [hcr]; rfl) (by rw [hcr]; rfl)
  refine ⟨F, fun fuel hf => ?_⟩
  unfold let_statement
  rw [accept_ok TOKENIZER_VARIABLE s hvar]
  simp only [Res.andThen]
  rw [accept_ok TOKENIZER_EQ _ (by simpa using heq)]
  simp only [Res.andThen, at_cursor_tok, at_cursor_at_cursor]
  rw [hF fuel hf]
  simp only [Res.andThen]
  rw [accept_ok TOKENIZER_CR _ (by
    show (ubasic_set_variable _ _ _).tok.current_token = _
    unfold ubasic_set_variable
    split <;> simpa using hcr)]
  rw [hnum, ← h5]
  unfold ubasic_set_variable
  split <;> rfl

theorem statement_let (fuel : Nat) (s : State) (h : s.tok.current_token = TOKENIZER_LET) :
    statement (fuel + 1) s
      = let_statement fuel (s.at_cursor (tokenizer_next s.tok)) := by
  rw [statement]
  simp [tokenizer_token, h, accept_ok, Res.andThen]

theorem statement_variable (fuel : Nat) (s : State)
    (h : s.tok.current_token = TOKENIZER_VARIABLE) :
    statement (fuel + 1) s = let_statement fuel s := by
  rw [statement]
  simp [tokenizer_token, h]

/-- A step at a line-number token indexes the line, moves to the next token
and runs `statement`. -/
theorem ubasic_run_line (fuel : Nat) (s : State) (table : List line_index) (ptr : Int)
    (hadd : index_add s (tokenizer_num s.tok) s.tok.ptr
      = .ok () { s with line_index_table := table, line_index_current_ptr := ptr })
    (hended : s.ended = false) (hfin : tokenizer_finished s.tok = false)
    (hnum : s.tok.current_token = TOKENIZER_NUMBER) :
    ubasic_run fuel s
      = statement fuel
          { s with line_index_table := table, line_index_current_ptr := ptr,
                   tok := tokenizer_next s.tok } := by
  have hc : (!tokenizer_finished s.tok && !s.ended) = true := by simp [hfin, hended]
  unfold ubasic_run line_statement
  rw [if_pos hc]
  simp only [tokenizer_pos]
  rw [hadd]
  simp only [Res.andThen]
  rw [accept_ok TOKENIZER_NUMBER
    { s with line_index_table := table, line_index_current_ptr := ptr } hnum]
  rfl

/-- C4: a step on a line `N let v=e` or `N v=e` followed by a newline stores
the value `n` of `e` in variable `v`, where `e` has a value: no `/` or `%` in
it divides by zero or divides -2147483648 by -1.  In a well-formed state that has not
ended, for a variable index `v` in 0..25, the step returns; afterwards
`ubasic_get_variable v` is `n`, every other variable reads as before (the
array differs from the old one in cell `v` only), both stacks and their
counters are unchanged, and the cursor is on the token after the newline. -/
theorem C4_let_stores_value (s : State) (lead : List Lexeme) (N v n : Int) (E : SExpr)
    (t' : Tokenizer)
    (hlead : lead = [Lexeme.sym TOKENIZER_LET] ∨ lead = [])
    (hs : scan s.tok (Lexeme.num N :: (lead ++ Lexeme.var v :: Lexeme.sym TOKENIZER_EQ
            :: (E.toks ++ [Lexeme.sym TOKENIZER_CR]))) = some t')
    (hv : E.eval (ubasic_get_variable s) = some n)
    (hv0 : 0 ≤ v) (hv1 : v < 26)
    (hwf : s.wf = true) (hended : s.ended = false) :
    ∃ F, ∀ fuel, F ≤ fuel → ∃ s', ubasic_run fuel s = .ok () s' ∧ s'.tok = t'
      ∧ ubasic_get_variable s' v = n
      ∧ (∀ j, j ≠ v → ubasic_get_variable s' j = ubasic_get_variable s j)
      ∧ s'.variables_ = s.variables_.set v.toNat n
      ∧ s'.gosub_stack = s.gosub_stack ∧ s'.gosub_stack_ptr = s.gosub_stack_ptr
      ∧ s'.for_stack = s.for_stack ∧ s'.for_stack_ptr = s.for_stack_ptr := by
  obtain ⟨hx, h1⟩ := scan_cons_some hs
  obtain ⟨hnum, _⟩ := shown_num hx
  have hfin : tokenizer_finished s.tok = false := by
    rcases hlead with rfl | rfl
    · exact not_finished_of_scan TOKENIZER_NUMBER TOKENIZER_LET hs
        (fun h => (shown_num h).1) (fun u h => shown_sym h) (by decide)
    · exact not_finished_of_scan TOKENIZER_NUMBER TOKENIZER_VARIABLE hs
        (fun h => (shown_num h).1) (fun u h => (shown_var h).1) (by decide)
  have hlen := (wf_unfold hwf).2.1
  -- the handler, run in the state that `line_statement` hands to `statement`
  have key : ∀ (s1 : State), s1.variables_ = s.variables_ → s1.gosub_stack = s.gosub_stack →
      s1.gosub_stack_ptr = s.gosub_stack_ptr → s1.for_stack = s.for_stack →
      s1.for_stack_ptr = s.for_stack_ptr → s1.tok = tokenizer_next s.tok →
      ∃ F, ∀ fuel, F ≤ fuel → ∃ s', statement fuel s1 = .ok () s' ∧ s'.tok = t'
        ∧ ubasic_get_variable s' v = n
        ∧ (∀ j, j ≠ v → ubasic_get_variable s' j = ubasic_get_variable s j)
        ∧ s'.variables_ = s.variables_.set v.toNat n
        ∧ s'.gosub_stack = s.gosub_stack ∧ s'.gosub_stack_ptr = s.gosub_stack_ptr
        ∧ s'.for_stack = s.for_stack ∧ s'.for_stack_ptr = s.for_stack_ptr := by
    intro s1 e1 e2 e3 e4 e5 e6
    have hget : ubasic_get_variable s1 = ubasic_get_variable s := by
      funext j; simp [ubasic_get_variable, e1]
    have fin : ∀ (s2 : State), s2.variables_ = s.variables_ →
        s2.gosub_stack = s.gosub_stack → s2.gosub_stack_ptr = s.gosub_stack_ptr →
        s2.for_stack = s.for_stack → s2.for_stack_ptr = s.for_stack_ptr →
        ((ubasic_set_variable s2 v n).at_cursor t').tok = t'
        ∧ ubasic_get_variable ((ubasic_set_variable s2 v n).at_cursor t') v = n
        ∧ (∀ j, j ≠ v → ubasic_get_variable ((ubasic_set_variable s2 v n).at_cursor t') j
              = ubasic_get_variable s j)
        ∧ ((ubasic_set_variable s2 v n).at_cursor t').variables_ = s.variables_.set v.toNat n
        ∧ ((ubasic_set_variable s2 v n).at_cursor t').gosub_stack = s.gosub_stack
        ∧ ((ubasic_set_variable s2 v n).at_cursor t').gosub_stack_ptr = s.gosub_stack_ptr
        ∧ ((ubasic_set_variable s2 v n).at_cursor t').for_stack = s.for_stack
        ∧ ((ubasic_set_variable s2 v n).at_cursor t').for_stack_ptr = s.for_stack_ptr := by
      intro s2 f1 f2 f3 f4 f5
      have hget2 : ubasic_get_variable s2 = ubasic_get_variable s := by
        funext j; simp [ubasic_get_variable, f1]
      refine ⟨rfl, ?_, ?_, ?_, ?_, ?_, ?_, ?_⟩
      · rw [get_variable_at_cursor]
        exact get_set_variable_same s2 v n hv0 hv1 (by rw [f1]; exact hlen)
      · intro j hj
        rw [get_variable_at_cursor, get_set_variable_other s2 v n j hj, hget2]
      · rw [set_variable_in_range s2 v n hv0 hv1]; simp [State.at_cursor, f1]
      · rw [set_variable_in_range s2 v n hv0 hv1]; simp [State.at_cursor, f2]
      · rw [set_variable_in_range s2 v n hv0 hv1]; simp [State.at_cursor, f3]
      · rw [set_variable_in_range s2 v n hv0 hv1]; simp [State.at_cursor, f4]
      · rw [set_variable_in_range s2 v n hv0 hv1]; simp [State.at_cursor, f5]
    rcases hlead with rfl | rfl
    · simp only [List.singleton_append] at h1
      obtain ⟨hy, h2⟩ := scan_cons_some h1
      have hlet := shown_sym hy
      obtain ⟨F, hF⟩ := let_statement_ok (s1.at_cursor (tokenizer_next s1.tok)) v E n t'
        (by simpa [e6] using h2) (by simpa [hget] using hv)
      refine ⟨F + 1, fun fuel hf => ?_⟩
      obtain ⟨k, rfl⟩ : ∃ k, fuel = k + 1 := ⟨fuel - 1, by omega⟩
      rw [statement_let k s1 (by rw [e6]; exact hlet), hF k (by omega)]
      exact ⟨_, rfl, fin _ e1 e2 e3 e4 e5⟩
    · simp only [List.nil_append] at h1
      obtain ⟨hy, _⟩ := scan_cons_some h1
      obtain ⟨F, hF⟩ := let_statement_ok s1 v E n t'
        (by simpa [e6] using h1) (by simpa [hget] using hv)
      refine ⟨F + 1, fun fuel hf => ?_⟩
      obtain ⟨k, rfl⟩ : ∃ k, fuel = k + 1 := ⟨fuel - 1, by omega⟩
      rw [statement_variable k s1 (by rw [e6]; exact (shown_var hy).1), hF k (by omega)]
      exact ⟨_, rfl, fin _ e1 e2 e3 e4 e5⟩
  obtain ⟨table, ptr, hadd, _⟩ := index_add_ok s (tokenizer_num s.tok) s.tok.ptr hwf
  obtain ⟨F, hF⟩ := key
    { s with line_index_table := table, line_index_current_ptr := ptr,
             tok := tokenizer_next s.tok } rfl rfl rfl rfl rfl rfl
  refine ⟨F, fun fuel hf => ?_⟩
  rw [ubasic_run_line fuel s table ptr hadd hended hfin hnum]
  exact hF fuel hf

/-- C4 on the lines `10 let a=5` and `10 a=5`: after the step variable `a`
reads 5. -/
theorem C4_let_stores_value_witness :
    (∃ F, ∀ fuel, F ≤ fuel → ∃ s',
      ubasic_run fuel (cursor_on "10 let a=5\n") = .ok () s'
      ∧ s'.tok = ⟨bytes "10 let a=5\n", 11, 11, TOKENIZER_ENDOFINPUT⟩
      ∧ ubasic_get_variable s' 0 = 5
      ∧ (∀ j, j ≠ 0 →
          ubasic_get_variable s' j = ubasic_get_variable (cursor_on "10 let a=5\n") j)
      ∧ s'.variables_ = (cursor_on "10 let a=5\n").variables_.set (0 : Int).toNat 5
      ∧ s'.gosub_stack = (cursor_on "10 let a=5\n").gosub_stack
      ∧ s'.gosub_stack_ptr = (cursor_on "10 let a=5\n").gosub_stack_ptr
      ∧ s'.for_stack = (cursor_on "10 let a=5\n").for_stack
      ∧ s'.for_stack_ptr = (cursor_on "10 let a=5\n").for_stack_ptr)
    ∧ (∃ F, ∀ fuel, F ≤ fuel → ∃ s',
      ubasic_run fuel (cursor_on "10 a=5\n") = .ok () s'
      ∧ s'.tok = ⟨bytes "10 a=5\n", 7, 7, TOKENIZER_ENDOFINPUT⟩
      ∧ ubasic_get_variable s' 0 = 5
      ∧ (∀ j, j ≠ 0 →
          ubasic_get_variable s' j = ubasic_get_variable (cursor_on "10 a=5\n") j)
      ∧ s'.variables_ = (cursor_on "10 a=5\n").variables_.set (0 : Int).toNat 5
      ∧ s'.gosub_stack = (cursor_on "10 a=5\n").gosub_stack
      ∧ s'.gosub_stack_ptr = (cursor_on "10 a=5\n").gosub_stack_ptr
      ∧ s'.for_stack = (cursor_on "10 a=5\n").for_stack
      ∧ s'.for_stack_ptr = (cursor_on "10 a=5\n").for_stack_ptr) :=
  ⟨C4_let_stores_value (cursor_on "10 let a=5\n") [Lexeme.sym TOKENIZER_LET] 10 0 5
      (.term (.factor (.num 5))) _ (Or.inl rfl) (by decide!) (by decide!)
      (by decide) (by decide) (by decide!) (by decide!),
   C4_let_stores_value (cursor_on "10 a=5\n") [] 10 0 5
      (.term (.factor (.num 5))) _ (Or.inr rfl) (by decide!) (by decide!)
      (by decide) (by decide) (by decide!) (by decide!)⟩

/-! ### GOSUB on a full stack (C7) -/

theorem statement_gosub (fuel : Nat) (s : State) (h : s.tok.current_token = TOKENIZER_GOSUB) :
    statement (fuel + 1) s = gosub_statement fuel s := by
  rw [statement]
  simp [tokenizer_token, h]

/-- The handler `gosub_statement` up to its test of the stack counter: the
three `accept` calls succeed on `gosub L` followed by a newline. -/
theorem gosub_statement_eq (fuel : Nat) (s : State) (L : Int) (t' : Tokenizer)
    (hs : scan s.tok [Lexeme.sym TOKENIZER_GOSUB, Lexeme.num L, Lexeme.sym TOKENIZER_CR]
      = some t') :
    gosub_statement fuel s
      = if s.gosub_stack_ptr < MAX_GOSUB_STACK_DEPTH then
          match aset s.gosub_stack s.gosub_stack_ptr (tokenizer_num t') with
          | none => .fault
          | some stack =>
            jump_linenum fuel L
              { s with tok := t', gosub_stack := stack,
                       gosub_stack_ptr := s.gosub_stack_ptr + 1 }
        else .ok () (s.at_cursor t') := by
  obtain ⟨hx, h1⟩ := scan_cons_some hs
  have hg := shown_sym hx
  obtain ⟨hy, h2⟩ := scan_cons_some h1
  obtain ⟨hn, hL⟩ := shown_num hy
  obtain ⟨hz, h3⟩ := scan_cons_some h2
  have hcr := shown_sym hz
  simp only [scan, Option.some.injEq] at h3
  unfold gosub_statement
  rw [accept_ok TOKENIZER_GOSUB s hg]
  simp only [Res.andThen]
  rw [accept_ok TOKENIZER_NUMBER _ (by simpa using hn)]
  simp only [Res.andThen]
  rw [accept_ok TOKENIZER_CR _ (by simpa using hcr)]
  simp only [Res.andThen, at_cursor_tok, at_cursor_at_cursor, hL, h3]
  rfl

/-- C7: GOSUB on a full stack is dropped.  In a well-formed state that has
not ended and whose Gosub stack holds 10 entries, a step on a line
`N gosub L` followed by a newline returns (it neither halts nor jumps): the
cursor is on the token after the newline, the stack, its counter, the
variables, the FOR stack and the host log are unchanged. -/
theorem C7_gosub_on_full_stack_falls_through (s : State) (N L : Int) (t' : Tokenizer)
    (hs : scan s.tok [Lexeme.num N, Lexeme.sym TOKENIZER_GOSUB, Lexeme.num L,
      Lexeme.sym TOKENIZER_CR] = some t')
    (hfull : s.gosub_stack_ptr = 10)
    (hwf : s.wf = true) (hended : s.ended = false) :
    ∃ F, ∀ fuel, F ≤ fuel → ∃ s', ubasic_run fuel s = .ok () s' ∧ s'.tok = t'
      ∧ s'.gosub_stack = s.gosub_stack ∧ s'.gosub_stack_ptr = 10
      ∧ s'.variables_ = s.variables_
      ∧ s'.for_stack = s.for_stack ∧ s'.for_stack_ptr = s.for_stack_ptr
      ∧ s'.events = s.events ∧ s'.ended = false := by
  obtain ⟨hx, h1⟩ := scan_cons_some hs
  obtain ⟨hnum, _⟩ := shown_num hx
  have hfin : tokenizer_finished s.tok = false :=
    not_finished_of_scan TOKENIZER_NUMBER TOKENIZER_GOSUB hs
      (fun h => (shown_num h).1) (fun u h => shown_sym h) (by decide)
  obtain ⟨hy, _⟩ := scan_cons_some h1
  have hg := shown_sym hy
  obtain ⟨table, ptr, hadd, _⟩ := index_add_ok s (tokenizer_num s.tok) s.tok.ptr hwf
  refine ⟨1, fun fuel hf => ?_⟩
  obtain ⟨k, rfl⟩ : ∃ k, fuel = k + 1 := ⟨fuel - 1, by omega⟩
  rw [ubasic_run_line (k + 1) s table ptr hadd hended hfin hnum,
    statement_gosub k _ hg, gosub_statement_eq k _ L t' h1]
  have hnot : ¬ s.gosub_stack_ptr < (MAX_GOSUB_STACK_DEPTH : Int) := by
    rw [hfull]; decide
  simp only [hnot, if_false]
  exact ⟨_, rfl, rfl, rfl, hfull, rfl, rfl, rfl, rfl, hended⟩

/-- C7 on the program `10 gosub 30 / 20 end / 30 return` with a full stack:
the step leaves the cursor on line 20. -/
theorem C7_gosub_on_full_stack_falls_through_witness :
    ∃ F, ∀ fuel, F ≤ fuel → ∃ s',
      ubasic_run fuel
        { cursor_on "10 gosub 30\n20 end\n30 return\n" with gosub_stack_ptr := 10 }
        = .ok () s'
      ∧ s'.tok = ⟨bytes "10 gosub 30\n20 end\n30 return\n", 12, 14, TOKENIZER_NUMBER⟩
      ∧ s'.gosub_stack
          = ({ cursor_on "10 gosub 30\n20 end\n30 return\n" with
                gosub_stack_ptr := 10 } : State).gosub_stack
      ∧ s'.gosub_stack_ptr = 10
      ∧ s'.variables_
          = ({ cursor_on "10 gosub 30\n20 end\n30 return\n" with
                gosub_stack_ptr := 10 } : State).variables_
      ∧ s'.for_stack
          = ({ cursor_on "10 gosub 30\n20 end\n30 return\n" with
                gosub_stack_ptr := 10 } : State).for_stack
      ∧ s'.for_stack_ptr
          = ({ cursor_on "10 gosub 30\n20 end\n30 return\n" with
                gosub_stack_ptr := 10 } : State).for_stack_ptr
      ∧ s'.events
          = ({ cursor_on "10 gosub 30\n20 end\n30 return\n" with
                gosub_stack_ptr := 10 } : State).events
      ∧ s'.ended = false :=
  C7_gosub_on_full_stack_falls_through
    { cursor_on "10 gosub 30\n20 end\n30 return\n" with gosub_stack_ptr := 10 }
    10 30 _ (by decide!) rfl (by decide!) (by decide!)

/-! ### PRINT (C10) -/

theorem custom_strchr_loop_spec (c : Nat) (hc : c ≠ 0) :
    ∀ (l : List Nat) (s e : Nat), custom_strchr_loop c l s = some e →
      s ≤ e ∧ ∀ b ∈ l.take (e - s), b ≠ c ∧ b ≠ 0 := by
  intro l
  induction l with
  | nil =>
    intro s e h
    simp [custom_strchr_loop, hc] at h
  | cons b bs ih =>
    intro s e h
    rw [custom_strchr_loop] at h
    split at h
    · simp only [Option.some.injEq] at h
      subst h
      simp
    · rename_i hb
      split at h
      · cases h
      · rename_i hb0
        obtain ⟨h1, h2⟩ := ih (s + 1) e h
        refine ⟨by omega, ?_⟩
        have : e - s = (e - (s + 1)) + 1 := by omega
        rw [this, List.take_succ_cons]
        intro x hx
        rcases List.mem_cons.mp hx with rfl | hx
        · exact ⟨hb, hb0⟩
        · exact h2 x hx

theorem takeWhile_append_zero (p r : List Nat) (hp : ∀ b ∈ p, b ≠ 0) :
    (p ++ 0 :: r).takeWhile (fun c => c ≠ 0) = p := by
  induction p with
  | nil => simp [List.takeWhile]
  | cons b bs ih =>
    have hb : b ≠ 0 := hp b (List.mem_cons_self _ _)
    simp only [List.cons_append, List.takeWhile_cons, hb, ne_eq, not_false_eq_true,
      decide_True, if_true]
    rw [ih (fun x hx => hp x (List.mem_cons_of_mem _ hx))]

/-- The copy made by `tokenizer_string` for a terminated payload shorter than
the buffer: the call succeeds, the buffer keeps its size and holds the
payload as a C string. -/
theorem tokenizer_string_ok (t : Tokenizer) (dest : List Nat) (p : List Nat)
    (hshown : (Lexeme.str p).shown t = true) (hlen : p.length < 40)
    (hdest : dest.length = 40) :
    ∃ buf, tokenizer_string t dest MAX_STRINGLEN = some buf ∧ buf.length = 40
      ∧ c_string buf = p := by
  simp only [Lexeme.shown, Bool.and_eq_true, decide_eq_true_eq] at hshown
  obtain ⟨⟨htok, hchr⟩, htake⟩ := hshown
  have hspec := custom_strchr_loop_spec 34 (by decide) _ _ _ hchr
  have hp0 : ∀ b ∈ p, b ≠ 0 := by
    intro b hb
    have := hspec.2 b (by
      have : t.ptr + 1 + p.length - (t.ptr + 1) = p.length := by omega
      rw [this, htake]; exact hb)
    exact this.2
  unfold tokenizer_string
  simp only [htok, ne_eq, not_true_eq_false, if_false, hchr]
  have e1 : ((t.ptr + 1 + p.length : Nat) : Int) - (t.ptr : Int) - 1 = (p.length : Int) := by
    push_cast; ring
  simp only [e1, MAX_STRINGLEN]
  have e2 : ¬ ((40 : Nat) : Int) < (p.length : Int) := by push_cast; omega
  simp only [e2, if_false, Int.toNat_ofNat, memcpy, htake]
  have e3 : p.length < (p ++ dest.drop p.length).length := by
    simp only [List.length_append, List.length_drop]; omega
  simp only [aset, Int.natCast_nonneg, Int.toNat_ofNat, e3, and_self, if_true]
  refine ⟨_, rfl, ?_, ?_⟩
  · simp only [List.length_set, List.length_append, List.length_drop]; omega
  · obtain ⟨x, xs, hx⟩ : ∃ x xs, dest.drop p.length = x :: xs := by
      cases h : dest.drop p.length with
      | nil =>
        have := congrArg List.length h
        simp only [List.length_drop, List.length_nil] at this
        omega
      | cons x xs => exact ⟨x, xs, rfl⟩
    rw [hx]
    have : (p ++ x :: xs).set p.length 0 = p ++ 0 :: xs := by
      rw [List.set_append_right _ _ (le_refl _)]
      simp
    rw [c_string, this]
    exact takeWhile_append_zero p xs hp0

theorem printed_printed (s : State) (t t' : Tokenizer) (b b' : List Nat)
    (e e' : List Event) :
    (s.printed t b e).printed t' b' e' = s.printed t' b' (e ++ e') := by
  simp [State.printed, List.append_assoc]

theorem printed_self (s : State) : s.printed s.tok s.string [] = s := by
  simp [State.printed]

theorem print_start_not_op {k : Token} (h : is_print_start k = true) :
    is_mul_op k = false ∧ is_add_op k = false := by
  cases k <;> simp [is_print_start] at h <;> exact ⟨rfl, rfl⟩

theorem shown_head_token {t t' : Tokenizer} {x : Lexeme} {xs ys : List Lexeme}
    (h : scan t (x :: ys) = some t') (hx : starts_plain (x :: xs) = true) :
    t.current_token = TOKENIZER_NUMBER ∨ t.current_token = TOKENIZER_VARIABLE := by
  obtain ⟨h1, _⟩ := scan_cons_some h
  cases x with
  | num n => exact Or.inl (shown_num h1).1
  | var v => exact Or.inr (shown_var h1).1
  | str p => simp [starts_plain] at hx
  | sym k => simp [starts_plain] at hx

theorem shown_str_token {t : Tokenizer} {p : List Nat} (h : (Lexeme.str p).shown t = true) :
    t.current_token = TOKENIZER_STRING := by
  simp only [Lexeme.shown, Bool.and_eq_true, decide_eq_true_eq, tokenizer_token] at h
  exact h.1.1

/-- The token at the start of an admitted item. -/
theorem item_start_token (it : PrintItem) (more : List Lexeme) (t t' : Tokenizer)
    (hadm : it.admitted = true) (h : scan t (it.toks ++ more) = some t') :
    is_print_start t.current_token = true := by
  cases it with
  | str p =>
    obtain ⟨h1, _⟩ := scan_cons_some (by simpa [PrintItem.toks] using h)
    rw [shown_str_token h1]; rfl
  | comma =>
    obtain ⟨h1, _⟩ := scan_cons_some (by simpa [PrintItem.toks] using h)
    rw [shown_sym h1]; rfl
  | semicolon =>
    obtain ⟨h1, _⟩ := scan_cons_some (by simpa [PrintItem.toks] using h)
    rw [shown_sym h1]; rfl
  | expr e =>
    simp only [PrintItem.admitted] at hadm
    simp only [PrintItem.toks] at h
    cases he : e.toks with
    | nil => simp [he, starts_plain] at hadm
    | cons x xs =>
      rw [he] at h hadm
      rcases shown_head_token (by simpa using h) hadm with h1 | h1 <;> rw [h1] <;> rfl

/-- The token after the items read so far: the terminator when no item is
left, the start of the next item otherwise. -/
theorem rest_start_token (rest : List PrintItem) (term : Token) (t tT : Tokenizer)
    (hadm : ∀ it ∈ rest, it.admitted = true)
    (h : scan t (print_toks rest) = some tT) (hT : tT.current_token = term) :
    (rest = [] ∧ t = tT ∧ t.current_token = term)
    ∨ (rest ≠ [] ∧ is_print_start t.current_token = true) := by
  cases rest with
  | nil =>
    simp only [print_toks, scan, Option.some.injEq] at h
    subst h
    exact Or.inl ⟨rfl, rfl, hT⟩
  | cons it rest =>
    refine Or.inr ⟨by simp, ?_⟩
    simp only [print_toks] at h
    exact item_start_token it _ t tT (hadm it (List.mem_cons_self _ _)) h

/-- One pass through the loop body on an admitted item: the item's events are
emitted and the cursor moves past the item. -/
theorem print_item_ok (it : PrintItem) (s : State) (tE : Tokenizer) (evs : List Event)
    (hadm : it.admitted = true) (hs : scan s.tok it.toks = some tE)
    (hev : it.emits (ubasic_get_variable s) = some evs)
    (hbuf : s.string.length = 40)
    (hmul : is_mul_op tE.current_token = false)
    (hadd : is_add_op tE.current_token = false) :
    ∃ buf, buf.length = 40 ∧ ∃ F, ∀ fuel, F ≤ fuel →
      print_item fuel s = .ok true (s.printed tE buf evs) := by
  cases it with
  | str p =>
    simp only [PrintItem.toks] at hs
    obtain ⟨h1, h2⟩ := scan_cons_some hs
    simp only [scan, Option.some.injEq] at h2
    simp only [PrintItem.emits, Option.some.injEq] at hev
    simp only [PrintItem.admitted, MAX_STRINGLEN, decide_eq_true_eq] at hadm
    obtain ⟨buf, hb1, hb2, hb3⟩ := tokenizer_string_ok s.tok s.string p h1 hadm hbuf
    refine ⟨buf, hb2, 0, fun fuel _ => ?_⟩
    unfold print_item
    simp only [tokenizer_token, shown_str_token h1, if_true, hb1]
    simp only [circle_basic_print, hb3, ← hev, ← h2, State.printed]
  | comma =>
    simp only [PrintItem.toks] at hs
    obtain ⟨h1, h2⟩ := scan_cons_some hs
    simp only [scan, Option.some.injEq] at h2
    simp only [PrintItem.emits, Option.some.injEq] at hev
    refine ⟨s.string, hbuf, 0, fun fuel _ => ?_⟩
    unfold print_item
    simp [tokenizer_token, shown_sym h1, circle_basic_print, ← hev, ← h2, State.printed]
  | semicolon =>
    simp only [PrintItem.toks] at hs
    obtain ⟨h1, h2⟩ := scan_cons_some hs
    simp only [scan, Option.some.injEq] at h2
    simp only [PrintItem.emits, Option.some.injEq] at hev
    refine ⟨s.string, hbuf, 0, fun fuel _ => ?_⟩
    unfold print_item
    simp [tokenizer_token, shown_sym h1, ← hev, ← h2, State.printed]
  | expr e =>
    simp only [PrintItem.toks] at hs
    simp only [PrintItem.admitted] at hadm
    simp only [PrintItem.emits, Option.map_eq_some'] at hev
    obtain ⟨n, hn, rfl⟩ := hev
    have htok : s.tok.current_token = TOKENIZER_NUMBER
        ∨ s.tok.current_token = TOKENIZER_VARIABLE := by
      cases he : e.toks with
      | nil => simp [he, starts_plain] at hadm
      | cons x xs =>
        rw [he] at hs hadm
        exact shown_head_token hs hadm
    obtain ⟨F, hF⟩ := expr_ok e s tE n hs hn hmul hadd
    refine ⟨s.string, hbuf, F, fun fuel hf => ?_⟩
    unfold print_item
    rcases htok with h | h <;>
      simp [tokenizer_token, h, hF fuel hf, Res.andThen, circle_basic_print_num,
        State.printed, State.at_cursor]

theorem print_loop_step (fuel : Nat) (s : State) :
    print_loop (fuel + 1) s
      = (print_item fuel s).andThen fun continued s =>
          if continued ∧ tokenizer_token s.tok ≠ TOKENIZER_CR
              ∧ tokenizer_token s.tok ≠ TOKENIZER_ENDOFINPUT then
            print_loop fuel s
          else .ok () s := by
  rw [print_loop]

/-- The loop of `print_statement` on a list of admitted items followed by a
newline or the end of input. -/
theorem print_loop_ok : ∀ (items : List PrintItem) (s : State) (term : Token)
    (tT : Tokenizer) (evs : List Event),
    (term = TOKENIZER_CR ∨ term = TOKENIZER_ENDOFINPUT) →
    (∀ it ∈ items, it.admitted = true) →
    scan s.tok (print_toks items) = some tT → tT.current_token = term →
    print_emits (ubasic_get_variable s) items = some evs →
    s.string.length = 40 →
    ∃ buf, buf.length = 40 ∧ ∃ F, ∀ fuel, F ≤ fuel →
      print_loop fuel s = .ok () (s.printed tT buf evs) := by
  intro items
  induction items with
  | nil =>
    intro s term tT evs hterm _ hs hT hev hbuf
    simp only [print_toks, scan, Option.some.injEq] at hs
    subst hs
    simp only [print_emits, Option.some.injEq] at hev
    subst hev
    refine ⟨s.string, hbuf, 1, fun fuel hf => ?_⟩
    obtain ⟨k, rfl⟩ : ∃ k, fuel = k + 1 := ⟨fuel - 1, by omega⟩
    rw [print_loop_step, printed_self]
    unfold print_item
    rcases hterm with rfl | rfl <;> simp [tokenizer_token, hT, Res.andThen]
  | cons it rest ih =>
    intro s term tT evs hterm hadm hs hT hev hbuf
    simp only [print_toks] at hs
    obtain ⟨tE, h1, h2⟩ := scan_append_some hs
    simp only [print_emits] at hev
    cases ha : it.emits (ubasic_get_variable s) with
    | none => simp [ha] at hev
    | some a =>
      cases hb : print_emits (ubasic_get_variable s) rest with
      | none => simp [ha, hb] at hev
      | some b =>
        simp only [ha, hb, Option.some.injEq] at hev
        subst hev
        have hadm' : ∀ it ∈ rest, it.admitted = true :=
          fun x hx => hadm x (List.mem_cons_of_mem _ hx)
        have hstart := rest_start_token rest term tE tT hadm' h2 hT
        have hnop : is_mul_op tE.current_token = false
            ∧ is_add_op tE.current_token = false := by
          rcases hstart with ⟨_, _, h⟩ | ⟨_, h⟩
          · rw [h]; rcases hterm with rfl | rfl <;> exact ⟨rfl, rfl⟩
          · exact print_start_not_op h
        obtain ⟨buf, hbl, F1, hF1⟩ := print_item_ok it s tE a
          (hadm it (List.mem_cons_self _ _)) h1 ha hbuf hnop.1 hnop.2
        rcases hstart with ⟨hnil, hE, htok⟩ | ⟨_, hps⟩
        · subst hnil
          subst hE
          simp only [print_emits, Option.some.injEq] at hb
          subst hb
          refine ⟨buf, hbl, F1 + 1, fun fuel hf => ?_⟩
          obtain ⟨k, rfl⟩ : ∃ k, fuel = k + 1 := ⟨fuel - 1, by omega⟩
          rw [print_loop_step, hF1 k (by omega)]
          simp only [Res.andThen, List.append_nil]
          have : (s.printed tE buf a).tok.current_token = term := htok
          rcases hterm with rfl | rfl <;> simp [tokenizer_token, this]
        · obtain ⟨buf2, hbl2, F2, hF2⟩ := ih (s.printed tE buf a) term tT b hterm hadm'
            h2 hT hb hbl
          refine ⟨buf2, hbl2, max F1 F2 + 1, fun fuel hf => ?_⟩
          obtain ⟨k, rfl⟩ : ∃ k, fuel = k + 1 := ⟨fuel - 1, by omega⟩
          rw [print_loop_step, hF1 k (by omega)]
          simp only [Res.andThen]
          have h3 : (s.printed tE buf a).tok.current_token = tE.current_token := rfl
          have h4 : tokenizer_token (s.printed tE buf a).tok ≠ TOKENIZER_CR
              ∧ tokenizer_token (s.printed tE buf a).tok ≠ TOKENIZER_ENDOFINPUT := by
            simp only [tokenizer_token, h3]
            constructor <;> intro h <;> rw [h] at hps <;> simp [is_print_start] at hps
          rw [if_pos ⟨trivial, h4.1, h4.2⟩, hF2 k (by omega), printed_printed]

theorem statement_print (fuel : Nat) (s : State) (h : s.tok.current_token = TOKENIZER_PRINT) :
    statement (fuel + 1) s = print_statement fuel s := by
  rw [statement]
  simp [tokenizer_token, h]

/-- C10: a step on a PRINT line emits its items in order and then one
newline.  The line is `N print` followed by admitted items (terminated
strings shorter than 40 bytes, commas, semicolons, expressions that start
with a variable or a number) and a newline or the end of input; every
expression has a value (no `/` or `%` in it divides by zero or divides
-2147483648 by -1); the state is well-formed and has not ended.  The step returns, and the host log grows by
what the items emit (payload of a string, one space for a comma, nothing for
a semicolon, the value of an expression) followed by exactly one newline;
variables and both stacks are unchanged and the cursor is past the
terminator. -/
theorem C10_print_emits_items_then_newline (s : State) (N : Int) (items : List PrintItem)
    (term : Token) (t' : Tokenizer) (evs : List Event)
    (hterm : term = TOKENIZER_CR ∨ term = TOKENIZER_ENDOFINPUT)
    (hadm : ∀ it ∈ items, it.admitted = true)
    (hs : scan s.tok (Lexeme.num N :: Lexeme.sym TOKENIZER_PRINT
            :: (print_toks items ++ [Lexeme.sym term])) = some t')
    (hev : print_emits (ubasic_get_variable s) items = some evs)
    (hwf : s.wf = true) (hended : s.ended = false) :
    ∃ F, ∀ fuel, F ≤ fuel → ∃ s', ubasic_run fuel s = .ok () s'
      ∧ s'.events = s.events ++ evs ++ [Event.print (bytes "\n")]
      ∧ s'.tok = t' ∧ s'.variables_ = s.variables_
      ∧ s'.gosub_stack = s.gosub_stack ∧ s'.gosub_stack_ptr = s.gosub_stack_ptr
      ∧ s'.for_stack = s.for_stack ∧ s'.for_stack_ptr = s.for_stack_ptr := by
  obtain ⟨hx, h1⟩ := scan_cons_some hs
  obtain ⟨hnum, _⟩ := shown_num hx
  have hfin : tokenizer_finished s.tok = false :=
    not_finished_of_scan TOKENIZER_NUMBER TOKENIZER_PRINT hs
      (fun h => (shown_num h).1) (fun u h => shown_sym h) (by decide)
  obtain ⟨hy, h2⟩ := scan_cons_some h1
  have hp := shown_sym hy
  obtain ⟨tT, h3, h4⟩ := scan_append_some h2
  obtain ⟨hz, h5⟩ := scan_cons_some h4
  have hT := shown_sym hz
  simp only [scan, Option.some.injEq] at h5
  obtain ⟨table, ptr, hadd, _⟩ := index_add_ok s (tokenizer_num s.tok) s.tok.ptr hwf
  have hbuf := (wf_unfold hwf).1
  obtain ⟨buf, _, F, hF⟩ := print_loop_ok items
    { s with line_index_table := table, line_index_current_ptr := ptr,
             tok := tokenizer_next (tokenizer_next s.tok) }
    term tT evs hterm hadm h3 hT hev hbuf
  refine ⟨F + 1, fun fuel hf => ?_⟩
  obtain ⟨k, rfl⟩ : ∃ k, fuel = k + 1 := ⟨fuel - 1, by omega⟩
  rw [ubasic_run_line (k + 1) s table ptr hadd hended hfin hnum,
    statement_print k _ hp]
  unfold print_statement
  rw [accept_ok TOKENIZER_PRINT _ hp]
  simp only [Res.andThen]
  have := hF k (by omega)
  simp only [State.at_cursor] at this ⊢
  rw [this]
  simp only [State.printed, circle_basic_print]
  exact ⟨_, rfl, rfl, h5, rfl, rfl, rfl, rfl, rfl⟩

/-- C10 on `print "x=",a` with `a = 5`: the step emits `x=`, a space, 5 and a
newline. -/
theorem C10_print_emits_items_then_newline_witness :
    ∃ F, ∀ fuel, F ≤ fuel → ∃ s',
      ubasic_run fuel (ubasic_set_variable (cursor_on "10 print \"x=\",a\n") 0 5)
        = .ok () s'
      ∧ s'.events
          = (ubasic_set_variable (cursor_on "10 print \"x=\",a\n") 0 5).events
            ++ [Event.print (bytes "x="), Event.print (bytes " "), Event.print_num 5]
            ++ [Event.print (bytes "\n")]
      ∧ s'.tok = ⟨bytes "10 print \"x=\",a\n", 16, 16, TOKENIZER_ENDOFINPUT⟩
      ∧ s'.variables_
          = (ubasic_set_variable (cursor_on "10 print \"x=\",a\n") 0 5).variables_
      ∧ s'.gosub_stack
          = (ubasic_set_variable (cursor_on "10 print \"x=\",a\n") 0 5).gosub_stack
      ∧ s'.gosub_stack_ptr
          = (ubasic_set_variable (cursor_on "10 print \"x=\",a\n") 0 5).gosub_stack_ptr
      ∧ s'.for_stack
          = (ubasic_set_variable (cursor_on "10 print \"x=\",a\n") 0 5).for_stack
      ∧ s'.for_stack_ptr
          = (ubasic_set_variable (cursor_on "10 print \"x=\",a\n") 0 5).for_stack_ptr :=
  C10_print_emits_items_then_newline
    (ubasic_set_variable (cursor_on "10 print \"x=\",a\n") 0 5) 10
    [PrintItem.str (bytes "x="), PrintItem.comma,
      PrintItem.expr (.term (.factor (.var 0)))]
    TOKENIZER_CR _ _ (Or.inl rfl) (by decide!) (by decide!) (by decide!) (by decide!)
    (by decide!)

/-! ### Jump to a missing line (C9) -/

theorem drop_cons_info {text : List Nat} {n c : Nat} {cs : List Nat}
    (h : text.drop n = c :: cs) : byteAt text n = c ∧ text.drop (n + 1) = cs := by
  have hlt : n < text.length := by
    by_contra hge
    rw [List.drop_eq_nil_of_le (by omega)] at h
    cases h
  have h2 := List.drop_eq_getElem_cons hlt
  rw [h] at h2
  obtain ⟨h3, h4⟩ := List.cons.inj h2
  refine ⟨?_, h4.symm⟩
  simp only [byteAt, List.getD_eq_getElem?_getD, List.getElem?_eq_getElem hlt,
    Option.getD_some]
  exact h3.symm

theorem drop_nil_info {text : List Nat} {n : Nat} (h : text.drop n = []) :
    byteAt text n = 0 := by
  have hge : text.length ≤ n := by
    by_contra hlt
    have h2 := List.drop_eq_getElem_cons (l := text) (n := n) (by omega)
    rw [h] at h2
    cases h2
  simp [byteAt, List.getD_eq_getElem?_getD, List.getElem?_eq_none hge]

theorem byteAt_lt_length {text : List Nat} {n : Nat} (h : byteAt text n ≠ 0) :
    n < text.length := by
  by_contra hge
  apply h
  simp [byteAt, List.getD_eq_getElem?_getD, List.getElem?_eq_none (by omega : text.length ≤ n)]

theorem number_loop_spec (t : Tokenizer) :
    ∀ (n i : Nat), ((number_loop t n i).1 = TOKENIZER_NUMBER
        ∨ (number_loop t n i).1 = TOKENIZER_ERROR)
      ∧ (number_loop t n i).2.text = t.text ∧ (number_loop t n i).2.ptr = t.ptr := by
  intro n
  induction n with
  | zero => intro i; simp [number_loop]
  | succ n ih =>
    intro i
    rw [number_loop]
    split
    · split <;> simp
    · exact ih (i + 1)

theorem keyword_loop_spec (t : Tokenizer) :
    ∀ (kws : List (List Nat × Token)) (r : Token × Tokenizer),
      keyword_loop t kws = some r →
      r.1 ∈ kws.map Prod.snd ∧ r.2.text = t.text ∧ r.2.ptr = t.ptr := by
  intro kws
  induction kws with
  | nil => intro r h; simp [keyword_loop] at h
  | cons kw kws ih =>
    intro r h
    obtain ⟨k, tok⟩ := kw
    rw [keyword_loop] at h
    split at h
    · simp only [Option.some.injEq] at h
      subst h
      simp
    · obtain ⟨h1, h2, h3⟩ := ih r h
      exact ⟨by simp [h1], h2, h3⟩

theorem keyword_tokens :
    ∀ k ∈ keywords.map Prod.snd, k ≠ TOKENIZER_NUMBER ∧ k ≠ TOKENIZER_CR
      ∧ k ≠ TOKENIZER_ENDOFINPUT := by
  decide

theorem singlechar_other (c : Nat) (k : Token)
    (h : (if c = 44 then some TOKENIZER_COMMA
      else if c = 59 then some TOKENIZER_SEMICOLON
      else if c = 43 then some TOKENIZER_PLUS
      else if c = 45 then some TOKENIZER_MINUS
      else if c = 38 then some TOKENIZER_AND
      else if c = 124 then some TOKENIZER_OR
      else if c = 42 then some TOKENIZER_ASTR
      else if c = 47 then some TOKENIZER_SLASH
      else if c = 37 then some TOKENIZER_MOD
      else if c = 40 then some TOKENIZER_LEFTPAREN
      else if c = 35 then some TOKENIZER_HASH
      else if c = 41 then some TOKENIZER_RIGHTPAREN
      else if c = 60 then some TOKENIZER_LT
      else if c = 62 then some TOKENIZER_GT
      else if c = 61 then some TOKENIZER_EQ
      else none) = some k) :
    k ≠ TOKENIZER_NUMBER ∧ k ≠ TOKENIZER_ENDOFINPUT ∧ k ≠ TOKENIZER_REM
      ∧ k ≠ TOKENIZER_CR := by
  by_cases h44 : c = 44
  · rw [if_pos h44] at h; cases h; exact ⟨by decide, by decide, by decide, by decide⟩
  rw [if_neg h44] at h
  by_cases h59 : c = 59
  · rw [if_pos h59] at h; cases h; exact ⟨by decide, by decide, by decide, by decide⟩
  rw [if_neg h59] at h
  by_cases h43 : c = 43
  · rw [if_pos h43] at h; cases h; exact ⟨by decide, by decide, by decide, by decide⟩
  rw [if_neg h43] at h
  by_cases h45 : c = 45
  · rw [if_pos h45] at h; cases h; exact ⟨by decide, by decide, by decide, by decide⟩
  rw [if_neg h45] at h
  by_cases h38 : c = 38
  · rw [if_pos h38] at h; cases h; exact ⟨by decide, by decide, by decide, by decide⟩
  rw [if_neg h38] at h
  by_cases h124 : c = 124
  · rw [if_pos h124] at h; cases h; exact ⟨by decide, by decide, by decide, by decide⟩
  rw [if_neg h124] at h
  by_cases h42 : c = 42
  · rw [if_pos h42] at h; cases h; exact ⟨by decide, by decide, by decide, by decide⟩
  rw [if_neg h42] at h
  by_cases h47 : c = 47
  · rw [if_pos h47] at h; cases h; exact ⟨by decide, by decide, by decide, by decide⟩
  rw [if_neg h47] at h
  by_cases h37 : c = 37
  · rw [if_pos h37] at h; cases h; exact ⟨by decide, by decide, by decide, by decide⟩
  rw [if_neg h37] at h
  by_cases h40 : c = 40
  · rw [if_pos h40] at h; cases h; exact ⟨by decide, by decide, by decide, by decide⟩
  rw [if_neg h40] at h
  by_cases h35 : c = 35
  · rw [if_pos h35] at h; cases h; exact ⟨by decide, by decide, by decide, by decide⟩
  rw [if_neg h35] at h
  by_cases h41 : c = 41
  · rw [if_pos h41] at h; cases h; exact ⟨by decide, by decide, by decide, by decide⟩
  rw [if_neg h41] at h
  by_cases h60 : c = 60
  · rw [if_pos h60] at h; cases h; exact ⟨by decide, by decide, by decide, by decide⟩
  rw [if_neg h60] at h
  by_cases h62 : c = 62
  · rw [if_pos h62] at h; cases h; exact ⟨by decide, by decide, by decide, by decide⟩
  rw [if_neg h62] at h
  by_cases h61 : c = 61
  · rw [if_pos h61] at h; cases h; exact ⟨by decide, by decide, by decide, by decide⟩
  rw [if_neg h61] at h
  cases h

theorem singlechar_spec (t : Tokenizer) (k : Token) (h : singlechar t = some k) :
    k ≠ TOKENIZER_NUMBER ∧ k ≠ TOKENIZER_ENDOFINPUT ∧ k ≠ TOKENIZER_REM
      ∧ (k = TOKENIZER_CR → byteAt t.text t.ptr = 10) := by
  unfold singlechar at h
  by_cases h10 : byteAt t.text t.ptr = 10
  · rw [if_pos h10] at h
    cases h
    exact ⟨by decide, by decide, by decide, fun _ => h10⟩
  · rw [if_neg h10] at h
    have hk := singlechar_other _ k h
    exact ⟨hk.1, hk.2.1, hk.2.2.1, fun h => absurd h hk.2.2.2⟩

/-- The branches of `get_next_token`. -/
theorem get_next_token_cases (t : Tokenizer) :
    (byteAt t.text t.ptr = 0 ∧ get_next_token t = (TOKENIZER_ENDOFINPUT, t))
    ∨ (byteAt t.text t.ptr ≠ 0 ∧
        ((is_digit (byteAt t.text t.ptr) = true
            ∧ get_next_token t = number_loop t MAX_NUMLEN 0)
        ∨ (∃ k, singlechar t = some k
            ∧ get_next_token t = (k, { t with nextptr := t.ptr + 1 }))
        ∨ (∃ np, get_next_token t = (TOKENIZER_STRING, { t with nextptr := np }))
        ∨ (∃ r, keyword_loop t keywords = some r ∧ get_next_token t = r)
        ∨ get_next_token t = (TOKENIZER_VARIABLE, { t with nextptr := t.ptr + 1 })
        ∨ get_next_token t = (TOKENIZER_ERROR, t))) := by
  unfold get_next_token
  by_cases h0 : byteAt t.text t.ptr = 0
  · exact Or.inl ⟨h0, by simp [h0]⟩
  refine Or.inr ⟨h0, ?_⟩
  by_cases hd : is_digit (byteAt t.text t.ptr) = true
  · exact Or.inl ⟨hd, by simp [h0, hd]⟩
  cases hs : singlechar t with
  | some k => exact Or.inr (Or.inl ⟨k, rfl, by simp [h0, hd]⟩)
  | none =>
    by_cases hq : byteAt t.text t.ptr = 34
    · exact Or.inr (Or.inr (Or.inl ⟨_, by simp [h0, hd, hq]; rfl⟩))
    cases hk : keyword_loop t keywords with
    | some r => exact Or.inr (Or.inr (Or.inr (Or.inl ⟨r, rfl, by simp [h0, hd, hq]⟩)))
    | none =>
      by_cases hv : 97 ≤ byteAt t.text t.ptr ∧ byteAt t.text t.ptr ≤ 122
      · exact Or.inr (Or.inr (Or.inr (Or.inr (Or.inl (by simp [h0, hd, hq, hv])))))
      · exact Or.inr (Or.inr (Or.inr (Or.inr (Or.inr (by
          simp only [h0, hd, hq, hv, if_false]; rfl)))))

/-- What `get_next_token` guarantees: it moves neither the text nor `ptr`, a
number token starts with a digit, a newline token sits on a newline byte and
sets `nextptr` just past it, and a NUL byte gives the end-of-input token. -/
theorem get_next_token_spec (t : Tokenizer) :
    (get_next_token t).2.text = t.text ∧ (get_next_token t).2.ptr = t.ptr
    ∧ ((get_next_token t).1 = TOKENIZER_NUMBER → is_digit (byteAt t.text t.ptr) = true)
    ∧ ((get_next_token t).1 = TOKENIZER_CR →
        byteAt t.text t.ptr = 10 ∧ (get_next_token t).2.nextptr = t.ptr + 1)
    ∧ (byteAt t.text t.ptr = 0 → (get_next_token t).1 = TOKENIZER_ENDOFINPUT) := by
  rcases get_next_token_cases t with ⟨h0, h⟩ | ⟨h0, h | ⟨k, hs, h⟩ | ⟨np, h⟩ | ⟨r, hk, h⟩ | h | h⟩
  · rw [h]
    exact ⟨rfl, rfl, (fun h => by cases h), (fun h => by cases h), fun _ => rfl⟩
  · obtain ⟨hd, h⟩ := h
    rw [h]
    obtain ⟨h1, h2, h3⟩ := number_loop_spec t MAX_NUMLEN 0
    refine ⟨h2, h3, fun _ => hd, fun h => ?_, fun h => absurd h h0⟩
    rcases h1 with h1 | h1 <;> rw [h1] at h <;> cases h
  · rw [h]
    obtain ⟨k1, k2, k3, k4⟩ := singlechar_spec t k hs
    exact ⟨rfl, rfl, fun h => absurd h k1, fun h => ⟨k4 h, rfl⟩, fun h => absurd h h0⟩
  · rw [h]
    exact ⟨rfl, rfl, (fun h => by cases h), (fun h => by cases h), fun h => absurd h h0⟩
  · rw [h]
    obtain ⟨r1, r2, r3⟩ := keyword_loop_spec t keywords r hk
    obtain ⟨q1, q2, q3⟩ := keyword_tokens r.1 r1
    exact ⟨r2, r3, fun h => absurd h q1, fun h => absurd h q2, fun h => absurd h h0⟩
  · rw [h]
    exact ⟨rfl, rfl, (fun h => by cases h), (fun h => by cases h), fun h => absurd h h0⟩
  · rw [h]
    exact ⟨rfl, rfl, (fun h => by cases h), (fun h => by cases h), fun h => absurd h h0⟩

theorem inv_fresh (t : Tokenizer) :
    Tokenizer.inv { (get_next_token t).2 with current_token := (get_next_token t).1 } := by
  obtain ⟨h1, h2, h3, h4, _⟩ := get_next_token_spec t
  constructor
  · intro h
    obtain ⟨h5, h6⟩ := h4 h
    exact ⟨by simp only [h1, h2]; exact h5, by simp only [h2]; exact h6⟩
  · intro h
    simp only [h1, h2]
    exact h3 h

theorem tokenizer_next_aux_inv :
    ∀ (depth : Nat) (t : Tokenizer), t.inv →
      (tokenizer_next_aux depth t).inv ∧ (tokenizer_next_aux depth t).text = t.text := by
  intro depth
  induction depth with
  | zero => intro t h; exact ⟨h, rfl⟩
  | succ d ih =>
    intro t h
    rw [tokenizer_next_aux]
    by_cases hf : tokenizer_finished t = true
    · rw [if_pos hf]; exact ⟨h, rfl⟩
    rw [if_neg hf]
    simp only
    have hspec := get_next_token_spec
      { t with ptr := skip_blanks (t.text.drop t.nextptr) t.nextptr }
    have hfresh := inv_fresh { t with ptr := skip_blanks (t.text.drop t.nextptr) t.nextptr }
    generalize get_next_token
      { t with ptr := skip_blanks (t.text.drop t.nextptr) t.nextptr } = r at hspec hfresh
    by_cases hr : r.1 = TOKENIZER_REM
    · rw [if_pos hr]
      refine ⟨(ih _ ?_).1, ((ih _ ?_).2).trans hspec.1⟩
      · constructor <;> intro hc <;> simp only [hr] at hc <;> cases hc
      · constructor <;> intro hc <;> simp only [hr] at hc <;> cases hc
    · rw [if_neg hr]
      exact ⟨hfresh, hspec.1⟩

theorem tokenizer_next_inv (t : Tokenizer) (h : t.inv) :
    (tokenizer_next t).inv ∧ (tokenizer_next t).text = t.text :=
  tokenizer_next_aux_inv _ t h

theorem skip_blanks_at_end {text : List Nat} {n : Nat} (h : byteAt text n = 0) :
    skip_blanks (text.drop n) n = n := by
  cases hd : text.drop n with
  | nil => rfl
  | cons c cs =>
    have := (drop_cons_info hd).1
    rw [h] at this
    subst this
    simp [skip_blanks]

theorem rem_loop_stops (text : List Nat) :
    ∀ (l : List Nat) (n : Nat), text.drop n = l →
      byteAt text (rem_loop l n) = 10 ∨ byteAt text (rem_loop l n) = 0 := by
  intro l
  induction l with
  | nil => intro n h; exact Or.inr (by simpa [rem_loop] using drop_nil_info h)
  | cons c cs ih =>
    intro n h
    obtain ⟨h1, h2⟩ := drop_cons_info h
    rw [rem_loop]
    by_cases hc : c = 10
    · simp only [hc, decide_True, Bool.true_or, Bool.not_true, Bool.false_eq_true, if_false]
      rw [h1, hc]; exact Or.inl rfl
    by_cases h0 : c = 0
    · simp only [h0, decide_True, Bool.or_true, Bool.not_true, Bool.false_eq_true, if_false]
      rw [h1, h0]; exact Or.inr rfl
    · simp only [hc, h0, decide_False, Bool.or_self, Bool.not_false, if_true]
      exact ih (n + 1) h2

theorem mem_line_starts {text : List Nat} {q : Nat} (hq : 0 < q)
    (h : byteAt text (q - 1) = 10) :
    skip_blanks (text.drop q) q ∈ line_starts text := by
  have hlt : q - 1 < text.length := byteAt_lt_length (by rw [h]; decide)
  unfold line_starts
  refine List.mem_cons_of_mem _ (List.mem_filterMap.mpr ⟨q - 1, List.mem_range.mpr hlt, ?_⟩)
  have : q - 1 + 1 = q := by omega
  simp [h, this]

/-- A number token reached by `tokenizer_next` from a cursor whose `nextptr`
is just past a newline (or at the end of the text) starts a line. -/
theorem tokenizer_next_aux_line_start :
    ∀ (depth : Nat) (t : Tokenizer), t.current_token ≠ TOKENIZER_NUMBER →
      ((0 < t.nextptr ∧ byteAt t.text (t.nextptr - 1) = 10) ∨ byteAt t.text t.nextptr = 0) →
      (tokenizer_next_aux depth t).current_token = TOKENIZER_NUMBER →
      (tokenizer_next_aux depth t).ptr ∈ line_starts t.text := by
  intro depth
  induction depth with
  | zero => intro t h _ hn; exact absurd hn h
  | succ d ih =>
    intro t h hnl
    rw [tokenizer_next_aux]
    by_cases hf : tokenizer_finished t = true
    · rw [if_pos hf]; intro hn; exact absurd hn h
    rw [if_neg hf]
    simp only
    have hspec := get_next_token_spec
      { t with ptr := skip_blanks (t.text.drop t.nextptr) t.nextptr }
    simp only at hspec
    generalize get_next_token
      { t with ptr := skip_blanks (t.text.drop t.nextptr) t.nextptr } = r at hspec
    obtain ⟨e1, e2, _, _, e5⟩ := hspec
    by_cases hr : r.1 = TOKENIZER_REM
    · rw [if_pos hr]
      intro hn
      have := ih _ (by simp only [hr]; decide) ?_ hn
      · simpa only [e1] using this
      · simp only [e1]
        rcases rem_loop_stops t.text (t.text.drop r.2.nextptr) r.2.nextptr rfl with h10 | h0
        · left
          rw [if_pos h10]
          exact ⟨by omega, by simpa using h10⟩
        · right
          have hne : ¬ byteAt t.text (rem_loop (t.text.drop r.2.nextptr) r.2.nextptr) = 10 := by
            rw [h0]; decide
          rw [if_neg hne]
          exact h0
    · rw [if_neg hr]
      intro hn
      simp only at hn ⊢
      rw [e2]
      rcases hnl with ⟨hq, h10⟩ | h0
      · exact mem_line_starts hq h10
      · exfalso
        rw [skip_blanks_at_end h0] at e5
        rw [e5 h0] at hn
        cases hn

theorem jump_skip_line_spec :
    ∀ (fuel : Nat) (t u : Tokenizer), t.inv → jump_skip_line fuel t = some u →
      u.inv ∧ u.text = t.text
      ∧ (u.current_token = TOKENIZER_CR ∨ u.current_token = TOKENIZER_ENDOFINPUT) := by
  intro fuel
  induction fuel with
  | zero => intro t u _ h; simp [jump_skip_line] at h
  | succ f ih =>
    intro t u hinv h
    rw [jump_skip_line] at h
    obtain ⟨h1, h2⟩ := tokenizer_next_inv t hinv
    simp only [tokenizer_token] at h
    split at h
    · obtain ⟨a, b, c⟩ := ih _ u h1 h
      exact ⟨a, b.trans h2, c⟩
    · rename_i hc
      simp only [Option.some.injEq] at h
      subst h
      refine ⟨h1, h2, ?_⟩
      by_cases hcr : (tokenizer_next t).current_token = TOKENIZER_CR
      · exact Or.inl hcr
      · by_cases he : (tokenizer_next t).current_token = TOKENIZER_ENDOFINPUT
        · exact Or.inr he
        · exact absurd ⟨hcr, he⟩ hc

theorem jump_next_line_spec :
    ∀ (fuel : Nat) (t u : Tokenizer), t.inv → jump_next_line fuel t = some u →
      u.inv ∧ u.text = t.text ∧ u.current_token = TOKENIZER_NUMBER
      ∧ u.ptr ∈ line_starts t.text := by
  intro fuel
  induction fuel with
  | zero => intro t u _ h; simp [jump_next_line] at h
  | succ f ih =>
    intro t u hinv h
    rw [jump_next_line] at h
    cases hs : jump_skip_line f t with
    | none => simp [hs] at h
    | some tc =>
      obtain ⟨c1, c2, c3⟩ := jump_skip_line_spec f t tc hinv hs
      simp only [hs, tokenizer_token] at h
      by_cases hcr : tc.current_token = TOKENIZER_CR
      · simp only [hcr, if_true] at h
        obtain ⟨n1, n2⟩ := tokenizer_next_inv tc c1
        obtain ⟨b10, bnp⟩ := c1.1 hcr
        split at h
        · obtain ⟨a, b, c, d⟩ := ih _ u n1 h
          exact ⟨a, b.trans (n2.trans c2), c, by rw [n2, c2] at d; exact d⟩
        · rename_i hn
          simp only [Option.some.injEq] at h
          subst h
          have hnum : (tokenizer_next tc).current_token = TOKENIZER_NUMBER := by
            by_contra hne; exact hn hne
          refine ⟨n1, n2.trans c2, hnum, ?_⟩
          rw [← c2]
          exact tokenizer_next_aux_line_start _ tc (by rw [hcr]; decide)
            (Or.inl ⟨by omega, by rw [bnp]; simpa using b10⟩) hnum
      · have he : tc.current_token = TOKENIZER_ENDOFINPUT := by
          rcases c3 with h' | h'
          · exact absurd h' hcr
          · exact h'
        rw [if_neg hcr] at h
        have hne : tc.current_token ≠ TOKENIZER_NUMBER := by rw [he]; decide
        rw [if_pos hne] at h
        obtain ⟨a, b, c, d⟩ := ih _ u c1 h
        exact ⟨a, b.trans c2, c, by rw [c2] at d; exact d⟩

/-- The outer loop of the slow jump never finds a number that no line of the
text starts with. -/
theorem jump_scan_none (text : List Nat) (L : Int) (hno : no_line_numbered text L = true) :
    ∀ (fuel : Nat) (t : Tokenizer), t.inv → t.text = text → tokenizer_num t ≠ L →
      jump_scan fuel L t = none := by
  intro fuel
  induction fuel with
  | zero => intro t _ _ _; rfl
  | succ f ih =>
    intro t hinv htext hnum
    rw [jump_scan, if_pos hnum]
    cases hn : jump_next_line f t with
    | none => rfl
    | some u =>
      obtain ⟨a, b, c, d⟩ := jump_next_line_spec f t u hinv hn
      simp only
      apply ih u a (b.trans htext)
      have hall := List.all_eq_true.mp hno u.ptr (by rw [← htext]; exact d)
      have hdig := a.2 c
      rw [b, htext] at hdig
      simp only [hdig, Bool.not_true, Bool.false_or, decide_eq_true_eq] at hall
      simp only [tokenizer_num, b, htext]
      exact hall

theorem tokenizer_init_inv (t : Tokenizer) (program : List Nat) :
    (tokenizer_init t program).inv ∧ (tokenizer_init t program).text = program
    ∧ (tokenizer_init t program).ptr = 0 := by
  unfold tokenizer_init tokenizer_goto
  obtain ⟨h1, h2, _⟩ := get_next_token_spec { t with text := program, ptr := 0 }
  exact ⟨inv_fresh _, h1, h2⟩

/-- C9: a jump to a line number that no line of the program carries never
returns.  The program starts with a line-number token, no line of its text
starts with the number `L`, and `L` is not in the line index: the index
holds the number token each step so far began on, so this holds whenever every
step began on the number of a line (`index_find_no_line`), and can fail after
a step that began in mid-line.  Then `jump_linenum` takes the slow path and, whatever
the fuel, never returns: it neither lands on a line nor reaches `HALT()` nor
reports anything. -/
theorem C9_jump_to_missing_line_never_returns (s : State) (L : Int)
    (hfirst : (tokenizer_init s.tok s.tok.text).current_token = TOKENIZER_NUMBER)
    (hno : no_line_numbered s.tok.text L = true)
    (hidx : index_find s L = some none) :
    ∀ fuel, jump_linenum fuel L s = .timeout := by
  intro fuel
  obtain ⟨hinv, htext, hptr⟩ := tokenizer_init_inv s.tok s.tok.text
  have hnum : tokenizer_num (tokenizer_init s.tok s.tok.text) ≠ L := by
    have hdig := hinv.2 hfirst
    rw [htext, hptr] at hdig
    have hall := List.all_eq_true.mp hno 0 (by simp [line_starts])
    simp only [hdig, Bool.not_true, Bool.false_or, decide_eq_true_eq] at hall
    simp only [tokenizer_num, htext, hptr]
    exact hall
  unfold jump_linenum
  rw [hidx]
  simp only
  unfold jump_linenum_slow
  rw [jump_scan_none s.tok.text L hno fuel _ hinv htext hnum]

/-- C9 on the program `10 goto 30 / 20 end`: the jump to line 30 never
returns. -/
theorem C9_jump_to_missing_line_never_returns_witness :
    no_line_numbered (bytes "10 goto 30\n20 end\n") 30 = true
    ∧ ∀ fuel, jump_linenum fuel 30 (cursor_on "10 goto 30\n20 end\n") = .timeout :=
  ⟨by decide!,
   C9_jump_to_missing_line_never_returns (cursor_on "10 goto 30\n20 end\n") 30
    (by decide!) (by decide!) (by decide!)⟩

/-! ### Jump to the line after a comment (C8) -/

theorem jump_skip_line_det :
    ∀ (n m : Nat) (t u u' : Tokenizer), jump_skip_line n t = some u →
      jump_skip_line m t = some u' → u = u' := by
  intro n
  induction n with
  | zero => intro m t u u' h; simp [jump_skip_line] at h
  | succ n ih =>
    intro m t u u' h h'
    cases m with
    | zero => simp [jump_skip_line] at h'
    | succ m =>
      rw [jump_skip_line] at h h'
      split at h
      · rename_i hc
        rw [if_pos hc] at h'
        exact ih m _ u u' h h'
      · rename_i hc
        rw [if_neg hc] at h'
        exact Option.some.inj (h.symm.trans h')

theorem jump_next_line_det :
    ∀ (n m : Nat) (t u u' : Tokenizer), jump_next_line n t = some u →
      jump_next_line m t = some u' → u = u' := by
  intro n
  induction n with
  | zero => intro m t u u' h; simp [jump_next_line] at h
  | succ n ih =>
    intro m t u u' h h'
    cases m with
    | zero => simp [jump_next_line] at h'
    | succ m =>
      rw [jump_next_line] at h h'
      cases h1 : jump_skip_line n t with
      | none => simp [h1] at h
      | some tc =>
        cases h2 : jump_skip_line m t with
        | none => simp [h2] at h'
        | some tc' =>
          have := jump_skip_line_det n m t tc tc' h1 h2
          subst this
          simp only [h1, h2] at h h'
          generalize (if tokenizer_token tc = TOKENIZER_CR then tokenizer_next tc else tc)
            = t2 at h h'
          by_cases hc : tokenizer_token t2 ≠ TOKENIZER_NUMBER
          · rw [if_pos hc] at h h'
            exact ih m _ u u' h h'
          · rw [if_neg hc] at h h'
            exact Option.some.inj (h.symm.trans h')

/-- At the end of input the line scan makes no progress: the middle loop of
`jump_linenum_slow` never leaves. -/
theorem jump_next_line_at_end :
    ∀ (fuel : Nat) (t : Tokenizer), t.current_token = TOKENIZER_ENDOFINPUT →
      jump_next_line fuel t = none := by
  intro fuel
  induction fuel with
  | zero => intro t _; rfl
  | succ f ih =>
    intro t h
    have hfin : tokenizer_finished t = true := by simp [tokenizer_finished, h]
    rw [jump_next_line]
    cases f with
    | zero => rfl
    | succ f' =>
      have hs : jump_skip_line (f' + 1) t = some t := by
        rw [jump_skip_line, tokenizer_next_finished t hfin]
        simp [tokenizer_token, h]
      rw [hs]
      simp only [tokenizer_token, h]
      have h1 : ¬ (TOKENIZER_ENDOFINPUT : Token) = TOKENIZER_CR := by decide
      have h2 : (TOKENIZER_ENDOFINPUT : Token) ≠ TOKENIZER_NUMBER := by decide
      rw [if_neg h1, h, if_pos h2]
      exact ih t h

theorem index_add_first (s : State) (n : Int) (p : Nat) (hwf : s.wf = true)
    (h0 : s.line_index_current_ptr = 0) :
    index_add s n p
      = .ok () { s with line_index_table := s.line_index_table.set 0 ⟨n, p⟩,
                        line_index_current_ptr := 1 } := by
  have hlen := (wf_unfold hwf).2.2.2.2.2.2.2.2.1
  unfold index_add index_find
  simp only [h0, Int.toNat_zero, index_find_loop, MAX_LINE_INDEXES, aset, hlen]
  rfl

theorem index_find_single (s : State) (n L : Int) (p : Nat) (hwf : s.wf = true)
    (hne : n ≠ L) :
    index_find { s with line_index_table := s.line_index_table.set 0 ⟨n, p⟩,
                        line_index_current_ptr := 1 } L = some none := by
  have hlen := (wf_unfold hwf).2.2.2.2.2.2.2.2.1
  have hpos : 0 < s.line_index_table.length := by omega
  unfold index_find
  simp only [Int.toNat_one, index_find_loop, aget, le_refl, if_true, Int.toNat_zero,
    List.get?_eq_getElem?, List.getElem?_set_self hpos, hne, if_false]

theorem statement_goto (fuel : Nat) (s : State) (h : s.tok.current_token = TOKENIZER_GOTO) :
    statement (fuel + 1) s = goto_statement fuel s := by
  rw [statement]
  simp [tokenizer_token, h]

theorem goto_statement_eq (fuel : Nat) (s : State) (h : s.tok.current_token = TOKENIZER_GOTO) :
    goto_statement fuel s
      = jump_linenum fuel (tokenizer_num (tokenizer_next s.tok))
          (s.at_cursor (tokenizer_next s.tok)) := by
  unfold goto_statement
  rw [accept_ok TOKENIZER_GOTO s h]
  rfl

theorem ubasic_run_zero (s : State) (hwf : s.wf = true) (hended : s.ended = false)
    (hfin : tokenizer_finished s.tok = false)
    (hnum : s.tok.current_token = TOKENIZER_NUMBER) : ubasic_run 0 s = .timeout := by
  obtain ⟨table, ptr, hadd, _⟩ := index_add_ok s (tokenizer_num s.tok) s.tok.ptr hwf
  rw [ubasic_run_line 0 s table ptr hadd hended hfin hnum, statement]

/-- On the text `10 goto 30 / 20 rem x / 30 end` the slow scan for line 30
never returns: after the comment the scanner is already inside line 30, so
the scan reaches the end of the text without stopping at its number. -/
theorem jump_scan_past_comment :
    ∀ fuel, jump_scan fuel 30 (cursor_on "10 goto 30\n20 rem x\n30 end\n").tok = none := by
  intro fuel
  cases fuel with
  | zero => rfl
  | succ f =>
    rw [jump_scan, if_pos (by decide!)]
    cases h : jump_next_line f (cursor_on "10 goto 30\n20 rem x\n30 end\n").tok with
    | none => rfl
    | some u =>
      have hu : u = ⟨bytes "10 goto 30\n20 rem x\n30 end\n", 11, 13, TOKENIZER_NUMBER⟩ :=
        jump_next_line_det f 10 _ u _ h (by decide!)
      subst hu
      simp only
      cases f with
      | zero => rfl
      | succ f =>
        rw [jump_scan, if_pos (by decide!)]
        cases h2 : jump_next_line f
            ⟨bytes "10 goto 30\n20 rem x\n30 end\n", 11, 13, TOKENIZER_NUMBER⟩ with
        | none => rfl
        | some u2 =>
          exfalso
          cases f with
          | zero => simp [jump_next_line] at h2
          | succ f =>
            rw [jump_next_line] at h2
            cases h3 : jump_skip_line f
                ⟨bytes "10 goto 30\n20 rem x\n30 end\n", 11, 13, TOKENIZER_NUMBER⟩ with
            | none => simp [h3] at h2
            | some tc =>
              have htc : tc = ⟨bytes "10 goto 30\n20 rem x\n30 end\n", 26, 27, TOKENIZER_CR⟩ :=
                jump_skip_line_det f 10 _ tc _ h3 (by decide!)
              subst htc
              simp only [h3] at h2
              have e1 : (if tokenizer_token
                    (⟨bytes "10 goto 30\n20 rem x\n30 end\n", 26, 27, TOKENIZER_CR⟩ : Tokenizer)
                      = TOKENIZER_CR then
                    tokenizer_next ⟨bytes "10 goto 30\n20 rem x\n30 end\n", 26, 27, TOKENIZER_CR⟩
                  else ⟨bytes "10 goto 30\n20 rem x\n30 end\n", 26, 27, TOKENIZER_CR⟩)
                  = ⟨bytes "10 goto 30\n20 rem x\n30 end\n", 27, 27, TOKENIZER_ENDOFINPUT⟩ := by
                decide!
              rw [e1] at h2
              rw [if_pos (by decide), jump_next_line_at_end f _ rfl] at h2
              cases h2

theorem index_find_loop_congr (s s' : State) (L : Int)
    (h : s.line_index_table = s'.line_index_table) :
    ∀ (k : Nat) (i : Int), index_find_loop s L k i = index_find_loop s' L k i := by
  intro k
  induction k with
  | zero => intro i; rfl
  | succ k ih => intro i; rw [index_find_loop, index_find_loop, h]; simp only [ih]

theorem index_find_congr (s s' : State) (L : Int)
    (h : s.line_index_table = s'.line_index_table)
    (h' : s.line_index_current_ptr = s'.line_index_current_ptr) :
    index_find s L = index_find s' L := by
  unfold index_find
  rw [h', index_find_loop_congr s s' L h]

/-- C8 (code defect): a jump to the line that follows a comment line never
returns.  On the program `10 goto 30 / 20 rem x / 30 end` the first step,
whatever the fuel, does not return: line 30 exists and is not yet indexed,
but the slow scan of `jump_linenum_slow` never stops at it, because
`tokenizer_next` swallows the newline that ends the comment line.  With
`20 end` in place of the comment line the same step lands on line 30, at
offset 18. -/
theorem C8_jump_to_line_after_comment_never_returns :
    (∀ fuel, ubasic_run fuel (cursor_on "10 goto 30\n20 rem x\n30 end\n") = .timeout)
    ∧ (ubasic_run 50 (cursor_on "10 goto 30\n20 end\n30 end\n")).returned.map
        (fun s => s.tok.ptr) = some 18 := by
  refine ⟨fun fuel => ?_, by decide!⟩
  have hwf : (cursor_on "10 goto 30\n20 rem x\n30 end\n").wf = true := by decide!
  have hended : (cursor_on "10 goto 30\n20 rem x\n30 end\n").ended = false := by decide!
  have hfin : tokenizer_finished (cursor_on "10 goto 30\n20 rem x\n30 end\n").tok = false := by
    decide!
  have hnum : (cursor_on "10 goto 30\n20 rem x\n30 end\n").tok.current_token
      = TOKENIZER_NUMBER := by decide!
  cases fuel with
  | zero => exact ubasic_run_zero _ hwf hended hfin hnum
  | succ k =>
    rw [ubasic_run_line (k + 1) _ _ _ (index_add_first _ _ _ hwf (by decide!)) hended hfin hnum]
    · have hgoto : (tokenizer_next (cursor_on "10 goto 30\n20 rem x\n30 end\n").tok).current_token
          = TOKENIZER_GOTO := by decide!
      rw [statement_goto k _ hgoto, goto_statement_eq k _ hgoto]
      have hL : tokenizer_num
          (tokenizer_next (tokenizer_next (cursor_on "10 goto 30\n20 rem x\n30 end\n").tok))
          = 30 := by decide!
      simp only [at_cursor_tok, hL]
      unfold jump_linenum
      have hfind : ∀ S : State,
          S.line_index_table
            = (cursor_on "10 goto 30\n20 rem x\n30 end\n").line_index_table.set 0
                ⟨tokenizer_num (cursor_on "10 goto 30\n20 rem x\n30 end\n").tok,
                 (cursor_on "10 goto 30\n20 rem x\n30 end\n").tok.ptr⟩ →
          S.line_index_current_ptr = 1 → index_find S 30 = some none :=
        fun S h1 h2 =>
          (index_find_congr S
            { cursor_on "10 goto 30\n20 rem x\n30 end\n" with
              line_index_table :=
                (cursor_on "10 goto 30\n20 rem x\n30 end\n").line_index_table.set 0
                  ⟨tokenizer_num (cursor_on "10 goto 30\n20 rem x\n30 end\n").tok,
                   (cursor_on "10 goto 30\n20 rem x\n30 end\n").tok.ptr⟩
              line_index_current_ptr := 1 } 30 h1 h2).trans
            (index_find_single _ _ 30 _ hwf (by decide!))
      rw [hfind _ rfl rfl]
      simp only
      unfold jump_linenum_slow
      have ht : tokenizer_init
          (tokenizer_next (tokenizer_next (cursor_on "10 goto 30\n20 rem x\n30 end\n").tok))
          (tokenizer_next (tokenizer_next (cursor_on "10 goto 30\n20 rem x\n30 end\n").tok)).text
          = (cursor_on "10 goto 30\n20 rem x\n30 end\n").tok := by decide!
      simp only [State.at_cursor, ht, jump_scan_past_comment k]

/-! ### Programs and jumps -/

theorem shown_token {t : Tokenizer} {x : Lexeme} (h : x.shown t = true) :
    t.current_token = x.token := by
  cases x with
  | num n => exact (shown_num h).1
  | var v => exact (shown_var h).1
  | str p => exact shown_str_token h
  | sym k => exact shown_sym h

/-- The innermost loop of the slow jump, run from the number token of a line,
stops on the newline that ends the line. -/
theorem jump_skip_line_body :
    ∀ (body : List Lexeme) (t u : Tokenizer),
      (∀ x ∈ body, x.token ≠ TOKENIZER_CR ∧ x.token ≠ TOKENIZER_ENDOFINPUT) →
      scan (tokenizer_next t) (body ++ [Lexeme.sym TOKENIZER_CR]) = some u →
      ∃ tcr, tcr.current_token = TOKENIZER_CR ∧ tokenizer_next tcr = u
        ∧ ∃ F, ∀ fuel, F ≤ fuel → jump_skip_line fuel t = some tcr := by
  intro body
  induction body with
  | nil =>
    intro t u _ hs
    obtain ⟨h1, h2⟩ := scan_cons_some (by simpa using hs)
    simp only [scan, Option.some.injEq] at h2
    refine ⟨tokenizer_next t, shown_sym h1, h2, 1, fun fuel hf => ?_⟩
    obtain ⟨k, rfl⟩ : ∃ k, fuel = k + 1 := ⟨fuel - 1, by omega⟩
    rw [jump_skip_line]
    simp [tokenizer_token, shown_sym h1]
  | cons x xs ih =>
    intro t u hclean hs
    obtain ⟨h1, h2⟩ := scan_cons_some (by simpa using hs)
    obtain ⟨tcr, c1, c2, F, hF⟩ := ih (tokenizer_next t) u
      (fun y hy => hclean y (List.mem_cons_of_mem _ hy)) h2
    refine ⟨tcr, c1, c2, F + 1, fun fuel hf => ?_⟩
    obtain ⟨k, rfl⟩ : ∃ k, fuel = k + 1 := ⟨fuel - 1, by omega⟩
    have hx := hclean x (List.mem_cons_self _ _)
    rw [jump_skip_line]
    simp only [tokenizer_token, shown_token h1]
    rw [if_pos ⟨hx.1, hx.2⟩]
    exact hF k (by omega)

theorem clean_unfold {l : TLine} (h : l.clean = true) :
    ∀ x ∈ l.body, x.token ≠ TOKENIZER_CR ∧ x.token ≠ TOKENIZER_ENDOFINPUT := by
  intro x hx
  have := List.all_eq_true.mp h x hx
  simpa using this

/-- From the number token of a clean line the middle loop of the slow jump
reaches the cursor after the line, when a number token is there. -/
theorem jump_next_line_ok (l : TLine) (t u : Tokenizer) (hclean : l.clean = true)
    (hs : scan t l.toks = some u) (hu : u.current_token = TOKENIZER_NUMBER) :
    ∃ F, ∀ fuel, F ≤ fuel → jump_next_line fuel t = some u := by
  obtain ⟨_, h2⟩ := scan_cons_some hs
  obtain ⟨tcr, c1, c2, F, hF⟩ := jump_skip_line_body l.body t u (clean_unfold hclean) h2
  refine ⟨F + 1, fun fuel hf => ?_⟩
  obtain ⟨k, rfl⟩ : ∃ k, fuel = k + 1 := ⟨fuel - 1, by omega⟩
  rw [jump_next_line, hF k (by omega)]
  simp only [tokenizer_token, c1, if_true, c2, hu, ne_eq, not_true_eq_false, if_false]

theorem prog_toks_append (p q : List TLine) :
    prog_toks (p ++ q) = prog_toks p ++ prog_toks q := by
  induction p with
  | nil => rfl
  | cons l ls ih => simp [prog_toks, ih, List.append_assoc]

/-- The slow scan, started on the number of a line, lands on the first line
numbered `L`: it passes the lines `pre`, none of which has the number `L`,
and stops on the number token `L` after them. -/
theorem jump_scan_lands (L : Int) :
    ∀ (pre : List TLine) (t u : Tokenizer),
      (∀ l ∈ pre, l.clean = true ∧ l.number ≠ L) →
      scan t (prog_toks pre) = some u → (Lexeme.num L).shown u = true →
      ∃ F, ∀ fuel, F ≤ fuel → jump_scan fuel L t = some u := by
  intro pre
  induction pre with
  | nil =>
    intro t u _ hs hu
    simp only [prog_toks, scan, Option.some.injEq] at hs
    subst hs
    refine ⟨1, fun fuel hf => ?_⟩
    obtain ⟨k, rfl⟩ : ∃ k, fuel = k + 1 := ⟨fuel - 1, by omega⟩
    rw [jump_scan]
    simp [(shown_num hu).2]
  | cons l pre ih =>
    intro t u hpre hs hu
    simp only [prog_toks] at hs
    obtain ⟨t', h1, h2⟩ := scan_append_some hs
    obtain ⟨hx, _⟩ := scan_cons_some h1
    have hl := hpre l (List.mem_cons_self _ _)
    have hnum : t'.current_token = TOKENIZER_NUMBER := by
      cases pre with
      | nil =>
        simp only [prog_toks, scan, Option.some.injEq] at h2
        subst h2
        exact (shown_num hu).1
      | cons l' pre' =>
        simp only [prog_toks, TLine.toks, List.cons_append] at h2
        exact (shown_num (scan_cons_some h2).1).1
    obtain ⟨F1, hF1⟩ := jump_next_line_ok l t t' hl.1 h1 hnum
    obtain ⟨F2, hF2⟩ := ih t' u (fun x hx => hpre x (List.mem_cons_of_mem _ hx)) h2 hu
    refine ⟨max F1 F2 + 1, fun fuel hf => ?_⟩
    obtain ⟨k, rfl⟩ : ∃ k, fuel = k + 1 := ⟨fuel - 1, by omega⟩
    rw [jump_scan]
    have : tokenizer_num t ≠ L := by rw [(shown_num hx).2]; exact hl.2
    rw [if_pos this, hF1 k (by omega)]
    exact hF2 k (by omega)

theorem number_loop_congr (x y : Tokenizer) (ht : x.text = y.text) (hp : x.ptr = y.ptr) :
    ∀ (n i : Nat), (number_loop x n i).1 = (number_loop y n i).1
      ∧ ((number_loop x n i).1 = TOKENIZER_NUMBER →
          (number_loop x n i).2.nextptr = (number_loop y n i).2.nextptr) := by
  intro n
  induction n with
  | zero => intro i; simp [number_loop]
  | succ n ih =>
    intro i
    rw [number_loop, number_loop, ht, hp]
    split
    · split
      · simp
      · simp
    · exact ih (i + 1)

/-- On a number token `tokenizer_goto` depends on the text and the offset
only. -/
theorem tokenizer_goto_number_congr (t t' : Tokenizer) (p : Nat) (ht : t.text = t'.text)
    (h : (tokenizer_goto t p).current_token = TOKENIZER_NUMBER) :
    tokenizer_goto t' p = tokenizer_goto t p := by
  unfold tokenizer_goto at h ⊢
  simp only at h ⊢
  have hd : is_digit (byteAt t.text p) = true :=
    (get_next_token_spec { t with ptr := p }).2.2.1 h
  have hne : byteAt t.text p ≠ 0 := by
    intro h0; rw [h0] at hd; cases hd
  have e1 : get_next_token { t with ptr := p } = number_loop { t with ptr := p } MAX_NUMLEN 0 := by
    unfold get_next_token; simp [hne, hd]
  have e2 : get_next_token { t' with ptr := p }
      = number_loop { t' with ptr := p } MAX_NUMLEN 0 := by
    unfold get_next_token; simp [← ht, hne, hd]
  rw [e1] at h
  rw [e1, e2]
  obtain ⟨c1, c2⟩ := number_loop_congr { t with ptr := p } { t' with ptr := p } ht rfl
    MAX_NUMLEN 0
  obtain ⟨_, a2, a3⟩ := number_loop_spec { t with ptr := p } MAX_NUMLEN 0
  obtain ⟨_, b2, b3⟩ := number_loop_spec { t' with ptr := p } MAX_NUMLEN 0
  generalize number_loop { t with ptr := p } MAX_NUMLEN 0 = r at *
  generalize number_loop { t' with ptr := p } MAX_NUMLEN 0 = r' at *
  obtain ⟨k, ⟨tx, px, nx, cx⟩⟩ := r
  obtain ⟨k', ⟨tx', px', nx', cx'⟩⟩ := r'
  simp only at *
  subst c1 a2 a3 b3
  rw [c2 h, b2, ht]

theorem tokenizer_next_aux_text :
    ∀ (depth : Nat) (t : Tokenizer), (tokenizer_next_aux depth t).text = t.text := by
  intro depth
  induction depth with
  | zero => intro t; rfl
  | succ d ih =>
    intro t
    rw [tokenizer_next_aux]
    split
    · rfl
    · simp only
      have h1 := (get_next_token_spec
        { t with ptr := skip_blanks (t.text.drop t.nextptr) t.nextptr }).1
      split
      · rw [ih]; exact h1
      · exact h1

theorem tokenizer_next_text (t : Tokenizer) : (tokenizer_next t).text = t.text :=
  tokenizer_next_aux_text _ t

theorem scan_text : ∀ (xs : List Lexeme) (t u : Tokenizer), scan t xs = some u →
    u.text = t.text := by
  intro xs
  induction xs with
  | nil => intro t u h; simp only [scan, Option.some.injEq] at h; rw [h]
  | cons x xs ih =>
    intro t u h
    obtain ⟨_, h2⟩ := scan_cons_some h
    rw [ih _ u h2, tokenizer_next_text]

theorem tokenizer_goto_text (t : Tokenizer) (p : Nat) :
    (tokenizer_goto t p).text = t.text ∧ (tokenizer_goto t p).ptr = p := by
  unfold tokenizer_goto
  obtain ⟨h1, h2, _⟩ := get_next_token_spec { t with ptr := p }
  exact ⟨h1, h2⟩

/-- A number token reached by `tokenizer_next` from another token is what
`tokenizer_goto` gives at its offset. -/
theorem tokenizer_next_aux_is_goto :
    ∀ (depth : Nat) (t : Tokenizer), t.current_token ≠ TOKENIZER_NUMBER →
      (tokenizer_next_aux depth t).current_token = TOKENIZER_NUMBER →
      ∃ t1 p, tokenizer_next_aux depth t = tokenizer_goto t1 p ∧ t1.text = t.text := by
  intro depth
  induction depth with
  | zero => intro t h hn; exact absurd hn h
  | succ d ih =>
    intro t h
    rw [tokenizer_next_aux]
    by_cases hf : tokenizer_finished t = true
    · rw [if_pos hf]; intro hn; exact absurd hn h
    rw [if_neg hf]
    simp only
    have e1 := (get_next_token_spec
      { t with ptr := skip_blanks (t.text.drop t.nextptr) t.nextptr }).1
    by_cases hr : (get_next_token
        { t with ptr := skip_blanks (t.text.drop t.nextptr) t.nextptr }).1 = TOKENIZER_REM
    · rw [if_pos hr]
      intro hn
      obtain ⟨t1, p, h1, h2⟩ := ih _ (by simp only [hr]; decide) hn
      exact ⟨t1, p, h1, h2.trans e1⟩
    · rw [if_neg hr]
      intro _
      exact ⟨t, skip_blanks (t.text.drop t.nextptr) t.nextptr, rfl, rfl⟩

/-- A cursor on a number token that `tokenizer_goto` produced is reproduced
by `tokenizer_goto` at its offset from any cursor on the same text. -/
theorem tokenizer_goto_back (u t1 t : Tokenizer) (p : Nat) (hu : u = tokenizer_goto t1 p)
    (hn : u.current_token = TOKENIZER_NUMBER) (ht : t.text = u.text) :
    tokenizer_goto t u.ptr = u := by
  subst hu
  obtain ⟨h1, h2⟩ := tokenizer_goto_text t1 p
  rw [h2]
  exact tokenizer_goto_number_congr t1 t p (by rw [ht, h1]) hn

theorem scan_line_end (l : TLine) (t u : Tokenizer) (h : scan t l.toks = some u) :
    ∃ tcr, tcr.current_token = TOKENIZER_CR ∧ u = tokenizer_next tcr := by
  have h' : scan t ((Lexeme.num l.number :: l.body) ++ [Lexeme.sym TOKENIZER_CR]) = some u := by
    simpa [TLine.toks] using h
  obtain ⟨tcr, _, h2⟩ := scan_append_some h'
  obtain ⟨h3, h4⟩ := scan_cons_some h2
  simp only [scan, Option.some.injEq] at h4
  exact ⟨tcr, shown_sym h3, h4.symm⟩

theorem start_cursor_text (text : List Nat) :
    (start_cursor text).text = text ∧ (start_cursor text).ptr = 0 := by
  obtain ⟨_, h1, h2⟩ := tokenizer_init_inv State.initial.tok text
  exact ⟨h1, h2⟩

theorem scan_append_of {xs ys : List Lexeme} :
    ∀ {t a b : Tokenizer}, scan t xs = some a → scan a ys = some b →
      scan t (xs ++ ys) = some b := by
  induction xs with
  | nil =>
    intro t a b h1 h2
    simp only [scan, Option.some.injEq] at h1
    subst h1
    exact h2
  | cons x xs ih =>
    intro t a b h1 h2
    obtain ⟨hx, h1'⟩ := scan_cons_some h1
    simp only [List.cons_append, scan, hx, if_true]
    exact ih h1' h2

theorem is_program_unfold {text : List Nat} {p : List TLine} (h : is_program text p = true) :
    (∃ te, scan (start_cursor text) (prog_toks p) = some te)
    ∧ (∀ l ∈ p, l.clean = true) ∧ (p.map TLine.number).Nodup := by
  simp only [is_program, Bool.and_eq_true, decide_eq_true_eq, List.all_eq_true,
    Option.isSome_iff_exists] at h
  exact ⟨h.1.1, h.1.2, h.2⟩

theorem line_cursor_exists {text : List Nat} {p : List TLine} {te : Tokenizer}
    (h : scan (start_cursor text) (prog_toks p) = some te) (k : Nat) :
    ∃ u, line_cursor text p k = some u ∧ scan u (prog_toks (p.drop k)) = some te := by
  have : prog_toks p = prog_toks (p.take k) ++ prog_toks (p.drop k) := by
    rw [← prog_toks_append, List.take_append_drop]
  rw [this] at h
  obtain ⟨u, h1, h2⟩ := scan_append_some h
  exact ⟨u, h1, h2⟩

theorem line_cursor_step {text : List Nat} {p : List TLine} (hprog : is_program text p = true)
    {k : Nat} {l : TLine} (hk : p.get? k = some l) :
    ∃ u u', line_cursor text p k = some u ∧ line_cursor text p (k + 1) = some u'
      ∧ scan u l.toks = some u' ∧ (Lexeme.num l.number).shown u = true := by
  obtain ⟨⟨te, hte⟩, _, _⟩ := is_program_unfold hprog
  obtain ⟨u, h1, h2⟩ := line_cursor_exists hte k
  have hlt : k < p.length := by
    rw [List.get?_eq_getElem?] at hk
    exact (List.getElem?_eq_some_iff.mp hk).1
  have hl : p[k] = l := by
    rw [List.get?_eq_getElem?] at hk
    exact (List.getElem?_eq_some_iff.mp hk).2
  have hdrop : p.drop k = l :: p.drop (k + 1) := by
    rw [List.drop_eq_getElem_cons hlt, hl]
  rw [hdrop] at h2
  simp only [prog_toks] at h2
  obtain ⟨u', h3, _⟩ := scan_append_some h2
  refine ⟨u, u', h1, ?_, h3, (scan_cons_some h3).1⟩
  unfold line_cursor at h1 ⊢
  have htake : p.take (k + 1) = p.take k ++ [l] := by
    rw [List.take_succ, List.getElem?_eq_getElem hlt, hl]; rfl
  rw [htake, prog_toks_append]
  simp only [prog_toks, List.append_nil]
  exact scan_append_of h1 h3

/-- The cursor on a line of the program is on the text and is what
`tokenizer_goto` gives at its offset. -/
theorem line_cursor_goto {text : List Nat} {p : List TLine} (hprog : is_program text p = true)
    {k : Nat} {l : TLine} (hk : p.get? k = some l) {u : Tokenizer}
    (hu : line_cursor text p k = some u) :
    u.text = text ∧ ∀ t : Tokenizer, t.text = text → tokenizer_goto t u.ptr = u := by
  obtain ⟨u1, _, e1, _, _, hshown⟩ := line_cursor_step hprog hk
  have := Option.some.inj (hu.symm.trans e1)
  subst this
  have hn := (shown_num hshown).1
  have htext : u.text = text := by
    unfold line_cursor at hu
    rw [scan_text _ _ _ hu, (start_cursor_text text).1]
  refine ⟨htext, fun t ht => ?_⟩
  cases k with
  | zero =>
    simp only [line_cursor, List.take_zero, prog_toks, scan, Option.some.injEq] at hu
    exact tokenizer_goto_back u _ t 0 hu.symm hn (by rw [ht, htext])
  | succ j =>
    have hj : ∃ lj, p.get? j = some lj := by
      have hlt : j + 1 < p.length := by
        rw [List.get?_eq_getElem?] at hk
        exact (List.getElem?_eq_some_iff.mp hk).1
      exact ⟨p[j], by rw [List.get?_eq_getElem?, List.getElem?_eq_getElem (by omega)]⟩
    obtain ⟨lj, hlj⟩ := hj
    obtain ⟨_, u', _, e2, e3, _⟩ := line_cursor_step hprog hlj
    have := Option.some.inj (hu.symm.trans e2)
    subst this
    obtain ⟨tcr, c1, c2⟩ := scan_line_end lj _ u e3
    subst c2
    obtain ⟨t1, q, g1, _⟩ := tokenizer_next_aux_is_goto _ tcr (by rw [c1]; decide) hn
    exact tokenizer_goto_back _ t1 t q g1 hn (by rw [ht, htext])

theorem index_find_loop_some (s : State) (L : Int) (pos : Nat) :
    ∀ (n : Nat) (i : Int), 0 ≤ i → index_find_loop s L n i = some (some pos) →
      ∃ j : Nat, (j : Int) < i + n ∧ s.line_index_table.get? j = some ⟨L, pos⟩ := by
  intro n
  induction n with
  | zero => intro i _ h; simp [index_find_loop] at h
  | succ n ih =>
    intro i h0 h
    rw [index_find_loop] at h
    cases hg : aget s.line_index_table i with
    | none => simp [hg] at h
    | some e =>
      simp only [hg] at h
      split at h
      · rename_i hL
        simp only [Option.some.injEq] at h
        refine ⟨i.toNat, ?_, ?_⟩
        · have : (i.toNat : Int) = i := Int.toNat_of_nonneg h0
          push_cast; omega
        · simp only [aget, h0, if_true] at hg
          rw [hg]
          obtain ⟨ln, pp⟩ := e
          simp only at hL h
          rw [hL, h]
      · obtain ⟨j, h1, h2⟩ := ih (i + 1) (by omega) h
        exact ⟨j, by push_cast at h1 ⊢; omega, h2⟩

theorem index_find_some (s : State) (L : Int) (pos : Nat) (hwf : s.wf = true)
    (h : index_find s L = some (some pos)) :
    ∃ j : Nat, (j : Int) < s.line_index_current_ptr
      ∧ s.line_index_table.get? j = some ⟨L, pos⟩ := by
  have h2 := (wf_unfold hwf).2.2.2.2.2.2.2.2.2.1
  obtain ⟨j, h3, h4⟩ := index_find_loop_some s L pos _ 0 (le_refl 0) h
  refine ⟨j, ?_, h4⟩
  have : (s.line_index_current_ptr.toNat : Int) = s.line_index_current_ptr :=
    Int.toNat_of_nonneg h2
  omega

theorem line_number_unique {p : List TLine} (hnd : (p.map TLine.number).Nodup)
    {k k' : Nat} {l l' : TLine} (hk : p.get? k = some l) (hk' : p.get? k' = some l')
    (hn : l.number = l'.number) : k = k' := by
  rw [List.get?_eq_getElem?] at hk hk'
  obtain ⟨h1, h2⟩ := List.getElem?_eq_some_iff.mp hk
  obtain ⟨h3, h4⟩ := List.getElem?_eq_some_iff.mp hk'
  have a1 : k < (p.map TLine.number).length := by simpa using h1
  have a2 : k' < (p.map TLine.number).length := by simpa using h3
  have e1 : (p.map TLine.number)[k] = l.number := by simp [h2]
  have e2 : (p.map TLine.number)[k'] = l'.number := by simp [h4]
  exact (List.Nodup.getElem_inj_iff hnd).mp (by rw [e1, e2, hn])

/-- In a program with distinct line numbers, laid out in the text of the
interpreter, with a line index that holds program lines only, a jump to the
number of a line lands on that line, cached or not. -/
theorem jump_linenum_lands {text : List Nat} {p : List TLine}
    (hprog : is_program text p = true) (s : State) (htext : s.tok.text = text)
    (hwf : s.wf = true) (hidx : index_ok text p s) {k : Nat} {l : TLine} {u : Tokenizer}
    (hk : p.get? k = some l) (hu : line_cursor text p k = some u) :
    ∃ F, ∀ fuel, F ≤ fuel → jump_linenum fuel l.number s = .ok () (s.at_cursor u) := by
  obtain ⟨⟨te, hte⟩, hclean, hnd⟩ := is_program_unfold hprog
  obtain ⟨u1, _, e1, _, _, hshown⟩ := line_cursor_step hprog hk
  have := Option.some.inj (hu.symm.trans e1)
  subst this
  obtain ⟨hutext, hgoto⟩ := line_cursor_goto hprog hk hu
  cases hf : index_find s l.number with
  | none => exact absurd hf (index_find_ne_none s l.number hwf)
  | some r =>
    cases r with
    | some pos =>
      obtain ⟨j, hj, hentry⟩ := index_find_some s l.number pos hwf hf
      obtain ⟨k', l', u', a1, a2, a3⟩ := hidx j hj
      have hinj := Option.some.inj (hentry.symm.trans a3)
      have hnum : l.number = l'.number := congrArg line_index.line_number hinj
      have hpos : pos = u'.ptr := congrArg line_index.program_text_position hinj
      have hkk : k = k' := line_number_unique hnd hk a1 hnum
      subst hkk
      have := Option.some.inj (hu.symm.trans a2)
      subst this
      refine ⟨0, fun fuel _ => ?_⟩
      unfold jump_linenum
      rw [hf]
      simp only [hpos, hgoto s.tok htext]
      rfl
    | none =>
      have hstart : tokenizer_init s.tok s.tok.text = start_cursor text := by
        obtain ⟨l0, hl0⟩ : ∃ l0, p.get? 0 = some l0 := by
          have hlt : k < p.length := by
            rw [List.get?_eq_getElem?] at hk
            exact (List.getElem?_eq_some_iff.mp hk).1
          exact ⟨p[0], by rw [List.get?_eq_getElem?, List.getElem?_eq_getElem (by omega)]⟩
        obtain ⟨u0, _, f1, _, _, f4⟩ := line_cursor_step hprog hl0
        simp only [line_cursor, List.take_zero, prog_toks, scan, Option.some.injEq] at f1
        subst f1
        unfold start_cursor tokenizer_init at f4 ⊢
        rw [htext]
        exact tokenizer_goto_number_congr _ _ 0 rfl (shown_num f4).1
      have hpre : ∀ l' ∈ p.take k, l'.clean = true ∧ l'.number ≠ l.number := by
        intro l' hl'
        refine ⟨hclean l' (List.mem_of_mem_take hl'), fun hn => ?_⟩
        obtain ⟨j, hj1, hj2⟩ := List.mem_take_iff_getElem.mp hl'
        have hjk : j < k := by omega
        have hj3 : p.get? j = some l' := by
          rw [List.get?_eq_getElem?, List.getElem?_eq_getElem (by omega), hj2]
        have := line_number_unique hnd hj3 hk hn
        omega
      obtain ⟨F, hF⟩ := jump_scan_lands l.number (p.take k) (start_cursor text) u hpre hu hshown
      refine ⟨F, fun fuel hfuel => ?_⟩
      unfold jump_linenum
      rw [hf]
      simp only
      unfold jump_linenum_slow
      rw [hstart, hF fuel hfuel]
      rfl

theorem index_ok_congr {text : List Nat} {p : List TLine} {s s' : State}
    (h : index_ok text p s) (h1 : s'.line_index_table = s.line_index_table)
    (h2 : s'.line_index_current_ptr = s.line_index_current_ptr) : index_ok text p s' := by
  intro i hi
  rw [h2] at hi
  obtain ⟨k, l, u, a, b, c⟩ := h i hi
  exact ⟨k, l, u, a, b, by rw [h1]; exact c⟩

/-- Indexing a program line keeps the line index on program lines. -/
theorem index_add_program {text : List Nat} {p : List TLine} (s : State) {k : Nat}
    {l : TLine} {u : Tokenizer} (hwf : s.wf = true) (hidx : index_ok text p s)
    (hk : p.get? k = some l) (hu : line_cursor text p k = some u) :
    ∃ table ptr, index_add s l.number u.ptr
        = .ok () { s with line_index_table := table, line_index_current_ptr := ptr }
      ∧ ({ s with line_index_table := table, line_index_current_ptr := ptr } : State).wf = true
      ∧ index_ok text p { s with line_index_table := table, line_index_current_ptr := ptr } := by
  obtain ⟨_, _, _, _, _, _, _, _, h1, h2, h3⟩ := wf_unfold hwf
  obtain ⟨table, ptr, hadd, hwf'⟩ := index_add_ok s l.number u.ptr hwf
  refine ⟨table, ptr, hadd, hwf', ?_⟩
  unfold index_add at hadd
  cases hf : index_find s l.number with
  | none => exact absurd hf (index_find_ne_none s l.number hwf)
  | some r =>
    rw [hf] at hadd
    cases r with
    | some pos =>
      simp only at hadd
      have := Res.ok.inj hadd
      exact index_ok_congr hidx (congrArg State.line_index_table this.2).symm
        (congrArg State.line_index_current_ptr this.2).symm
    | none =>
      simp only at hadd
      split at hadd
      · rename_i hlt
        have hlt' : s.line_index_current_ptr.toNat < s.line_index_table.length := by
          have : (s.line_index_current_ptr.toNat : Int) = s.line_index_current_ptr :=
            Int.toNat_of_nonneg h2
          simp only [MAX_LINE_INDEXES] at hlt
          omega
        simp only [aset, h2, hlt', and_self, if_true] at hadd
        have e := (Res.ok.inj hadd).2
        have et : table = s.line_index_table.set s.line_index_current_ptr.toNat
            ⟨l.number, u.ptr⟩ := (congrArg State.line_index_table e).symm
        have ep : ptr = s.line_index_current_ptr + 1 :=
          (congrArg State.line_index_current_ptr e).symm
        intro i hi
        simp only [ep] at hi
        by_cases hii : (i : Int) < s.line_index_current_ptr
        · obtain ⟨k', l', u', a, b, c⟩ := hidx i hii
          refine ⟨k', l', u', a, b, ?_⟩
          simp only [et]
          have hne : s.line_index_current_ptr.toNat ≠ i := by
            have : (s.line_index_current_ptr.toNat : Int) = s.line_index_current_ptr :=
              Int.toNat_of_nonneg h2
            omega
          rw [List.get?_eq_getElem?, List.getElem?_set_ne hne, ← List.get?_eq_getElem?]
          exact c
        · have hi' : i = s.line_index_current_ptr.toNat := by
            have : (s.line_index_current_ptr.toNat : Int) = s.line_index_current_ptr :=
              Int.toNat_of_nonneg h2
            omega
          refine ⟨k, l, u, hk, hu, ?_⟩
          simp only [et, hi']
          rw [List.get?_eq_getElem?, List.getElem?_set_self hlt']
      · have := Res.ok.inj hadd
        exact index_ok_congr hidx (congrArg State.line_index_table this.2).symm
          (congrArg State.line_index_current_ptr this.2).symm

theorem goto_image_inv (u : Tokenizer) (h : tokenizer_goto u u.ptr = u) : u.inv := by
  rw [← h]
  exact inv_fresh _

/-- A step at line `k` of a program: the line is indexed and `statement` runs
on the rest of the line. -/
theorem run_at_line {text : List Nat} {p : List TLine} (hprog : is_program text p = true)
    (s : State) {k : Nat} {l : TLine} (hat : at_line text p s k) (hk : p.get? k = some l) :
    ∃ table ptr u',
      (∀ fuel, ubasic_run fuel s
        = statement fuel { s with line_index_table := table, line_index_current_ptr := ptr,
                                  tok := tokenizer_next s.tok })
      ∧ ({ s with line_index_table := table, line_index_current_ptr := ptr,
                  tok := tokenizer_next s.tok } : State).wf = true
      ∧ index_ok text p { s with line_index_table := table, line_index_current_ptr := ptr,
                                 tok := tokenizer_next s.tok }
      ∧ scan (tokenizer_next s.tok) (l.body ++ [Lexeme.sym TOKENIZER_CR]) = some u'
      ∧ line_cursor text p (k + 1) = some u'
      ∧ s.tok.text = text ∧ u'.text = text := by
  obtain ⟨hwf, hended, hidx, hcur⟩ := hat
  obtain ⟨u, u', e1, e2, e3, hshown⟩ := line_cursor_step hprog hk
  have hu : u = s.tok := Option.some.inj (e1.symm.trans hcur)
  subst hu
  obtain ⟨htext, hgoto⟩ := line_cursor_goto hprog hk hcur
  obtain ⟨hnum, hval⟩ := shown_num hshown
  have hinv := goto_image_inv s.tok (hgoto s.tok htext)
  have hfin : tokenizer_finished s.tok = false := by
    have hd := hinv.2 hnum
    unfold tokenizer_finished
    have h0 : byteAt s.tok.text s.tok.ptr ≠ 0 := by
      intro h0; rw [h0] at hd; cases hd
    simp [h0, hnum]
  obtain ⟨table, ptr, hadd, hwf', hidx'⟩ := index_add_program s hwf hidx hk hcur
  rw [← hval] at hadd
  refine ⟨table, ptr, u', fun fuel => ubasic_run_line fuel s table ptr hadd hended hfin hnum,
    ?_, ?_, (scan_cons_some e3).2, e2, htext, ?_⟩
  · simpa [State.wf] using hwf'
  · exact index_ok_congr hidx' rfl rfl
  · rw [scan_text _ _ _ e3, htext]

/-! ### GOSUB and RETURN (C6) -/

theorem run_steps_succ_last (fuel n : Nat) :
    ∀ (s s1 s2 : State), run_steps fuel n s = .ok () s1 → ubasic_run fuel s1 = .ok () s2 →
      run_steps fuel (n + 1) s = .ok () s2 := by
  induction n with
  | zero =>
    intro s s1 s2 h1 h2
    simp only [run_steps] at h1
    have := (Res.ok.inj h1).2
    subst this
    simp [run_steps, h2, Res.andThen]
  | succ n ih =>
    intro s s1 s2 h1 h2
    rw [run_steps] at h1 ⊢
    cases hr : ubasic_run fuel s with
    | ok a s' =>
      rw [hr] at h1
      simp only [Res.andThen] at h1 ⊢
      exact ih s' s1 s2 h1 h2
    | halt s' => rw [hr] at h1; cases h1
    | fault => rw [hr] at h1; cases h1
    | timeout => rw [hr] at h1; cases h1

theorem run_steps_succ_first (fuel n : Nat) (s s1 s2 : State)
    (h1 : ubasic_run fuel s = .ok () s1) (h2 : run_steps fuel n s1 = .ok () s2) :
    run_steps fuel (n + 1) s = .ok () s2 := by
  rw [run_steps, h1]
  exact h2

theorem has_line {p : List TLine} {k : Nat} (h : k < p.length) : ∃ l, p.get? k = some l :=
  ⟨p[k], by rw [List.get?_eq_getElem?, List.getElem?_eq_getElem h]⟩

theorem at_line_wf {text : List Nat} {p : List TLine} {s : State} {k : Nat}
    (h : at_line text p s k) : s.gosub_stack.length = 10 :=
  (wf_unfold h.1).2.2.1

theorem index_ok_empty (text : List Nat) (p : List TLine) (s : State)
    (h : s.line_index_current_ptr = 0) : index_ok text p s := by
  intro i hi
  rw [h] at hi
  omega

/-! ### FOR and NEXT steps -/

theorem statement_for (fuel : Nat) (s : State) (h : s.tok.current_token = TOKENIZER_FOR) :
    statement (fuel + 1) s = for_statement fuel s := by
  rw [statement]
  simp [tokenizer_token, h]

theorem statement_next (fuel : Nat) (s : State) (h : s.tok.current_token = TOKENIZER_NEXT) :
    statement (fuel + 1) s = next_statement fuel s := by
  rw [statement]
  simp [tokenizer_token, h]

theorem set_variable_tok (s : State) (v n : Int) : (ubasic_set_variable s v n).tok = s.tok := by
  unfold ubasic_set_variable
  split <;> rfl

theorem set_variable_at_cursor (s : State) (v n : Int) (t : Tokenizer) :
    (ubasic_set_variable s v n).at_cursor t = ubasic_set_variable (s.at_cursor t) v n := by
  unfold ubasic_set_variable
  split <;> rfl

/-- The handler `for_statement` on `for v = e1 to e2` followed by a newline,
up to its test of the stack counter. -/
theorem for_statement_ok (s : State) (v : Int) (E1 E2 : SExpr) (i j : Int) (u' : Tokenizer)
    (hs : scan s.tok (Lexeme.sym TOKENIZER_FOR :: Lexeme.var v :: Lexeme.sym TOKENIZER_EQ
            :: (E1.toks ++ Lexeme.sym TOKENIZER_TO
              :: (E2.toks ++ [Lexeme.sym TOKENIZER_CR]))) = some u')
    (hv0 : 0 ≤ v) (hv1 : v < 26)
    (hi : E1.eval (ubasic_get_variable s) = some i)
    (hj : E2.eval (ubasic_get_variable (ubasic_set_variable s v i)) = some j) :
    ∃ F, ∀ fuel, F ≤ fuel →
      for_statement fuel s
        = if s.for_stack_ptr < MAX_FOR_STACK_DEPTH then
            match aset s.for_stack s.for_stack_ptr ⟨tokenizer_num u', v, j⟩ with
            | none => .fault
            | some stack =>
              .ok () { s with tok := u', variables_ := s.variables_.set v.toNat i,
                              for_stack := stack, for_stack_ptr := s.for_stack_ptr + 1 }
          else .ok () { s with tok := u', variables_ := s.variables_.set v.toNat i } := by
  obtain ⟨hx, h1⟩ := scan_cons_some hs
  have hfor := shown_sym hx
  obtain ⟨hy, h2⟩ := scan_cons_some h1
  obtain ⟨hvar, hv⟩ := shown_var hy
  obtain ⟨hz, h3⟩ := scan_cons_some h2
  have heq := shown_sym hz
  obtain ⟨tE1, h4, h5⟩ := scan_append_some h3
  obtain ⟨hw, h6⟩ := scan_cons_some h5
  have hto := shown_sym hw
  obtain ⟨tE2, h7, h8⟩ := scan_append_some h6
  obtain ⟨hq, h9⟩ := scan_cons_some h8
  have hcr := shown_sym hq
  simp only [scan, Option.some.injEq] at h9
  rw [set_variable_in_range s v i hv0 hv1] at hj
  obtain ⟨F1, hF1⟩ := expr_ok E1
    (s.at_cursor (tokenizer_next (tokenizer_next (tokenizer_next s.tok)))) tE1 i
    (by simpa using h4) (by simpa using hi) (by rw [hto]; rfl) (by rw [hto]; rfl)
  obtain ⟨F2, hF2⟩ := expr_ok E2
    { s with tok := tokenizer_next tE1, variables_ := s.variables_.set v.toNat i } tE2 j
    h7 hj (by rw [hcr]; rfl) (by rw [hcr]; rfl)
  refine ⟨max F1 F2, fun fuel hf => ?_⟩
  unfold for_statement
  rw [accept_ok TOKENIZER_FOR s hfor]
  simp only [Res.andThen, at_cursor_tok]
  rw [accept_ok TOKENIZER_VARIABLE _ (by simpa using hvar)]
  simp only [Res.andThen, at_cursor_tok, at_cursor_at_cursor]
  rw [accept_ok TOKENIZER_EQ _ (by simpa using heq)]
  simp only [Res.andThen, at_cursor_tok, at_cursor_at_cursor]
  rw [hF1 fuel (by omega)]
  simp only [Res.andThen, at_cursor_at_cursor, hv, set_variable_in_range _ v i hv0 hv1]
  rw [accept_ok TOKENIZER_TO _ (by simpa [State.at_cursor] using hto)]
  simp only [Res.andThen, State.at_cursor]
  rw [hF2 fuel (by omega)]
  simp only [Res.andThen, State.at_cursor]
  rw [accept_ok TOKENIZER_CR _ hcr]
  simp only [Res.andThen, State.at_cursor, h9]

theorem wrap_id (x : Int) (h0 : -2147483648 ≤ x) (h1 : x ≤ 2147483647) : wrap x = x := by
  unfold wrap
  rw [Int.emod_eq_of_lt (by omega) (by omega)]
  omega

theorem wf_set_variable {s : State} (h : s.wf = true) (v : Nat) (x : Int) (t : Tokenizer) :
    ({ s with tok := t, variables_ := s.variables_.set v x } : State).wf = true := by
  simpa [State.wf] using h

/-- A FOR step in a program: the loop variable is set, a frame with the
number of the following line and the bound is pushed, and the cursor is on
the following line. -/
theorem for_step {text : List Nat} {p : List TLine} (hprog : is_program text p = true)
    (s : State) {f : Nat} {nf v i j : Int} {E1 E2 : SExpr} {l1 : TLine}
    (hat : at_line text p s f)
    (hk : p.get? f = some ⟨nf, Lexeme.sym TOKENIZER_FOR :: Lexeme.var v
            :: Lexeme.sym TOKENIZER_EQ :: (E1.toks ++ Lexeme.sym TOKENIZER_TO :: E2.toks)⟩)
    (hk1 : p.get? (f + 1) = some l1) (hv0 : 0 ≤ v) (hv1 : v < 26)
    (hi : E1.eval (ubasic_get_variable s) = some i)
    (hj : E2.eval (ubasic_get_variable (ubasic_set_variable s v i)) = some j)
    (hd : s.for_stack_ptr < 4) :
    ∃ s', at_line text p s' (f + 1)
      ∧ s'.variables_ = s.variables_.set v.toNat i
      ∧ s'.for_stack = s.for_stack.set s.for_stack_ptr.toNat ⟨l1.number, v, j⟩
      ∧ s'.for_stack_ptr = s.for_stack_ptr + 1
      ∧ ∃ F, ∀ fuel, F ≤ fuel → ubasic_run fuel s = .ok () s' := by
  obtain ⟨table, ptr, u', hrun, hwf1, hidx1, hscan, hnext, htext, hu'text⟩ :=
    run_at_line hprog s hat hk
  obtain ⟨hwf, hended, _, _⟩ := hat
  simp only [List.cons_append, List.append_assoc] at hscan
  have hfor := shown_sym (scan_cons_some hscan).1
  obtain ⟨_, _, f1, _, _, f4⟩ := line_cursor_step hprog hk1
  have := Option.some.inj (hnext.symm.trans f1)
  subst this
  obtain ⟨_, _, _, _, _, w6, w7, w8, _, _, _⟩ := wf_unfold hwf
  have hlt : s.for_stack_ptr.toNat < s.for_stack.length := by
    have : (s.for_stack_ptr.toNat : Int) = s.for_stack_ptr := Int.toNat_of_nonneg w7
    omega
  obtain ⟨F, hF⟩ := for_statement_ok
    { s with line_index_table := table, line_index_current_ptr := ptr,
             tok := tokenizer_next s.tok } v E1 E2 i j u' hscan hv0 hv1 hi
    (by
      rw [set_variable_in_range _ v i hv0 hv1]
      rw [set_variable_in_range _ v i hv0 hv1] at hj
      exact hj)
  refine ⟨{ s with line_index_table := table, line_index_current_ptr := ptr, tok := u',
                   variables_ := s.variables_.set v.toNat i,
                   for_stack := s.for_stack.set s.for_stack_ptr.toNat ⟨l1.number, v, j⟩,
                   for_stack_ptr := s.for_stack_ptr + 1 },
    ⟨?_, hended, index_ok_congr hidx1 rfl rfl, f1⟩, rfl, rfl, rfl, F + 1, fun fuel hf => ?_⟩
  · simp only [State.wf, MAX_STRINGLEN, MAX_VARNUM, MAX_GOSUB_STACK_DEPTH,
      MAX_FOR_STACK_DEPTH, MAX_LINE_INDEXES, Bool.and_eq_true, decide_eq_true_eq,
      List.length_set] at hwf1 ⊢
    omega
  · obtain ⟨n, rfl⟩ : ∃ n, fuel = n + 1 := ⟨fuel - 1, by omega⟩
    rw [hrun, statement_for n _ hfor, hF n (by omega)]
    have hd' : s.for_stack_ptr < (MAX_FOR_STACK_DEPTH : Int) := by
      simp only [MAX_FOR_STACK_DEPTH]; exact_mod_cast hd
    simp only [hd', if_true, aset, w7, hlt, and_self, (shown_num f4).2]

theorem get_variable_set (s : State) (v x : Int) (t : Tokenizer) (hv0 : 0 ≤ v) (hv1 : v < 26)
    (hlen : s.variables_.length = 26) :
    ubasic_get_variable { s with tok := t, variables_ := s.variables_.set v.toNat x } v = x := by
  have hlt : v.toNat < s.variables_.length := by
    have : (v.toNat : Int) = v := Int.toNat_of_nonneg hv0
    omega
  simp [ubasic_get_variable, MAX_VARNUM, hv0, hv1, List.getD_eq_getElem?_getD, hlt]

/-- A NEXT step that iterates: the loop variable is incremented, still within
the bound, and the cursor lands on the line whose number the frame holds. -/
theorem next_step_loop {text : List Nat} {p : List TLine} (hprog : is_program text p = true)
    (s : State) {kn kb : Nat} {nn v j : Int} {lb : TLine}
    (hat : at_line text p s kn)
    (hk : p.get? kn = some ⟨nn, [Lexeme.sym TOKENIZER_NEXT, Lexeme.var v]⟩)
    (hkb : p.get? kb = some lb) (hv0 : 0 ≤ v) (hv1 : v < 26)
    (hd : 0 < s.for_stack_ptr)
    (htop : s.for_stack.get? (s.for_stack_ptr - 1).toNat = some ⟨lb.number, v, j⟩)
    (hle : ubasic_get_variable s v + 1 ≤ j)
    (hlo : -2147483648 ≤ ubasic_get_variable s v + 1) (hhi : j ≤ 2147483647) :
    ∃ s', at_line text p s' kb
      ∧ s'.variables_ = s.variables_.set v.toNat (ubasic_get_variable s v + 1)
      ∧ s'.for_stack = s.for_stack ∧ s'.for_stack_ptr = s.for_stack_ptr
      ∧ ∃ F, ∀ fuel, F ≤ fuel → ubasic_run fuel s = .ok () s' := by
  obtain ⟨table, ptr, u', hrun, hwf1, hidx1, hscan, hnext, htext, hu'text⟩ :=
    run_at_line hprog s hat hk
  obtain ⟨hwf, hended, _, _⟩ := hat
  simp only [List.cons_append, List.nil_append] at hscan
  obtain ⟨hx, h1⟩ := scan_cons_some hscan
  have hnx := shown_sym hx
  obtain ⟨hy, h2⟩ := scan_cons_some h1
  obtain ⟨hvar, hv⟩ := shown_var hy
  obtain ⟨utgt, _, g1, _, _, _⟩ := line_cursor_step hprog hkb
  have hlen := (wf_unfold hwf).2.1
  have hwrap : wrap (ubasic_get_variable s v + 1) = ubasic_get_variable s v + 1 :=
    wrap_id _ hlo (by omega)
  have hwf2 : ({ s with line_index_table := table, line_index_current_ptr := ptr,
                        tok := tokenizer_next (tokenizer_next (tokenizer_next s.tok)),
                        variables_ := s.variables_.set v.toNat (ubasic_get_variable s v + 1) }
                : State).wf = true := by
    simpa [State.wf] using hwf1
  obtain ⟨F, hF⟩ := jump_linenum_lands hprog
    { s with line_index_table := table, line_index_current_ptr := ptr,
             tok := tokenizer_next (tokenizer_next (tokenizer_next s.tok)),
             variables_ := s.variables_.set v.toNat (ubasic_get_variable s v + 1) }
    (by
      show (tokenizer_next (tokenizer_next (tokenizer_next s.tok))).text = text
      rw [tokenizer_next_text, tokenizer_next_text, tokenizer_next_text, htext])
    hwf2 (index_ok_congr hidx1 rfl rfl) hkb g1
  refine ⟨State.at_cursor
      { s with line_index_table := table, line_index_current_ptr := ptr,
               tok := tokenizer_next (tokenizer_next (tokenizer_next s.tok)),
               variables_ := s.variables_.set v.toNat (ubasic_get_variable s v + 1) } utgt,
    ⟨?_, hended, index_ok_congr hidx1 rfl rfl, g1⟩, rfl, rfl, rfl, F + 1, fun fuel hf => ?_⟩
  · simpa [State.wf, State.at_cursor] using hwf2
  · obtain ⟨n, rfl⟩ : ∃ n, fuel = n + 1 := ⟨fuel - 1, by omega⟩
    rw [hrun, statement_next n _ hnx]
    unfold next_statement
    rw [accept_ok TOKENIZER_NEXT _ hnx]
    simp only [Res.andThen, at_cursor_tok]
    rw [accept_ok TOKENIZER_VARIABLE _ (by simpa [State.at_cursor] using hvar)]
    have h0 : 0 ≤ s.for_stack_ptr - 1 := by omega
    have hget : ubasic_get_variable
        { s with tok := tokenizer_next (tokenizer_next (tokenizer_next s.tok)),
                 line_index_table := table, line_index_current_ptr := ptr,
                 variables_ := s.variables_.set v.toNat (ubasic_get_variable s v + 1) } v
        = ubasic_get_variable s v + 1 :=
      get_variable_set { s with line_index_table := table, line_index_current_ptr := ptr }
        v _ _ hv0 hv1 hlen
    have hgets : ubasic_get_variable
        { s with tok := tokenizer_next (tokenizer_next (tokenizer_next s.tok)),
                 line_index_table := table, line_index_current_ptr := ptr } v
        = ubasic_get_variable s v := rfl
    simp only [Res.andThen, State.at_cursor, gt_iff_lt, hd, if_true, aget, h0, htop, hv,
      set_variable_in_range _ v _ hv0 hv1, hgets, hwrap, hget, hle]
    rw [hF n (by omega)]
    rfl

/-- A NEXT step that leaves the loop: the loop variable is incremented past
the bound, the frame is popped, and the cursor is on the line after NEXT. -/
theorem next_step_exit {text : List Nat} {p : List TLine} (hprog : is_program text p = true)
    (s : State) {kn : Nat} {nn v j L : Int}
    (hat : at_line text p s kn)
    (hk : p.get? kn = some ⟨nn, [Lexeme.sym TOKENIZER_NEXT, Lexeme.var v]⟩)
    (hv0 : 0 ≤ v) (hv1 : v < 26)
    (hd : 0 < s.for_stack_ptr)
    (htop : s.for_stack.get? (s.for_stack_ptr - 1).toNat = some ⟨L, v, j⟩)
    (hgt : j < ubasic_get_variable s v + 1)
    (hlo : -2147483648 ≤ ubasic_get_variable s v + 1)
    (hhi : ubasic_get_variable s v + 1 ≤ 2147483647) :
    ∃ s', at_line text p s' (kn + 1)
      ∧ s'.variables_ = s.variables_.set v.toNat (ubasic_get_variable s v + 1)
      ∧ s'.for_stack = s.for_stack ∧ s'.for_stack_ptr = s.for_stack_ptr - 1
      ∧ ∃ F, ∀ fuel, F ≤ fuel → ubasic_run fuel s = .ok () s' := by
  obtain ⟨table, ptr, u', hrun, hwf1, hidx1, hscan, hnext, htext, hu'text⟩ :=
    run_at_line hprog s hat hk
  obtain ⟨hwf, hended, _, _⟩ := hat
  simp only [List.cons_append, List.nil_append] at hscan
  obtain ⟨hx, h1⟩ := scan_cons_some hscan
  have hnx := shown_sym hx
  obtain ⟨hy, h2⟩ := scan_cons_some h1
  obtain ⟨hvar, hv⟩ := shown_var hy
  obtain ⟨hz, h3⟩ := scan_cons_some h2
  have hcr := shown_sym hz
  simp only [scan, Option.some.injEq] at h3
  have hlen := (wf_unfold hwf).2.1
  have hwrap : wrap (ubasic_get_variable s v + 1) = ubasic_get_variable s v + 1 :=
    wrap_id _ hlo hhi
  refine ⟨{ s with line_index_table := table, line_index_current_ptr := ptr, tok := u',
                   variables_ := s.variables_.set v.toNat (ubasic_get_variable s v + 1),
                   for_stack_ptr := s.for_stack_ptr - 1 },
    ⟨?_, hended, index_ok_congr hidx1 rfl rfl, hnext⟩, rfl, rfl, rfl, 1, fun fuel hf => ?_⟩
  · simp only [State.wf, MAX_STRINGLEN, MAX_VARNUM, MAX_GOSUB_STACK_DEPTH,
      MAX_FOR_STACK_DEPTH, MAX_LINE_INDEXES, Bool.and_eq_true, decide_eq_true_eq,
      List.length_set] at hwf1 ⊢
    omega
  · obtain ⟨n, rfl⟩ : ∃ n, fuel = n + 1 := ⟨fuel - 1, by omega⟩
    rw [hrun, statement_next n _ hnx]
    unfold next_statement
    rw [accept_ok TOKENIZER_NEXT _ hnx]
    simp only [Res.andThen, at_cursor_tok]
    rw [accept_ok TOKENIZER_VARIABLE _ (by simpa [State.at_cursor] using hvar)]
    have h0 : 0 ≤ s.for_stack_ptr - 1 := by omega
    have hget : ubasic_get_variable
        { s with tok := tokenizer_next (tokenizer_next (tokenizer_next s.tok)),
                 line_index_table := table, line_index_current_ptr := ptr,
                 variables_ := s.variables_.set v.toNat (ubasic_get_variable s v + 1) } v
        = ubasic_get_variable s v + 1 :=
      get_variable_set { s with line_index_table := table, line_index_current_ptr := ptr }
        v _ _ hv0 hv1 hlen
    have hgets : ubasic_get_variable
        { s with tok := tokenizer_next (tokenizer_next (tokenizer_next s.tok)),
                 line_index_table := table, line_index_current_ptr := ptr } v
        = ubasic_get_variable s v := rfl
    have hnle : ¬ ubasic_get_variable s v + 1 ≤ j := by omega
    simp only [Res.andThen, State.at_cursor, gt_iff_lt, hd, if_true, aget, h0, htop, hv,
      set_variable_in_range _ v _ hv0 hv1, hgets, hwrap, hget, hnle, if_false]
    rw [accept_ok TOKENIZER_CR _ hcr]
    simp only [State.at_cursor, h3]

theorem run_steps_add (fuel : Nat) :
    ∀ (a b : Nat) (s s1 s2 : State), run_steps fuel a s = .ok () s1 →
      run_steps fuel b s1 = .ok () s2 → run_steps fuel (a + b) s = .ok () s2 := by
  intro a
  induction a with
  | zero =>
    intro b s s1 s2 h1 h2
    simp only [run_steps] at h1
    have := (Res.ok.inj h1).2
    subst this
    simpa using h2
  | succ a ih =>
    intro b s s1 s2 h1 h2
    have e : a + 1 + b = (a + b) + 1 := by omega
    rw [e, run_steps]
    rw [run_steps] at h1
    cases hr : ubasic_run fuel s with
    | ok x s' =>
      rw [hr] at h1
      simp only [Res.andThen] at h1 ⊢
      exact ih b s' s1 s2 h1 h2
    | halt s' => rw [hr] at h1; cases h1
    | fault => rw [hr] at h1; cases h1
    | timeout => rw [hr] at h1; cases h1

/-- The body of a loop, made of straight-line lines, is run line by line. -/
theorem body_runs {text : List Nat} {p : List TLine} (v : Int) (b0 : Nat) :
    ∀ (m : Nat) (s : State), at_line text p s b0 →
      (∀ t, t < m → straight_line text p v (b0 + t)) →
      ∃ s', at_line text p s' (b0 + m)
        ∧ ubasic_get_variable s' v = ubasic_get_variable s v
        ∧ s'.for_stack = s.for_stack ∧ s'.for_stack_ptr = s.for_stack_ptr
        ∧ ∃ F, ∀ fuel, F ≤ fuel → run_steps fuel m s = .ok () s' := by
  intro m
  induction m with
  | zero =>
    intro s hat _
    exact ⟨s, hat, rfl, rfl, rfl, 0, fun fuel _ => rfl⟩
  | succ m ih =>
    intro s hat hbody
    obtain ⟨s1, a1, a2, a3, a4, F1, hF1⟩ := ih s hat (fun t ht => hbody t (by omega))
    obtain ⟨s2, b1, b2, b3, b4, F2, hF2⟩ := hbody m (by omega) s1 a1
    refine ⟨s2, b1, b2.trans a2, b3.trans a3, b4.trans a4, max F1 F2, fun fuel hf => ?_⟩
    exact run_steps_succ_last fuel m s s1 s2 (hF1 fuel (by omega)) (hF2 fuel (by omega))

theorem get_variable_of_set {s s' : State} {v x : Int}
    (h : s'.variables_ = s.variables_.set v.toNat x) (hv0 : 0 ≤ v) (hv1 : v < 26)
    (hlen : s.variables_.length = 26) : ubasic_get_variable s' v = x := by
  have hlt : v.toNat < s.variables_.length := by
    have : (v.toNat : Int) = v := Int.toNat_of_nonneg hv0
    omega
  simp [ubasic_get_variable, MAX_VARNUM, hv0, hv1, h, List.getD_eq_getElem?_getD, hlt]

/-- The passes of a loop from the start of its body with the loop variable at
`x <= j`: the body is entered with `x`, `x + 1`, ... `j`, and after the last
pass NEXT pops the frame and moves to the line after it. -/
theorem loop_runs {text : List Nat} {p : List TLine} (hprog : is_program text p = true)
    (v j : Int) (f m : Nat) (nn : Int) (lb : TLine) (d : Int)
    (hv0 : 0 ≤ v) (hv1 : v < 26) (hhi : j < 2147483647)
    (hbody : ∀ t, t < m → straight_line text p v (f + 1 + t))
    (hnext : p.get? (f + m + 1) = some ⟨nn, [Lexeme.sym TOKENIZER_NEXT, Lexeme.var v]⟩)
    (hlb : p.get? (f + 1) = some lb) (hd : 0 < d) :
    ∀ (rem : Nat) (s : State) (x : Int), at_line text p s (f + 1) →
      ubasic_get_variable s v = x → x ≤ j → (j - x).toNat = rem → -2147483649 ≤ x →
      s.for_stack_ptr = d → s.for_stack.get? (d - 1).toNat = some ⟨lb.number, v, j⟩ →
      (∀ k : Nat, k ≤ rem →
        ∃ sk, at_line text p sk (f + 1) ∧ ubasic_get_variable sk v = x + k
          ∧ sk.for_stack_ptr = d
          ∧ ∃ F, ∀ fuel, F ≤ fuel → run_steps fuel (k * (m + 1)) s = .ok () sk)
      ∧ ∃ sf, at_line text p sf (f + m + 2) ∧ ubasic_get_variable sf v = j + 1
          ∧ sf.for_stack_ptr = d - 1
          ∧ ∃ F, ∀ fuel, F ≤ fuel → run_steps fuel ((rem + 1) * (m + 1)) s = .ok () sf := by
  intro rem
  induction rem with
  | zero =>
    intro s x hat hx hle hrem hlo hptr htop
    have hxj : x = j := by omega
    obtain ⟨s1, a1, a2, a3, a4, F1, hF1⟩ := body_runs v (f + 1) m s hat hbody
    have e : f + 1 + m = f + m + 1 := by omega
    rw [e] at a1
    obtain ⟨s2, b1, b2, _, b4, F2, hF2⟩ := next_step_exit hprog s1 a1 hnext hv0 hv1
      (by rw [a4, hptr]; exact hd) (by rw [a3, a4, hptr]; exact htop)
      (by rw [a2, hx]; omega) (by rw [a2, hx]; omega) (by rw [a2, hx]; omega)
    refine ⟨fun k hk => ?_, s2, b1, ?_, by rw [b4, a4, hptr], max F1 F2, fun fuel hf => ?_⟩
    · have hk0 : k = 0 := by omega
      subst hk0
      exact ⟨s, hat, by simpa using hx, hptr, 0, fun fuel _ => by simp [run_steps]⟩
    · rw [get_variable_of_set b2 hv0 hv1 (wf_unfold a1.1).2.1, a2, hx, hxj]
    · have e2 : (0 + 1) * (m + 1) = m + 1 := by omega
      rw [e2]
      exact run_steps_succ_last fuel m s s1 s2 (hF1 fuel (by omega)) (hF2 fuel (by omega))
  | succ rem ih =>
    intro s x hat hx hle hrem hlo hptr htop
    have hxj : x < j := by omega
    obtain ⟨s1, a1, a2, a3, a4, F1, hF1⟩ := body_runs v (f + 1) m s hat hbody
    have e : f + 1 + m = f + m + 1 := by omega
    rw [e] at a1
    obtain ⟨s2, b1, b2, b3, b4, F2, hF2⟩ := next_step_loop hprog s1 a1 hnext hlb hv0 hv1
      (by rw [a4, hptr]; exact hd) (by rw [a3, a4, hptr]; exact htop)
      (by rw [a2, hx]; omega) (by rw [a2, hx]; omega) (by omega)
    have hget2 : ubasic_get_variable s2 v = x + 1 := by
      rw [get_variable_of_set b2 hv0 hv1 (wf_unfold a1.1).2.1, a2, hx]
    have hpass : ∀ fuel, max F1 F2 ≤ fuel → run_steps fuel (m + 1) s = .ok () s2 :=
      fun fuel hf =>
        run_steps_succ_last fuel m s s1 s2 (hF1 fuel (by omega)) (hF2 fuel (by omega))
    obtain ⟨hin, sf, c1, c2, c3, F3, hF3⟩ := ih s2 (x + 1) b1 hget2 (by omega) (by omega)
      (by omega) (by rw [b4, a4, hptr]) (by rw [b3, a3]; exact htop)
    refine ⟨fun k hk => ?_, sf, c1, c2, c3, max (max F1 F2) F3, fun fuel hf => ?_⟩
    · cases k with
      | zero => exact ⟨s, hat, by simpa using hx, hptr, 0, fun fuel _ => by simp [run_steps]⟩
      | succ k =>
        obtain ⟨sk, d1, d2, d3, F4, hF4⟩ := hin k (by omega)
        refine ⟨sk, d1, by rw [d2]; push_cast; ring, d3, max (max F1 F2) F4,
          fun fuel hf => ?_⟩
        have e2 : (k + 1) * (m + 1) = (m + 1) + k * (m + 1) := by ring
        rw [e2]
        exact run_steps_add fuel _ _ s s2 sk (hpass fuel (by omega)) (hF4 fuel (by omega))
    · have e2 : (rem + 1 + 1) * (m + 1) = (m + 1) + (rem + 1) * (m + 1) := by ring
      rw [e2]
      exact run_steps_add fuel _ _ s s2 sf (hpass fuel (by omega)) (hF3 fuel (by omega))

/-- A PRINT line of admitted items whose expressions have a value is a
straight-line statement for every variable. -/
theorem print_line_straight {text : List Nat} {p : List TLine}
    (hprog : is_program text p = true) (v : Int) {b : Nat} {n : Int}
    {items : List PrintItem}
    (hk : p.get? b = some ⟨n, Lexeme.sym TOKENIZER_PRINT :: print_toks items⟩)
    (hadm : ∀ it ∈ items, it.admitted = true)
    (hev : ∀ vars, (print_emits vars items).isSome = true) :
    straight_line text p v b := by
  intro s hat
  obtain ⟨table, ptr, u', hrun, hwf1, hidx1, hscan, hnext, htext, hu'text⟩ :=
    run_at_line hprog s hat hk
  obtain ⟨hwf, hended, _, _⟩ := hat
  simp only [List.cons_append] at hscan
  obtain ⟨hy, h2⟩ := scan_cons_some hscan
  have hp := shown_sym hy
  obtain ⟨tT, h3, h4⟩ := scan_append_some h2
  obtain ⟨hz, h5⟩ := scan_cons_some h4
  have hT := shown_sym hz
  simp only [scan, Option.some.injEq] at h5
  obtain ⟨evs, hevs⟩ := Option.isSome_iff_exists.mp (hev (ubasic_get_variable s))
  have hbuf := (wf_unfold hwf).1
  obtain ⟨buf, hbl, F, hF⟩ := print_loop_ok items
    { s with line_index_table := table, line_index_current_ptr := ptr,
             tok := tokenizer_next (tokenizer_next s.tok) }
    TOKENIZER_CR tT evs (Or.inl rfl) hadm h3 hT hevs hbuf
  refine ⟨{ s with line_index_table := table, line_index_current_ptr := ptr, tok := u',
                   string := buf,
                   events := s.events ++ evs ++ [Event.print (bytes "\n")] },
    ⟨?_, hended, index_ok_congr hidx1 rfl rfl, hnext⟩, rfl, rfl, rfl, F + 1,
    fun fuel hf => ?_⟩
  · simp only [State.wf, MAX_STRINGLEN, MAX_VARNUM, MAX_GOSUB_STACK_DEPTH,
      MAX_FOR_STACK_DEPTH, MAX_LINE_INDEXES, Bool.and_eq_true, decide_eq_true_eq] at hwf1 ⊢
    omega
  · obtain ⟨k, rfl⟩ : ∃ k, fuel = k + 1 := ⟨fuel - 1, by omega⟩
    rw [hrun, statement_print k _ hp]
    unfold print_statement
    rw [accept_ok TOKENIZER_PRINT _ hp]
    simp only [Res.andThen]
    have := hF k (by omega)
    simp only [State.at_cursor] at this ⊢
    rw [this]
    simp only [State.printed, circle_basic_print, h5]

/-! ### Number literals -/

/-- The value `custom_atoi` accumulates over a digit run of at most `m`
bytes. -/
theorem atoi_loop_bound : ∀ (m : Nat) (cs : List Nat) (res B : Int), 0 ≤ res → res < B →
    B * 10 ^ m ≤ 2147483648 → (∃ k, k ≤ m ∧ is_digit (cs.getD k 0) = false) →
    0 ≤ custom_atoi_loop cs res ∧ custom_atoi_loop cs res < B * 10 ^ m := by
  intro m
  induction m with
  | zero =>
    intro cs res B h0 h1 _ hk
    obtain ⟨k, hk0, hk⟩ := hk
    have : k = 0 := by omega
    subst this
    cases cs with
    | nil => simpa [custom_atoi_loop] using ⟨h0, h1⟩
    | cons c cs =>
      simp only [List.getD_cons_zero] at hk
      simpa [custom_atoi_loop, hk] using ⟨h0, h1⟩
  | succ m ih =>
    intro cs res B h0 h1 hB hk
    have hpow : (1 : Int) ≤ 10 ^ (m + 1) := one_le_pow₀ (by norm_num)
    have hBB : B ≤ B * 10 ^ (m + 1) := by nlinarith
    cases cs with
    | nil => exact ⟨by simpa [custom_atoi_loop] using h0,
        by simp only [custom_atoi_loop]; omega⟩
    | cons c cs =>
      by_cases hd : is_digit c = true
      · have hc : 48 ≤ c ∧ c ≤ 57 := by simpa [is_digit] using hd
        have e : B * 10 ^ (m + 1) = B * 10 * 10 ^ m := by ring
        have hx0 : 0 ≤ res * 10 + ((c : Int) - 48) := by omega
        have hx1 : res * 10 + ((c : Int) - 48) < B * 10 := by omega
        have hpow2 : (1 : Int) ≤ 10 ^ m := one_le_pow₀ (by norm_num)
        have hx2 : B * 10 ≤ B * 10 * 10 ^ m := by nlinarith
        have hw : wrap (res * 10 + ((c : Int) - 48)) = res * 10 + ((c : Int) - 48) := by
          unfold wrap
          rw [Int.emod_eq_of_lt (by omega) (by omega)]
          omega
        simp only [custom_atoi_loop, hd, if_true, hw]
        rw [e]
        refine ih cs _ (B * 10) hx0 hx1 (by rw [← e]; exact hB) ?_
        obtain ⟨k, hk0, hk⟩ := hk
        cases k with
        | zero => simp only [List.getD_cons_zero] at hk; rw [hk] at hd; cases hd
        | succ k => exact ⟨k, by omega, by simpa using hk⟩
      · simp only [custom_atoi_loop, hd]
        exact ⟨h0, by simp only [Bool.false_eq_true, if_false]; omega⟩

/-- A number token of the digit loop ends within the iterations left. -/
theorem number_loop_number (t : Tokenizer) : ∀ (n i : Nat),
    (number_loop t n i).1 = TOKENIZER_NUMBER →
    ∃ k, k < i + n ∧ is_digit (byteAt t.text (t.ptr + k)) = false := by
  intro n
  induction n with
  | zero => intro i h; simp [number_loop] at h
  | succ n ih =>
    intro i h
    rw [number_loop] at h
    by_cases hd : is_digit (byteAt t.text (t.ptr + i)) = true
    · simp only [hd, Bool.not_true, Bool.false_eq_true, if_false] at h
      obtain ⟨k, hk, hk2⟩ := ih (i + 1) h
      exact ⟨k, by omega, hk2⟩
    · exact ⟨i, by omega, by simpa using hd⟩

/-- A number token stands on a literal of one to five digits: its value lies
between 0 and 99999. -/
theorem get_next_token_number (t : Tokenizer)
    (hn : (get_next_token t).1 = TOKENIZER_NUMBER) :
    0 ≤ custom_atoi t.text t.ptr ∧ custom_atoi t.text t.ptr ≤ 99999 := by
  rcases get_next_token_cases t with ⟨h0, h⟩ | ⟨h0, h | ⟨k, hs, h⟩ | ⟨np, h⟩ | ⟨r, hk, h⟩ | h | h⟩
  · rw [h] at hn; cases hn
  · obtain ⟨_, h⟩ := h
    rw [h] at hn
    obtain ⟨k, hk, hk2⟩ := number_loop_number t MAX_NUMLEN 0 hn
    have := atoi_loop_bound 5 (t.text.drop t.ptr) 0 1 (by norm_num) (by norm_num)
      (by norm_num) ⟨k, by simp only [MAX_NUMLEN] at hk; omega,
        by simpa [byteAt, List.getD_eq_getElem?_getD, List.getElem?_drop] using hk2⟩
    unfold custom_atoi
    constructor
    · exact this.1
    · have h2 := this.2
      norm_num at h2
      omega
  · rw [h] at hn
    exact absurd hn (singlechar_spec t k hs).1
  · rw [h] at hn; cases hn
  · rw [h] at hn
    exact absurd hn (keyword_tokens r.1 (keyword_loop_spec t keywords r hk).1).1
  · rw [h] at hn; cases hn
  · rw [h] at hn; cases hn

theorem tokenizer_next_aux_number :
    ∀ (depth : Nat) (t : Tokenizer),
      (t.current_token = TOKENIZER_NUMBER → 0 ≤ tokenizer_num t ∧ tokenizer_num t ≤ 99999) →
      (tokenizer_next_aux depth t).current_token = TOKENIZER_NUMBER →
      0 ≤ tokenizer_num (tokenizer_next_aux depth t)
        ∧ tokenizer_num (tokenizer_next_aux depth t) ≤ 99999 := by
  intro depth
  induction depth with
  | zero => intro t h; exact h
  | succ d ih =>
    intro t h
    rw [tokenizer_next_aux]
    by_cases hf : tokenizer_finished t = true
    · rw [if_pos hf]; exact h
    rw [if_neg hf]
    simp only
    have hspec := get_next_token_spec
      { t with ptr := skip_blanks (t.text.drop t.nextptr) t.nextptr }
    have hnum := get_next_token_number
      { t with ptr := skip_blanks (t.text.drop t.nextptr) t.nextptr }
    generalize get_next_token
      { t with ptr := skip_blanks (t.text.drop t.nextptr) t.nextptr } = r at hspec hnum
    by_cases hr : r.1 = TOKENIZER_REM
    · rw [if_pos hr]
      exact ih _ (fun hc => by simp only [hr] at hc; cases hc)
    · rw [if_neg hr]
      intro hc
      have := hnum hc
      simpa [tokenizer_num, hspec.1, hspec.2.1] using this

/-- Every number the scanner delivers from a cursor that `tokenizer_next` or
`tokenizer_goto` produced lies between 0 and 99999. -/
theorem scan_number_bound : ∀ (xs : List Lexeme) (t t' : Tokenizer),
    (t.current_token = TOKENIZER_NUMBER → 0 ≤ tokenizer_num t ∧ tokenizer_num t ≤ 99999) →
    scan t xs = some t' → ∀ n, Lexeme.num n ∈ xs → 0 ≤ n ∧ n ≤ 99999 := by
  intro xs
  induction xs with
  | nil => intro t t' _ _ n hn; cases hn
  | cons x xs ih =>
    intro t t' hP hs n hn
    obtain ⟨hx, h1⟩ := scan_cons_some hs
    rcases List.mem_cons.mp hn with rfl | hn
    · obtain ⟨a, b⟩ := shown_num hx
      rw [← b]
      exact hP a
    · exact ih (tokenizer_next t) t' (tokenizer_next_aux_number _ t hP) h1 n hn

theorem goto_image_number (u : Tokenizer) (h : tokenizer_goto u u.ptr = u)
    (hn : u.current_token = TOKENIZER_NUMBER) :
    0 ≤ tokenizer_num u ∧ tokenizer_num u ≤ 99999 := by
  have hspec := get_next_token_spec { u with ptr := u.ptr }
  have hnum := get_next_token_number { u with ptr := u.ptr }
  rw [← h] at hn
  have := hnum hn
  simpa [tokenizer_num] using this

/-- The numbers in the body of a program line lie between 0 and 99999. -/
theorem body_number_bound {text : List Nat} {p : List TLine}
    (hprog : is_program text p = true) {k : Nat} {l : TLine} (hk : p.get? k = some l)
    (n : Int) (hn : Lexeme.num n ∈ l.body) : 0 ≤ n ∧ n ≤ 99999 := by
  obtain ⟨u, u', e1, _, e3, _⟩ := line_cursor_step hprog hk
  obtain ⟨_, hgoto⟩ := line_cursor_goto hprog hk e1
  have hu : u.text = text := (line_cursor_goto hprog hk e1).1
  exact scan_number_bound _ u u' (goto_image_number u (hgoto u hu)) e3 n
    (by simp [TLine.toks, hn])

/-! ### FOR loops (C5) -/

/-- C5: a FOR loop with literal bounds `i <= j` runs its body once for each
value `i`, `i + 1`, ... `j` of the loop variable, in that order, and then
leaves the loop.  The program holds `for v = i to j` at line `f`, `m`
straight-line body lines that do not assign `v`, and `next v` at line
`f + m + 1`; line numbers are distinct and the FOR stack is not full.  The
run is traced step by step: after the FOR step, pass `k` (for every
`k <= j - i`) executes body line `t` and then the NEXT line at step
`1 + k * (m + 1) + t` with `v = i + k`; after `j - i + 1` passes, and no
earlier, the cursor is on the line after NEXT, the frame is popped and `v`
holds `j + 1`. -/
theorem C5_for_loop_runs_body_once_per_value {text : List Nat} {p : List TLine}
    (hprog : is_program text p = true) (s : State) (f m : Nat) (nf nn v i j : Int)
    (hat : at_line text p s f)
    (hfor : p.get? f = some ⟨nf, [Lexeme.sym TOKENIZER_FOR, Lexeme.var v,
              Lexeme.sym TOKENIZER_EQ, Lexeme.num i, Lexeme.sym TOKENIZER_TO, Lexeme.num j]⟩)
    (hbody : ∀ t, t < m → straight_line text p v (f + 1 + t))
    (hnext : p.get? (f + m + 1) = some ⟨nn, [Lexeme.sym TOKENIZER_NEXT, Lexeme.var v]⟩)
    (hv0 : 0 ≤ v) (hv1 : v < 26) (hij : i ≤ j) (hd : s.for_stack_ptr < 4) :
    (∀ k : Nat, (k : Int) ≤ j - i → ∀ t : Nat, t ≤ m →
      ∃ sk, at_line text p sk (f + 1 + t) ∧ ubasic_get_variable sk v = i + k
        ∧ sk.for_stack_ptr = s.for_stack_ptr + 1
        ∧ ∃ F, ∀ fuel, F ≤ fuel → run_steps fuel (1 + k * (m + 1) + t) s = .ok () sk)
    ∧ ∃ sf, at_line text p sf (f + m + 2) ∧ ubasic_get_variable sf v = j + 1
        ∧ sf.for_stack_ptr = s.for_stack_ptr
        ∧ ∃ F, ∀ fuel, F ≤ fuel →
            run_steps fuel (1 + ((j - i).toNat + 1) * (m + 1)) s = .ok () sf := by
  have hi := body_number_bound hprog hfor i (by simp)
  have hj := body_number_bound hprog hfor j (by simp)
  have hlen : f + m + 1 < p.length := by
    rw [List.get?_eq_getElem?] at hnext
    exact (List.getElem?_eq_some_iff.mp hnext).1
  obtain ⟨lb, hlb⟩ := has_line (show f + 1 < p.length by omega)
  have hwf := hat.1
  obtain ⟨_, _, _, _, _, w6, w7, w8, _, _, _⟩ := wf_unfold hwf
  obtain ⟨s0, a1, a2, a3, a4, F0, hF0⟩ := @for_step text p hprog s f nf v i j
    (SExpr.term (STerm.factor (SFactor.num i)))
    (SExpr.term (STerm.factor (SFactor.num j))) lb hat
    (by simpa [SExpr.toks, STerm.toks, SFactor.toks] using hfor) hlb hv0 hv1
    (by simp [SExpr.eval, STerm.eval, SFactor.eval])
    (by simp [SExpr.eval, STerm.eval, SFactor.eval]) hd
  have hget0 : ubasic_get_variable s0 v = i :=
    get_variable_of_set a2 hv0 hv1 (wf_unfold hwf).2.1
  have htop : s0.for_stack.get? (s.for_stack_ptr + 1 - 1).toNat
      = some ⟨lb.number, v, j⟩ := by
    have hlt : s.for_stack_ptr.toNat < s.for_stack.length := by omega
    rw [a3, add_sub_cancel_right, List.get?_eq_getElem?, List.getElem?_set_self hlt]
  obtain ⟨hin, sf, c1, c2, c3, F3, hF3⟩ := loop_runs hprog v j f m nn lb
    (s.for_stack_ptr + 1) hv0 hv1 (by omega) hbody hnext hlb (by omega)
    (j - i).toNat s0 i a1 hget0 hij rfl (by omega) a4 htop
  refine ⟨fun k hk t ht => ?_, sf, c1, c2, by rw [c3]; ring, max F0 F3, fun fuel hF => ?_⟩
  · obtain ⟨sk, d1, d2, d3, F4, hF4⟩ := hin k (by omega)
    obtain ⟨st, e1, e2, _, e4, F5, hF5⟩ := body_runs v (f + 1) t sk d1
      (fun t' ht' => hbody t' (by omega))
    refine ⟨st, e1, by rw [e2, d2], by rw [e4, d3], max F0 (max F4 F5), fun fuel hF => ?_⟩
    have e : 1 + k * (m + 1) + t = (k * (m + 1) + t) + 1 := by omega
    rw [e]
    exact run_steps_succ_first fuel _ s s0 st (hF0 fuel (by omega))
      (run_steps_add fuel _ _ s0 sk st (hF4 fuel (by omega)) (hF5 fuel (by omega)))
  · have e : 1 + ((j - i).toNat + 1) * (m + 1) = ((j - i).toNat + 1) * (m + 1) + 1 := by
      omega
    rw [e]
    exact run_steps_succ_first fuel _ s s0 sf (hF0 fuel (by omega)) (hF3 fuel (by omega))

/-- C5 on `10 for a=1 to 3 / 20 print a / 30 next a / 40 end`: the body line
is executed at steps 1, 3 and 5 with `a` = 1, 2, 3, the NEXT line at steps 2,
4 and 6, after 7 steps the cursor is on line 40 with the FOR stack empty, and
the host has received 1, 2, 3, each followed by a newline. -/
theorem C5_for_loop_runs_body_once_per_value_witness :
    ((∀ k : Nat, (k : Int) ≤ 3 - 1 → ∀ t : Nat, t ≤ 1 →
        ∃ sk, at_line counting_loop_text counting_loop sk (0 + 1 + t)
          ∧ ubasic_get_variable sk 0 = 1 + k
          ∧ sk.for_stack_ptr = (ubasic_init State.initial counting_loop_text).for_stack_ptr + 1
          ∧ ∃ F, ∀ fuel, F ≤ fuel →
              run_steps fuel (1 + k * (1 + 1) + t)
                (ubasic_init State.initial counting_loop_text) = .ok () sk)
      ∧ ∃ sf, at_line counting_loop_text counting_loop sf (0 + 1 + 2)
          ∧ ubasic_get_variable sf 0 = 3 + 1
          ∧ sf.for_stack_ptr = (ubasic_init State.initial counting_loop_text).for_stack_ptr
          ∧ ∃ F, ∀ fuel, F ≤ fuel →
              run_steps fuel (1 + (((3 : Int) - 1).toNat + 1) * (1 + 1))
                (ubasic_init State.initial counting_loop_text) = .ok () sf)
    ∧ (run_steps 20 7 (ubasic_init State.initial counting_loop_text)).events
        = some [Event.print_num 1, Event.print (bytes "\n"), Event.print_num 2,
            Event.print (bytes "\n"), Event.print_num 3, Event.print (bytes "\n")] :=
  ⟨C5_for_loop_runs_body_once_per_value (by decide!)
    (ubasic_init State.initial counting_loop_text) 0 1 10 30 0 1 3
    ⟨by decide!, by decide!, index_ok_empty _ _ _ (by decide!), by decide!⟩ rfl
    (fun t ht => by
      have h0 : t = 0 := by omega
      subst h0
      exact @print_line_straight counting_loop_text counting_loop (by decide!) 0 1 20
        [PrintItem.expr (SExpr.term (STerm.factor (SFactor.var 0)))] rfl
        (by decide) (fun vars => rfl))
    rfl (by decide) (by decide) (by decide) (by decide!),
   by decide!⟩

/-! ### Straight-line statements: LET on another variable -/

/-- C11 (code defect): with an ELSE part on the line, a true condition runs
into a fatal halt.  On `10 if 1 then a=5 else b=6` the step stores 5 in `a`
and then reaches `HALT()` after reporting `Unexpected token error`, with the
cursor on `else` at offset 17: `let_statement` ends with
`accept(TOKENIZER_CR)` and the true branch of `if_statement` does nothing
about the ELSE part.  The other three cases behave as described: a false
condition runs the ELSE statement (`b` becomes 6, cursor on line 20 at offset
26), and without ELSE a true condition runs the statement and a false one
changes no variable, the cursor ending on line 20 at offset 17. -/
theorem C11_true_condition_before_else_halts :
    (ubasic_run 30 (cursor_on "10 if 1 then a=5 else b=6\n20 end\n")).halted.map
        (fun s => (s.events, s.tok.ptr, s.tok.current_token, ubasic_get_variable s 0))
      = some ([Event.print (bytes "Unexpected token error\n")], 17, TOKENIZER_ELSE, 5)
    ∧ (ubasic_run 30 (cursor_on "10 if 0 then a=5 else b=6\n20 end\n")).returned.map
        (fun s => (s.tok.ptr, s.tok.current_token, ubasic_get_variable s 0,
          ubasic_get_variable s 1))
      = some (26, TOKENIZER_NUMBER, 0, 6)
    ∧ (ubasic_run 30 (cursor_on "10 if 1 then a=5\n20 end\n")).returned.map
        (fun s => (s.tok.ptr, s.tok.current_token, ubasic_get_variable s 0))
      = some (17, TOKENIZER_NUMBER, 5)
    ∧ (ubasic_run 30 (cursor_on "10 if 0 then a=5\n20 end\n")).returned.map
        (fun s => (s.tok.ptr, s.tok.current_token, ubasic_get_variable s 0))
      = some (17, TOKENIZER_NUMBER, 0) := by
  decide!

/-- C12 (code defect): a step at a comment line is a fatal halt.  On
`10 rem x / 20 end` the step indexes line 10 and accepts its number; in doing
so `tokenizer_next` meets `rem`, skips the comment and its newline and
delivers the number token of line 20 (offset 9), which `statement` rejects:
the step reports `Unknown statement` and reaches `HALT()`.  The same happens
to a comment line later in a program, here after `10 let a=1`. -/
theorem C12_step_at_comment_line_halts :
    (ubasic_run 30 (cursor_on "10 rem x\n20 end\n")).halted.map
        (fun s => (s.events, s.tok.ptr, s.tok.current_token))
      = some ([Event.print (bytes "Unknown statement\n")], 9, TOKENIZER_NUMBER)
    ∧ (ubasic_run 30 (cursor_on "10 rem x\n20 end\n")).returned.isSome = false
    ∧ (run_steps 30 2 (cursor_on "10 let a=1\n20 rem hello\n30 end\n")).halted.map
        (fun s => (s.events, s.tok.ptr, s.tok.current_token))
      = some ([Event.print (bytes "Unknown statement\n")], 24, TOKENIZER_NUMBER) := by
  decide!

/-! ### What the handlers leave alone -/

theorem same_control_refl (s : State) : s.same_control s :=
  ⟨rfl, rfl, rfl, rfl, rfl, rfl, rfl⟩

theorem same_control_trans {a b c : State} (h1 : a.same_control b) (h2 : b.same_control c) :
    a.same_control c := by
  obtain ⟨a1, a2, a3, a4, a5, a6, a7⟩ := h1
  obtain ⟨b1, b2, b3, b4, b5, b6, b7⟩ := h2
  exact ⟨b1.trans a1, b2.trans a2, b3.trans a3, b4.trans a4, b5.trans a5, b6.trans a6,
    b7.trans a7⟩

theorem evolves_refl (s : State) : s.evolves s := ⟨id, id⟩

theorem evolves_trans {a b c : State} (h1 : a.evolves b) (h2 : b.evolves c) :
    a.evolves c :=
  ⟨fun h => h2.1 (h1.1 h), fun h => h2.2 (h1.2 h)⟩

theorem same_control_evolves {a b : State} (h : a.same_control b) : a.evolves b := by
  obtain ⟨a1, a2, a3, a4, a5, a6, a7⟩ := h
  refine ⟨fun hs => ?_, fun he => by rw [a7]; exact he⟩
  unfold State.stacks_ok at hs ⊢
  rw [a1, a2, a3, a4, a5, a6]
  exact hs

theorem sat_mono {α : Type} {r : Res α} {P Q : State → Prop} (h : r.sat P)
    (hPQ : ∀ s, P s → Q s) : r.sat Q := by
  cases r <;> simp only [Res.sat] at h ⊢
  · exact hPQ _ h
  · exact hPQ _ h

/-- Sequencing under a transitive relation between the state before and the
state after. -/
theorem sat_andThen {α β : Type} (R : State → State → Prop)
    (htrans : ∀ a b c, R a b → R b c → R a c) {r : Res α} {k : α → State → Res β}
    {s0 : State} (h : r.sat (R s0)) (hk : ∀ a s1, (k a s1).sat (R s1)) :
    (r.andThen k).sat (R s0) := by
  cases r with
  | ok a s1 =>
    simp only [Res.sat] at h
    simp only [Res.andThen]
    exact sat_mono (hk a s1) (fun s2 h2 => htrans _ _ _ h h2)
  | halt s1 => exact h
  | fault => trivial
  | timeout => trivial

theorem sat_andThen_control {α β : Type} {r : Res α} {k : α → State → Res β}
    {s0 : State} (h : r.sat s0.same_control) (hk : ∀ a s1, (k a s1).sat s1.same_control) :
    (r.andThen k).sat s0.same_control :=
  sat_andThen State.same_control (fun _ _ _ => same_control_trans) h hk

theorem sat_andThen_evolves {α β : Type} {r : Res α} {k : α → State → Res β}
    {s0 : State} (h : r.sat s0.evolves) (hk : ∀ a s1, (k a s1).sat s1.evolves) :
    (r.andThen k).sat s0.evolves :=
  sat_andThen State.evolves (fun _ _ _ => evolves_trans) h hk

theorem accept_control (k : Token) (s : State) : (accept k s).sat s.same_control := by
  unfold accept
  split
  · exact same_control_refl s
  · exact same_control_refl s

theorem varfactor_control (s : State) : (varfactor s).sat s.same_control := by
  unfold varfactor
  exact sat_andThen_control (accept_control _ s) (fun _ s1 => same_control_refl s1)

/-- Expressions touch neither stack, nor the line index, nor the ended
flag. -/
theorem expr_control_all : ∀ fuel : Nat,
    (∀ s, (factor fuel s).sat s.same_control)
    ∧ (∀ f1 s, (term_loop fuel f1 s).sat s.same_control)
    ∧ (∀ s, (term fuel s).sat s.same_control)
    ∧ (∀ t1 s, (expr_loop fuel t1 s).sat s.same_control)
    ∧ (∀ s, (expr fuel s).sat s.same_control) := by
  intro fuel
  induction fuel with
  | zero =>
    refine ⟨fun s => ?_, fun f1 s => ?_, fun s => ?_, fun t1 s => ?_, fun s => ?_⟩
    · rw [factor]; trivial
    · rw [term_loop]; trivial
    · rw [term]; trivial
    · rw [expr_loop]; trivial
    · rw [expr]; trivial
  | succ n ih =>
    obtain ⟨ihf, ihtl, iht, ihel, ihe⟩ := ih
    refine ⟨fun s => ?_, fun f1 s => ?_, fun s => ?_, fun t1 s => ?_, fun s => ?_⟩
    · rw [factor]
      split
      · exact sat_andThen_control (accept_control _ s) (fun _ s1 => same_control_refl s1)
      · exact sat_andThen_control (accept_control _ s) (fun _ s1 =>
          sat_andThen_control (ihe s1) (fun _ s2 =>
            sat_andThen_control (accept_control _ s2) (fun _ s3 => same_control_refl s3)))
      · exact varfactor_control s
    · rw [term_loop]
      split
      · refine @sat_andThen_control _ _ _ _ s ?_ (fun f2 s1 => ?_)
        · exact sat_mono (ihf _) (fun s2 h2 => h2)
        · split
          · trivial
          · exact ihtl _ s1
      · exact same_control_refl s
    · rw [term]
      exact sat_andThen_control (ihf s) (fun f1 s1 => ihtl f1 s1)
    · rw [expr_loop]
      split
      · refine @sat_andThen_control _ _ _ _ s ?_ (fun t2 s1 => ihel _ s1)
        exact sat_mono (iht _) (fun s2 h2 => h2)
      · exact same_control_refl s
    · rw [expr]
      exact sat_andThen_control (iht s) (fun t1 s1 => ihel t1 s1)

theorem factor_control (fuel : Nat) (s : State) : (factor fuel s).sat s.same_control :=
  (expr_control_all fuel).1 s

theorem expr_control (fuel : Nat) (s : State) : (expr fuel s).sat s.same_control :=
  (expr_control_all fuel).2.2.2.2 s

theorem relation_loop_control : ∀ (fuel : Nat) (r1 : Int) (s : State),
    (relation_loop fuel r1 s).sat s.same_control := by
  intro fuel
  induction fuel with
  | zero => intro r1 s; rw [relation_loop]; trivial
  | succ n ih =>
    intro r1 s
    rw [relation_loop]
    split
    · refine @sat_andThen_control _ _ _ _ s ?_ (fun r2 s1 => ih _ s1)
      exact sat_mono (expr_control n _) (fun s2 h2 => h2)
    · exact same_control_refl s

theorem relation_control (fuel : Nat) (s : State) : (relation fuel s).sat s.same_control := by
  unfold relation
  exact sat_andThen_control (expr_control fuel s) (fun r1 s1 => relation_loop_control fuel r1 s1)

theorem set_variable_control (s : State) (v x : Int) :
    s.same_control (ubasic_set_variable s v x) := by
  unfold ubasic_set_variable
  split
  · exact ⟨rfl, rfl, rfl, rfl, rfl, rfl, rfl⟩
  · exact same_control_refl s

theorem aset_length {α : Type} {a b : List α} {i : Int} {x : α} (h : aset a i x = some b) :
    b.length = a.length := by
  unfold aset at h
  split at h
  · cases h; simp
  · cases h

theorem jump_linenum_slow_control (fuel : Nat) (n : Int) (s : State) :
    (jump_linenum_slow fuel n s).sat s.same_control := by
  unfold jump_linenum_slow
  split
  · trivial
  · exact ⟨rfl, rfl, rfl, rfl, rfl, rfl, rfl⟩

theorem jump_linenum_control (fuel : Nat) (n : Int) (s : State) :
    (jump_linenum fuel n s).sat s.same_control := by
  unfold jump_linenum
  split
  · trivial
  · exact ⟨rfl, rfl, rfl, rfl, rfl, rfl, rfl⟩
  · exact jump_linenum_slow_control fuel n s

theorem goto_statement_control (fuel : Nat) (s : State) :
    (goto_statement fuel s).sat s.same_control := by
  unfold goto_statement
  exact sat_andThen_control (accept_control _ s) (fun _ s1 => jump_linenum_control fuel _ s1)

theorem print_item_control (fuel : Nat) (s : State) :
    (print_item fuel s).sat s.same_control := by
  unfold print_item
  split
  · split
    · trivial
    · exact ⟨rfl, rfl, rfl, rfl, rfl, rfl, rfl⟩
  · split
    · exact ⟨rfl, rfl, rfl, rfl, rfl, rfl, rfl⟩
    · split
      · exact ⟨rfl, rfl, rfl, rfl, rfl, rfl, rfl⟩
      · split
        · exact sat_andThen_control (expr_control fuel s)
            (fun _ s1 => ⟨rfl, rfl, rfl, rfl, rfl, rfl, rfl⟩)
        · exact same_control_refl s

theorem print_loop_control : ∀ (fuel : Nat) (s : State),
    (print_loop fuel s).sat s.same_control := by
  intro fuel
  induction fuel with
  | zero => intro s; rw [print_loop]; trivial
  | succ n ih =>
    intro s
    rw [print_loop]
    refine sat_andThen_control (print_item_control n s) (fun c s1 => ?_)
    split
    · exact ih s1
    · exact same_control_refl s1

theorem print_statement_control (fuel : Nat) (s : State) :
    (print_statement fuel s).sat s.same_control := by
  unfold print_statement
  exact sat_andThen_control (accept_control _ s) (fun _ s1 =>
    sat_andThen_control (print_loop_control fuel s1)
      (fun _ s2 => ⟨rfl, rfl, rfl, rfl, rfl, rfl, rfl⟩))

theorem let_statement_control (fuel : Nat) (s : State) :
    (let_statement fuel s).sat s.same_control := by
  unfold let_statement
  exact sat_andThen_control (accept_control _ s) (fun _ s1 =>
    sat_andThen_control (accept_control _ s1) (fun _ s2 =>
      sat_andThen_control (expr_control fuel s2) (fun v s3 =>
        sat_mono (accept_control _ _)
          (fun s4 h4 => same_control_trans (set_variable_control s3 _ v) h4))))

theorem peek_statement_control (fuel : Nat) (s : State) :
    (peek_statement fuel s).sat s.same_control := by
  unfold peek_statement
  refine sat_andThen_control (accept_control _ s) (fun _ s1 =>
    sat_andThen_control (expr_control fuel s1) (fun a s2 =>
      sat_andThen_control (accept_control _ s2) (fun _ s3 =>
        sat_andThen_control (accept_control _ s3) (fun _ s4 =>
          sat_andThen_control (accept_control _ s4) (fun _ s5 => ?_)))))
  split
  · exact set_variable_control s5 _ _
  · exact same_control_refl s5

theorem poke_statement_control (fuel : Nat) (s : State) :
    (poke_statement fuel s).sat s.same_control := by
  unfold poke_statement
  refine sat_andThen_control (accept_control _ s) (fun _ s1 =>
    sat_andThen_control (expr_control fuel s1) (fun a s2 =>
      sat_andThen_control (accept_control _ s2) (fun _ s3 =>
        sat_andThen_control (expr_control fuel s3) (fun v s4 =>
          sat_andThen_control (accept_control _ s4) (fun _ s5 => ?_)))))
  split
  · exact ⟨rfl, rfl, rfl, rfl, rfl, rfl, rfl⟩
  · exact same_control_refl s5

theorem sat_control_evolves {α : Type} {r : Res α} {s : State} (h : r.sat s.same_control) :
    r.sat s.evolves :=
  sat_mono h (fun _ h2 => same_control_evolves h2)

theorem index_add_evolves (s : State) (n : Int) (pos : Nat) :
    (index_add s n pos).sat s.evolves := by
  unfold index_add
  split
  · trivial
  · exact evolves_refl s
  · split
    · rename_i hlt
      split
      · trivial
      · rename_i table htab
        refine ⟨fun h => ?_, fun h => h⟩
        have hl := aset_length htab
        simp only [State.stacks_ok, MAX_GOSUB_STACK_DEPTH, MAX_FOR_STACK_DEPTH,
          MAX_LINE_INDEXES] at h hlt ⊢
        omega
    · exact evolves_refl s

theorem gosub_statement_evolves (fuel : Nat) (s : State) :
    (gosub_statement fuel s).sat s.evolves := by
  unfold gosub_statement
  refine sat_andThen_evolves (sat_control_evolves (accept_control _ s)) (fun _ s1 =>
    sat_andThen_evolves (sat_control_evolves (accept_control _ s1)) (fun _ s2 =>
      sat_andThen_evolves (sat_control_evolves (accept_control _ s2)) (fun _ s3 => ?_)))
  split
  · rename_i hlt
    split
    · trivial
    · rename_i stack hst
      refine sat_mono (jump_linenum_control fuel _ _) (fun s4 h4 => ?_)
      refine evolves_trans ?_ (same_control_evolves h4)
      refine ⟨fun h => ?_, fun h => h⟩
      have hl := aset_length hst
      simp only [State.stacks_ok, MAX_GOSUB_STACK_DEPTH, MAX_FOR_STACK_DEPTH,
        MAX_LINE_INDEXES] at h hlt ⊢
      omega
  · exact evolves_refl s3

theorem return_statement_evolves (fuel : Nat) (s : State) :
    (return_statement fuel s).sat s.evolves := by
  unfold return_statement
  refine sat_andThen_evolves (sat_control_evolves (accept_control _ s)) (fun _ s1 => ?_)
  split
  · rename_i hgt
    dsimp only
    split
    · trivial
    · refine sat_mono (jump_linenum_control fuel _ _) (fun s4 h4 => ?_)
      refine evolves_trans ?_ (same_control_evolves h4)
      refine ⟨fun h => ?_, fun h => h⟩
      simp only [State.stacks_ok, MAX_GOSUB_STACK_DEPTH, MAX_FOR_STACK_DEPTH,
        MAX_LINE_INDEXES] at h hgt ⊢
      omega
  · exact evolves_refl s1

theorem next_statement_evolves (fuel : Nat) (s : State) :
    (next_statement fuel s).sat s.evolves := by
  unfold next_statement
  refine sat_andThen_evolves (sat_control_evolves (accept_control _ s)) (fun _ s1 =>
    sat_andThen_evolves (sat_control_evolves (accept_control _ s1)) (fun _ s2 => ?_))
  split
  · rename_i hgt
    split
    · trivial
    · split
      · dsimp only
        split
        · exact sat_mono (jump_linenum_control fuel _ _) (fun s4 h4 =>
            same_control_evolves (same_control_trans (set_variable_control s2 _ _) h4))
        · have hsc := set_variable_control s2 (tokenizer_variable_num s1.tok)
            (wrap (ubasic_get_variable s2 (tokenizer_variable_num s1.tok) + 1))
          generalize ubasic_set_variable s2 (tokenizer_variable_num s1.tok)
            (wrap (ubasic_get_variable s2 (tokenizer_variable_num s1.tok) + 1)) = S at hsc ⊢
          refine sat_mono (accept_control _ _) (fun s4 h4 => ?_)
          refine evolves_trans (same_control_evolves hsc) ?_
          refine evolves_trans ?_ (same_control_evolves h4)
          refine ⟨fun h => ?_, fun h => h⟩
          have hgt2 : 0 < S.for_stack_ptr := by rw [hsc.2.2.2.1]; exact hgt
          simp only [State.stacks_ok, MAX_GOSUB_STACK_DEPTH, MAX_FOR_STACK_DEPTH,
            MAX_LINE_INDEXES] at h hgt2 ⊢
          omega
      · exact sat_control_evolves (accept_control _ s2)
  · exact sat_control_evolves (accept_control _ s2)

theorem for_statement_evolves (fuel : Nat) (s : State) :
    (for_statement fuel s).sat s.evolves := by
  unfold for_statement
  refine sat_andThen_evolves (sat_control_evolves (accept_control _ s)) (fun _ s1 =>
    sat_andThen_evolves (sat_control_evolves (accept_control _ s1)) (fun _ s2 =>
      sat_andThen_evolves (sat_control_evolves (accept_control _ s2)) (fun _ s3 =>
        sat_andThen_evolves (sat_control_evolves (expr_control fuel s3)) (fun v s4 =>
          sat_mono
            (sat_andThen_evolves (sat_control_evolves (accept_control _ _)) (fun _ s5 =>
              sat_andThen_evolves (sat_control_evolves (expr_control fuel s5)) (fun w s6 =>
                sat_andThen_evolves (sat_control_evolves (accept_control _ s6))
                  (fun _ s7 => ?_))))
            (fun s8 h8 => evolves_trans
              (same_control_evolves (set_variable_control s4 _ v)) h8)))))
  split
  · rename_i hlt
    split
    · trivial
    · rename_i stack hst
      refine ⟨fun h => ?_, fun h => h⟩
      have hl := aset_length hst
      simp only [State.stacks_ok, MAX_GOSUB_STACK_DEPTH, MAX_FOR_STACK_DEPTH,
        MAX_LINE_INDEXES] at h hlt ⊢
      omega
  · exact evolves_refl s7

theorem end_statement_evolves (s : State) : (end_statement s).sat s.evolves := by
  unfold end_statement
  exact sat_andThen_evolves (sat_control_evolves (accept_control _ s))
    (fun _ s1 => ⟨fun h => h, fun _ => rfl⟩)

/-- No statement handler moves a fill counter out of its array or clears the
ended flag, whether the handler returns or halts. -/
theorem statement_evolves_all : ∀ fuel : Nat,
    (∀ s, (if_statement fuel s).sat s.evolves) ∧ (∀ s, (statement fuel s).sat s.evolves) := by
  intro fuel
  induction fuel with
  | zero =>
    refine ⟨fun s => ?_, fun s => ?_⟩
    · rw [if_statement]; trivial
    · rw [statement]; trivial
  | succ n ih =>
    obtain ⟨ihi, ihs⟩ := ih
    refine ⟨fun s => ?_, fun s => ?_⟩
    · rw [if_statement]
      refine sat_andThen_evolves (sat_control_evolves (accept_control _ s)) (fun _ s1 =>
        sat_andThen_evolves (sat_control_evolves (relation_control n s1)) (fun r s2 =>
          sat_andThen_evolves (sat_control_evolves (accept_control _ s2)) (fun _ s3 => ?_)))
      split
      · exact ihs s3
      · split
        · trivial
        · dsimp only
          split
          · exact sat_mono (ihs _) (fun s4 h4 => h4)
          · split
            · exact same_control_evolves ⟨rfl, rfl, rfl, rfl, rfl, rfl, rfl⟩
            · exact same_control_evolves ⟨rfl, rfl, rfl, rfl, rfl, rfl, rfl⟩
    · rw [statement]
      split
      · exact sat_control_evolves (print_statement_control n s)
      · exact ihi s
      · exact sat_control_evolves (goto_statement_control n s)
      · exact gosub_statement_evolves n s
      · exact return_statement_evolves n s
      · exact for_statement_evolves n s
      · exact sat_control_evolves (peek_statement_control n s)
      · exact sat_control_evolves (poke_statement_control n s)
      · exact next_statement_evolves n s
      · exact end_statement_evolves s
      · exact sat_andThen_evolves (sat_control_evolves (accept_control _ s))
          (fun _ s1 => sat_control_evolves (let_statement_control n s1))
      · exact sat_control_evolves (let_statement_control n s)
      · exact same_control_evolves ⟨rfl, rfl, rfl, rfl, rfl, rfl, rfl⟩

theorem statement_evolves (fuel : Nat) (s : State) : (statement fuel s).sat s.evolves :=
  (statement_evolves_all fuel).2 s

theorem line_statement_evolves (fuel : Nat) (s : State) :
    (line_statement fuel s).sat s.evolves := by
  unfold line_statement
  exact sat_andThen_evolves (index_add_evolves s _ _) (fun _ s1 =>
    sat_andThen_evolves (sat_control_evolves (accept_control _ s1))
      (fun _ s2 => statement_evolves fuel s2))

theorem ubasic_run_evolves (fuel : Nat) (s : State) : (ubasic_run fuel s).sat s.evolves := by
  unfold ubasic_run
  split
  · exact line_statement_evolves fuel s
  · exact evolves_refl s

theorem run_steps_evolves (fuel : Nat) : ∀ (n : Nat) (s : State),
    (run_steps fuel n s).sat s.evolves := by
  intro n
  induction n with
  | zero => intro s; exact evolves_refl s
  | succ n ih =>
    intro s
    rw [run_steps]
    exact sat_andThen_evolves (ubasic_run_evolves fuel s) (fun _ s1 => ih s1)

/-! ### Finished states (C13) -/

/-- C13: finished is monotone.  In a state in which `ubasic_finished` is true
(the ended flag is set or the scanner is at the end of input), `ubasic_run`
returns at once with the state unchanged, for any fuel; so does any number of
steps, and `ubasic_finished` is still true afterwards.  And no statement
handler clears the ended flag: from a state with the flag set, `statement`
ends, by return or by halt, in a state with the flag set. -/
theorem C13_finished_is_monotone (s : State) (hfin : ubasic_finished s = true) :
    (∀ fuel, ubasic_run fuel s = .ok () s)
    ∧ (∀ fuel n, run_steps fuel n s = .ok () s)
    ∧ (∀ fuel n, (run_steps fuel n s).returned.map ubasic_finished = some true)
    ∧ (∀ fuel (s0 : State), s0.ended = true →
        (statement fuel s0).sat (fun s1 => s1.ended = true)) := by
  have hrun : ∀ fuel, ubasic_run fuel s = .ok () s := by
    intro fuel
    unfold ubasic_run
    unfold ubasic_finished at hfin
    cases he : s.ended <;> cases ht : tokenizer_finished s.tok <;> simp [he, ht] at hfin ⊢
  have hsteps : ∀ fuel n, run_steps fuel n s = .ok () s := by
    intro fuel n
    induction n with
    | zero => rfl
    | succ n ih => rw [run_steps, hrun]; exact ih
  refine ⟨hrun, hsteps, fun fuel n => ?_, fun fuel s0 h0 => ?_⟩
  · rw [hsteps]
    simp [Res.returned, hfin]
  · exact sat_mono (statement_evolves fuel s0) (fun s1 h1 => h1.2 h0)

/-- C13 on the empty program, whose scanner is at the end of input from the
start; and on `10 end / 20 print 1`, the step at END gives a finished state,
from which two more steps print nothing. -/
theorem C13_finished_is_monotone_witness :
    ubasic_finished (cursor_on "") = true
    ∧ (∀ fuel, ubasic_run fuel (cursor_on "") = .ok () (cursor_on ""))
    ∧ (∀ fuel n, run_steps fuel n (cursor_on "") = .ok () (cursor_on ""))
    ∧ (∀ fuel n, (run_steps fuel n (cursor_on "")).returned.map ubasic_finished = some true)
    ∧ (∀ fuel (s0 : State), s0.ended = true →
        (statement fuel s0).sat (fun s1 => s1.ended = true))
    ∧ (ubasic_run 20 (cursor_on "10 end\n20 print 1\n")).returned.map ubasic_finished
        = some true
    ∧ (run_steps 20 3 (cursor_on "10 end\n20 print 1\n")).events = some [] :=
  ⟨by decide!, (C13_finished_is_monotone (cursor_on "") (by decide!)).1,
    (C13_finished_is_monotone (cursor_on "") (by decide!)).2.1,
    (C13_finished_is_monotone (cursor_on "") (by decide!)).2.2.1,
    (C13_finished_is_monotone (cursor_on "") (by decide!)).2.2.2, by decide!, by decide!⟩

/-! ### Initialisation (C14) -/

theorem keyword_loop_congr (x y : Tokenizer) (ht : x.text = y.text) (hp : x.ptr = y.ptr) :
    ∀ kts, (keyword_loop x kts).map (fun r => (r.1, r.2.nextptr))
      = (keyword_loop y kts).map (fun r => (r.1, r.2.nextptr)) := by
  intro kts
  induction kts with
  | nil => rfl
  | cons kt kts ih =>
    obtain ⟨kw, tok⟩ := kt
    rw [keyword_loop, keyword_loop, ht, hp]
    split
    · rfl
    · exact ih

/-- The token `get_next_token` delivers depends on the text and `ptr` only,
and so does `nextptr` afterwards, unless the token is an error or the end of
input, for which `nextptr` is left as it was. -/
theorem get_next_token_congr (x y : Tokenizer) (ht : x.text = y.text) (hp : x.ptr = y.ptr) :
    (get_next_token x).1 = (get_next_token y).1
    ∧ ((get_next_token x).1 ≠ TOKENIZER_ERROR → (get_next_token x).1 ≠ TOKENIZER_ENDOFINPUT →
        (get_next_token x).2.nextptr = (get_next_token y).2.nextptr) := by
  obtain ⟨tx, px, nx, cx⟩ := x
  obtain ⟨ty, py, ny, cy⟩ := y
  simp only at ht hp
  subst ht
  subst hp
  have hk := keyword_loop_congr ⟨tx, px, nx, cx⟩ ⟨tx, px, ny, cy⟩ rfl rfl keywords
  have hs : singlechar ⟨tx, px, nx, cx⟩ = singlechar ⟨tx, px, ny, cy⟩ := rfl
  unfold get_next_token
  rw [hs]
  simp only
  by_cases h0 : byteAt tx px = 0
  · simp [h0]
  rw [if_neg h0, if_neg h0]
  by_cases hd : is_digit (byteAt tx px) = true
  · rw [if_pos hd, if_pos hd]
    obtain ⟨c1, c2⟩ := number_loop_congr ⟨tx, px, nx, cx⟩ ⟨tx, px, ny, cy⟩ rfl rfl MAX_NUMLEN 0
    refine ⟨c1, fun h1 _ => c2 ?_⟩
    rcases (number_loop_spec ⟨tx, px, nx, cx⟩ MAX_NUMLEN 0).1 with h | h
    · exact h
    · exact absurd h h1
  rw [if_neg hd, if_neg hd]
  cases hsx : singlechar ⟨tx, px, ny, cy⟩ with
  | some k => simp
  | none =>
    simp only
    by_cases hq : byteAt tx px = 34
    · rw [if_pos hq, if_pos hq]
      simp
    rw [if_neg hq, if_neg hq]
    cases hkx : keyword_loop ⟨tx, px, nx, cx⟩ keywords with
    | some r =>
      cases hky : keyword_loop ⟨tx, px, ny, cy⟩ keywords with
      | none => rw [hkx, hky] at hk; cases hk
      | some r' =>
        rw [hkx, hky] at hk
        simp only [Option.map_some', Option.some.injEq, Prod.mk.injEq] at hk
        exact ⟨hk.1, fun _ _ => hk.2⟩
    | none =>
      cases hky : keyword_loop ⟨tx, px, ny, cy⟩ keywords with
      | some r' => rw [hkx, hky] at hk; cases hk
      | none =>
        simp only
        by_cases hv : 97 ≤ byteAt tx px ∧ byteAt tx px ≤ 122
        · rw [if_pos hv, if_pos hv]; simp
        · rw [if_neg hv, if_neg hv]; simp

/-- C14: `ubasic_init` resets the cursor, both stacks, the line index and the
ended flag, and keeps the variables.  From any state and for any program
text, the state after `ubasic_init` has the cursor at offset 0 of the program
on its first token (and, unless that token is an error or the end of input,
the whole scanner state is the one a fresh interpreter has on this program),
both stack counters are 0, the line index is empty (its counter is 0 and
every lookup finds nothing), the ended flag is clear, and the variable cells
are those of the state before: `ubasic_get_variable` returns the same value
for every index. -/
theorem C14_init_resets_control_and_keeps_variables (s : State) (program : List Nat) :
    (ubasic_init s program).tok.text = program
    ∧ (ubasic_init s program).tok.ptr = 0
    ∧ (ubasic_init s program).tok.current_token = first_token program
    ∧ (first_token program ≠ TOKENIZER_ERROR → first_token program ≠ TOKENIZER_ENDOFINPUT →
        (ubasic_init s program).tok = start_cursor program)
    ∧ (ubasic_init s program).gosub_stack_ptr = 0
    ∧ (ubasic_init s program).for_stack_ptr = 0
    ∧ (ubasic_init s program).line_index_current_ptr = 0
    ∧ (∀ L, index_find (ubasic_init s program) L = some none)
    ∧ (ubasic_init s program).ended = false
    ∧ (ubasic_init s program).variables_ = s.variables_
    ∧ (∀ v, ubasic_get_variable (ubasic_init s program) v = ubasic_get_variable s v) := by
  obtain ⟨_, h1, h2⟩ := tokenizer_init_inv s.tok program
  obtain ⟨c1, c2⟩ := get_next_token_congr
    { s.tok with text := program, ptr := 0 }
    { State.initial.tok with text := program, ptr := 0 } rfl rfl
  have htok : (tokenizer_init s.tok program).current_token = first_token program := c1
  refine ⟨h1, h2, htok, fun e1 e2 => ?_, rfl, rfl, rfl, fun L => rfl, rfl, rfl, fun v => rfl⟩
  have hnp : (tokenizer_init s.tok program).nextptr = (start_cursor program).nextptr :=
    c2 (by rw [← htok] at e1; exact e1) (by rw [← htok] at e2; exact e2)
  obtain ⟨g1, g2⟩ := start_cursor_text program
  show tokenizer_init s.tok program = start_cursor program
  have hcur : (start_cursor program).current_token = first_token program := rfl
  cases hA : tokenizer_init s.tok program with
  | mk ta pa na ca =>
    cases hB : start_cursor program with
    | mk tb pb nb cb =>
      rw [hA] at h1 h2 hnp htok
      rw [hB] at g1 g2 hnp hcur
      simp only at h1 h2 hnp htok g1 g2 hcur
      rw [h1, h2, hnp, htok, g1, g2, hcur]

/-! ### The variable store (C15) -/

/-- C15: the variable store.  In a state whose variable array has its 26
cells, for an index `i` in 0..25 `ubasic_get_variable i` after
`ubasic_set_variable i x` returns `x` and every other index reads as before;
for an index outside 0..25 `ubasic_set_variable` leaves the state as it was
and `ubasic_get_variable` returns 0.  Nothing but the variable array is
changed by `ubasic_set_variable`. -/
theorem C15_variable_store (s : State) (hlen : s.variables_.length = 26) (i x : Int) :
    (0 ≤ i → i < 26 →
      ubasic_get_variable (ubasic_set_variable s i x) i = x
      ∧ (∀ j, j ≠ i →
          ubasic_get_variable (ubasic_set_variable s i x) j = ubasic_get_variable s j)
      ∧ ubasic_set_variable s i x = { s with variables_ := s.variables_.set i.toNat x })
    ∧ (¬ (0 ≤ i ∧ i < 26) →
      ubasic_set_variable s i x = s ∧ ubasic_get_variable s i = 0) := by
  refine ⟨fun h0 h1 => ⟨get_set_variable_same s i x h0 h1 hlen,
    fun j hj => get_set_variable_other s i x j hj, set_variable_in_range s i x h0 h1⟩,
    fun h => ?_⟩
  unfold ubasic_set_variable ubasic_get_variable
  simp only [MAX_VARNUM, Nat.cast_ofNat]
  rw [if_neg h, if_neg h]
  exact ⟨rfl, rfl⟩

/-- C15 on a fresh interpreter: after storing 7 in variable 3, index 3 reads
7 and index 4 reads 0; storing at index 26 or -1 changes nothing and both
read 0. -/
theorem C15_variable_store_witness :
    State.initial.variables_.length = 26
    ∧ ((0 ≤ (3 : Int) → (3 : Int) < 26 →
        ubasic_get_variable (ubasic_set_variable State.initial 3 7) 3 = 7
        ∧ (∀ j, j ≠ 3 →
            ubasic_get_variable (ubasic_set_variable State.initial 3 7) j
              = ubasic_get_variable State.initial j)
        ∧ ubasic_set_variable State.initial 3 7
            = { State.initial with variables_ := State.initial.variables_.set (3 : Int).toNat 7 })
      ∧ (¬ (0 ≤ (3 : Int) ∧ (3 : Int) < 26) →
        ubasic_set_variable State.initial 3 7 = State.initial
          ∧ ubasic_get_variable State.initial 3 = 0))
    ∧ ubasic_get_variable (ubasic_set_variable State.initial 26 7) 26 = 0
    ∧ ubasic_get_variable (ubasic_set_variable State.initial (-1) 7) (-1) = 0
    ∧ (ubasic_set_variable State.initial 26 7).variables_ = State.initial.variables_ :=
  ⟨by decide, C15_variable_store State.initial (by decide) 3 7, by decide!, by decide!,
    by decide!⟩

/-! ### Keywords, variables and error tokens (C16) -/

theorem starts_with_head {l kw : List Nat} {k : Nat} {ks : List Nat} (hkw : kw = k :: ks)
    (h : starts_with l kw = true) : ∃ rest, l = k :: rest ∧ k ≠ 0 := by
  subst hkw
  cases l with
  | nil => simp [starts_with] at h
  | cons c cs =>
    simp only [starts_with, Bool.and_eq_true, decide_eq_true_eq] at h
    exact ⟨cs, by rw [h.1.1], by rw [← h.1.1]; exact h.1.2⟩

/-- Two keywords that both match at the same place: one is a prefix of the
other. -/
theorem starts_with_comparable : ∀ (l a b : List Nat), starts_with l a = true →
    starts_with l b = true → a <+: b ∨ b <+: a := by
  intro l
  induction l with
  | nil =>
    intro a b ha hb
    cases a with
    | nil => exact Or.inl (List.nil_prefix)
    | cons x xs => simp [starts_with] at ha
  | cons c cs ih =>
    intro a b ha hb
    cases a with
    | nil => exact Or.inl (List.nil_prefix)
    | cons x xs =>
      cases b with
      | nil => exact Or.inr (List.nil_prefix)
      | cons y ys =>
        simp only [starts_with, Bool.and_eq_true, decide_eq_true_eq] at ha hb
        obtain ⟨⟨rfl, _⟩, ha2⟩ := ha
        obtain ⟨⟨rfl, _⟩, hb2⟩ := hb
        rcases ih xs ys ha2 hb2 with h | h
        · exact Or.inl ((List.prefix_cons_inj c).mpr h)
        · exact Or.inr ((List.prefix_cons_inj c).mpr h)

/-- No keyword of the table is a prefix of another one. -/
theorem keywords_prefix_free :
    ∀ a ∈ keywords, ∀ b ∈ keywords, a.1 <+: b.1 → a = b := by
  decide

/-- Every keyword of the table starts with a lowercase letter. -/
theorem keywords_head_lowercase :
    ∀ a ∈ keywords, a.1 ≠ [] ∧ 97 ≤ a.1.headD 0 ∧ a.1.headD 0 ≤ 122 := by
  decide

theorem keywords_start_lowercase (a : List Nat × Token) (ha : a ∈ keywords) :
    ∃ k ks, a.1 = k :: ks ∧ 97 ≤ k ∧ k ≤ 122 := by
  obtain ⟨h1, h2, h3⟩ := keywords_head_lowercase a ha
  cases hk : a.1 with
  | nil => exact absurd hk h1
  | cons k ks =>
    rw [hk] at h2 h3
    exact ⟨k, ks, rfl, h2, h3⟩

/-- The keyword loop returns the first entry that matches. -/
theorem keyword_loop_first (t : Tokenizer) : ∀ (kts : List (List Nat × Token))
    (kw : List Nat) (tok : Token), (kw, tok) ∈ kts →
    starts_with (t.text.drop t.ptr) kw = true →
    (∀ b ∈ kts, b ≠ (kw, tok) → starts_with (t.text.drop t.ptr) b.1 = false) →
    keyword_loop t kts = some (tok, { t with nextptr := t.ptr + kw.length }) := by
  intro kts
  induction kts with
  | nil => intro kw tok hmem; cases hmem
  | cons kt kts ih =>
    intro kw tok hmem hs hothers
    obtain ⟨kw', tok'⟩ := kt
    rw [keyword_loop]
    by_cases he : (kw', tok') = (kw, tok)
    · cases he
      rw [if_pos hs]
    · have := hothers (kw', tok') (List.mem_cons_self _ _) he
      simp only at this
      rw [this]
      simp only [Bool.false_eq_true, if_false]
      rcases List.mem_cons.mp hmem with h | h
      · exact absurd h.symm he
      · exact ih kw tok h hs (fun b hb => hothers b (List.mem_cons_of_mem _ hb))

theorem keyword_loop_none (t : Tokenizer) : ∀ (kts : List (List Nat × Token)),
    (∀ b ∈ kts, starts_with (t.text.drop t.ptr) b.1 = false) → keyword_loop t kts = none := by
  intro kts
  induction kts with
  | nil => intro _; rfl
  | cons kt kts ih =>
    intro h
    obtain ⟨kw', tok'⟩ := kt
    rw [keyword_loop]
    have := h (kw', tok') (List.mem_cons_self _ _)
    simp only at this
    rw [this]
    simp only [Bool.false_eq_true, if_false]
    exact ih (fun b hb => h b (List.mem_cons_of_mem _ hb))

theorem singlechar_lowercase (t : Tokenizer) (h1 : 97 ≤ byteAt t.text t.ptr)
    (h2 : byteAt t.text t.ptr ≤ 122) : singlechar t = none := by
  unfold singlechar
  simp only
  generalize byteAt t.text t.ptr = c at h1 h2
  repeat rw [if_neg (by omega)]

theorem is_digit_lowercase {c : Nat} (h1 : 97 ≤ c) : is_digit c = false := by
  simp only [is_digit, Bool.and_eq_false_imp, decide_eq_true_eq, decide_eq_false_iff_not]
  omega

/-- The test `strncmp(ptr, kw, strlen(kw)) == 0` for a keyword without NUL
bytes: the keyword is a prefix of the text. -/
theorem starts_with_iff_initial : ∀ (kw l : List Nat), 0 ∉ kw →
    (starts_with l kw = true ↔ kw <+: l) := by
  intro kw
  induction kw with
  | nil => intro l _; cases l <;> simp [starts_with]
  | cons k ks ih =>
    intro l h0
    have hk : k ≠ 0 := fun h => h0 (by rw [h]; exact List.mem_cons_self _ _)
    have hks : 0 ∉ ks := fun h => h0 (List.mem_cons_of_mem _ h)
    cases l with
    | nil => simp [starts_with]
    | cons c cs =>
      simp only [starts_with, Bool.and_eq_true, decide_eq_true_eq, ih cs hks]
      constructor
      · rintro ⟨⟨rfl, _⟩, h⟩
        exact (List.prefix_cons_inj c).mpr h
      · intro h
        obtain ⟨rfl, h2⟩ := List.cons_prefix_cons.mp h
        exact ⟨⟨rfl, hk⟩, h2⟩

theorem keywords_no_nul : ∀ a ∈ keywords, 0 ∉ a.1 := by
  decide

/-- C16: keywords, variables and error tokens.  At any cursor position: if a
keyword of the table is a prefix of the text at the cursor, `get_next_token`
delivers that keyword's token and sets `nextptr` just past the keyword,
although the first byte is a lowercase letter; if no keyword is a prefix and
the first byte is a lowercase letter, it delivers a variable token of one
byte whose index is the letter minus `a`; and a non-zero first byte that is
neither a digit, nor one of the single-character operators, nor a double
quote, nor a lowercase letter gives an error token. -/
theorem C16_keyword_variable_error_tokens (t : Tokenizer) :
    (∀ kw tok, (kw, tok) ∈ keywords → kw <+: t.text.drop t.ptr →
      get_next_token t = (tok, { t with nextptr := t.ptr + kw.length })
      ∧ 97 ≤ byteAt t.text t.ptr ∧ byteAt t.text t.ptr ≤ 122)
    ∧ ((∀ kw tok, (kw, tok) ∈ keywords → ¬ kw <+: t.text.drop t.ptr) →
      97 ≤ byteAt t.text t.ptr → byteAt t.text t.ptr ≤ 122 →
      get_next_token t = (TOKENIZER_VARIABLE, { t with nextptr := t.ptr + 1 })
      ∧ tokenizer_variable_num (get_next_token t).2 = (byteAt t.text t.ptr : Int) - 97)
    ∧ (byteAt t.text t.ptr ≠ 0 → is_digit (byteAt t.text t.ptr) = false →
      singlechar t = none → byteAt t.text t.ptr ≠ 34 →
      ¬ (97 ≤ byteAt t.text t.ptr ∧ byteAt t.text t.ptr ≤ 122) →
      get_next_token t = (TOKENIZER_ERROR, t)) := by
  refine ⟨fun kw tok hmem hpre => ?_, fun hno h1 h2 => ?_, fun h0 hd hs hq hl => ?_⟩
  · have hsw : starts_with (t.text.drop t.ptr) kw = true :=
      (starts_with_iff_initial kw _ (keywords_no_nul _ hmem)).mpr hpre
    obtain ⟨k, ks, hkw, hk1, hk2⟩ := keywords_start_lowercase _ hmem
    simp only at hkw
    obtain ⟨rest, hl, _⟩ := starts_with_head hkw hsw
    have hc : byteAt t.text t.ptr = k := (drop_cons_info hl).1
    have hloop := keyword_loop_first t keywords kw tok hmem hsw (fun b hb hne => by
      cases hb2 : starts_with (t.text.drop t.ptr) b.1 with
      | false => rfl
      | true =>
        exfalso
        rcases starts_with_comparable _ _ _ hb2 hsw with h | h
        · exact hne (keywords_prefix_free b hb (kw, tok) hmem h)
        · exact hne (keywords_prefix_free (kw, tok) hmem b hb h).symm)
    refine ⟨?_, by rw [hc]; exact hk1, by rw [hc]; exact hk2⟩
    unfold get_next_token
    simp only
    rw [if_neg (by rw [hc]; omega), is_digit_lowercase (by rw [hc]; exact hk1),
      singlechar_lowercase t (by rw [hc]; exact hk1) (by rw [hc]; exact hk2)]
    simp only [Bool.false_eq_true, if_false]
    rw [if_neg (by rw [hc]; omega), hloop]
  · have hloop := keyword_loop_none t keywords (fun b hb => by
      cases hb2 : starts_with (t.text.drop t.ptr) b.1 with
      | false => rfl
      | true =>
        exact absurd ((starts_with_iff_initial b.1 _ (keywords_no_nul b hb)).mp hb2)
          (hno b.1 b.2 hb))
    have hg : get_next_token t = (TOKENIZER_VARIABLE, { t with nextptr := t.ptr + 1 }) := by
      unfold get_next_token
      simp only
      rw [if_neg (by omega), is_digit_lowercase h1, singlechar_lowercase t h1 h2]
      simp only [Bool.false_eq_true, if_false]
      rw [if_neg (by omega), hloop]
      simp only
      rw [if_pos ⟨h1, h2⟩]
    exact ⟨hg, by rw [hg]; rfl⟩
  · have hloop := keyword_loop_none t keywords (fun b hb => by
      cases hb2 : starts_with (t.text.drop t.ptr) b.1 with
      | false => rfl
      | true =>
        exfalso
        obtain ⟨k, ks, hkw, hk1, hk2⟩ := keywords_start_lowercase b hb
        obtain ⟨rest, hl2, _⟩ := starts_with_head hkw hb2
        have hc : byteAt t.text t.ptr = k := (drop_cons_info hl2).1
        exact hl (by rw [hc]; exact ⟨hk1, hk2⟩))
    unfold get_next_token
    simp only
    rw [if_neg h0, hd, hs]
    simp only [Bool.false_eq_true, if_false]
    rw [if_neg hq, hloop]
    simp only
    rw [if_neg hl]

/-- C16 on concrete texts: at the start of `print a` the keyword `print` is a
prefix, so the token is PRINT with `nextptr = 5`; and the first tokens of
`gosub`, `gox`, `to`, `t`, `P` and `$` are GOSUB, a variable, TO, a variable,
an error and an error. -/
theorem C16_keyword_variable_error_tokens_witness :
    (get_next_token (start_cursor (bytes "print a"))
        = (TOKENIZER_PRINT,
            { start_cursor (bytes "print a") with
              nextptr := (start_cursor (bytes "print a")).ptr + (bytes "print").length })
      ∧ 97 ≤ byteAt (start_cursor (bytes "print a")).text (start_cursor (bytes "print a")).ptr
      ∧ byteAt (start_cursor (bytes "print a")).text (start_cursor (bytes "print a")).ptr ≤ 122)
    ∧ first_token (bytes "gosub") = TOKENIZER_GOSUB
    ∧ first_token (bytes "gox") = TOKENIZER_VARIABLE
    ∧ first_token (bytes "to") = TOKENIZER_TO
    ∧ first_token (bytes "t") = TOKENIZER_VARIABLE
    ∧ first_token (bytes "P") = TOKENIZER_ERROR
    ∧ first_token (bytes "$") = TOKENIZER_ERROR :=
  ⟨(C16_keyword_variable_error_tokens (start_cursor (bytes "print a"))).1
      (bytes "print") TOKENIZER_PRINT (by decide) (by decide!),
    by decide!, by decide!, by decide!, by decide!, by decide!, by decide!⟩

/-! ### RETURN on an empty stack (C17) -/

/-- C17 (code defect): RETURN on an empty Gosub stack leaves the cursor on
the newline.  On `10 return / 20 end` the step returns with the variables and
both stack counters untouched and without a jump, but the cursor is on the
newline token that ends line 10 (offset 9), not on the number of line 20
(offset 10): `return_statement` accepts `return` and, finding the stack
empty, returns without `accept(TOKENIZER_CR)`.  The next step therefore does
not execute line 20; it reports `Unexpected token error` and reaches
`HALT()`.  The sibling handler of NEXT without a frame accepts the newline:
on `10 next a / 20 end` the step ends on the number of line 20 and the next
step executes END. -/
theorem C17_return_on_empty_stack_stays_on_newline :
    (ubasic_run 30 (cursor_on "10 return\n20 end\n")).returned.map
        (fun s => (s.tok.ptr, s.tok.current_token, s.gosub_stack_ptr, s.for_stack_ptr,
          s.variables_ == State.initial.variables_))
      = some (9, TOKENIZER_CR, 0, 0, true)
    ∧ (run_steps 30 2 (cursor_on "10 return\n20 end\n")).halted.map
        (fun s => (s.events, s.tok.ptr, s.tok.current_token))
      = some ([Event.print (bytes "Unexpected token error\n")], 9, TOKENIZER_CR)
    ∧ (ubasic_run 30 (cursor_on "10 next a\n20 end\n")).returned.map
        (fun s => (s.tok.ptr, s.tok.current_token))
      = some (10, TOKENIZER_NUMBER)
    ∧ (run_steps 30 2 (cursor_on "10 next a\n20 end\n")).returned.map
        (fun s => s.ended) = some true := by
  decide!

/-! ### NEXT without a matching frame (C18) -/

/-- The handler `next_statement` on `next v` followed by a newline, when the
FOR stack is empty or its top frame belongs to another variable. -/
theorem next_statement_plain (fuel : Nat) (s : State) (v : Int) (t' : Tokenizer)
    (hs : scan s.tok [Lexeme.sym TOKENIZER_NEXT, Lexeme.var v,
      Lexeme.sym TOKENIZER_CR] = some t')
    (hframe : s.for_stack_ptr = 0
      ∨ ∃ top, s.for_stack.get? (s.for_stack_ptr - 1).toNat = some top ∧ top.for_variable ≠ v) :
    next_statement fuel s = .ok () (s.at_cursor t') := by
  obtain ⟨hy, h2⟩ := scan_cons_some hs
  have hnx := shown_sym hy
  obtain ⟨hz, h3⟩ := scan_cons_some h2
  obtain ⟨hvar, hv⟩ := shown_var hz
  obtain ⟨hw, h4⟩ := scan_cons_some h3
  have hcr := shown_sym hw
  simp only [scan, Option.some.injEq] at h4
  unfold next_statement
  rw [accept_ok TOKENIZER_NEXT _ hnx]
  simp only [Res.andThen]
  rw [accept_ok TOKENIZER_VARIABLE _ (by simpa [State.at_cursor] using hvar)]
  simp only [Res.andThen, State.at_cursor]
  by_cases hpos : s.for_stack_ptr > 0
  · rw [if_pos hpos]
    rcases hframe with h0 | ⟨top, htop, hne⟩
    · omega
    · have hget : aget s.for_stack (s.for_stack_ptr - 1) = some top := by
        unfold aget
        rw [if_pos (by omega)]
        exact htop
      simp only [hget]
      rw [if_neg (by rw [hv]; exact fun h => hne h.symm)]
      rw [accept_ok TOKENIZER_CR _ hcr]
      simp only [State.at_cursor, h4]
  · rw [if_neg hpos]
    rw [accept_ok TOKENIZER_CR _ hcr]
    simp only [State.at_cursor, h4]

/-- C18: NEXT without a matching frame is a plain line end.  In a well-formed
state that has not ended, whose FOR stack is empty or whose top frame belongs
to a variable other than `v`, a step on a line `N next v` followed by a
newline returns with the cursor on the token after the newline; the
variables, the FOR stack and its counter, the Gosub stack and its counter and
the host log are unchanged, so nothing is incremented and nothing jumps. -/
theorem C18_next_without_matching_frame (s : State) (N v : Int) (t' : Tokenizer)
    (hs : scan s.tok [Lexeme.num N, Lexeme.sym TOKENIZER_NEXT, Lexeme.var v,
      Lexeme.sym TOKENIZER_CR] = some t')
    (hframe : s.for_stack_ptr = 0
      ∨ ∃ top, s.for_stack.get? (s.for_stack_ptr - 1).toNat = some top ∧ top.for_variable ≠ v)
    (hwf : s.wf = true) (hended : s.ended = false) :
    ∃ F, ∀ fuel, F ≤ fuel → ∃ s', ubasic_run fuel s = .ok () s' ∧ s'.tok = t'
      ∧ s'.variables_ = s.variables_
      ∧ s'.for_stack = s.for_stack ∧ s'.for_stack_ptr = s.for_stack_ptr
      ∧ s'.gosub_stack = s.gosub_stack ∧ s'.gosub_stack_ptr = s.gosub_stack_ptr
      ∧ s'.events = s.events ∧ s'.ended = false := by
  obtain ⟨hx, h1⟩ := scan_cons_some hs
  obtain ⟨hnum, _⟩ := shown_num hx
  have hfin : tokenizer_finished s.tok = false :=
    not_finished_of_scan TOKENIZER_NUMBER TOKENIZER_NEXT hs
      (fun h => (shown_num h).1) (fun u h => shown_sym h) (by decide)
  have hnx := shown_sym (scan_cons_some h1).1
  obtain ⟨table, ptr, hadd, _⟩ := index_add_ok s (tokenizer_num s.tok) s.tok.ptr hwf
  refine ⟨1, fun fuel hf => ?_⟩
  obtain ⟨k, rfl⟩ : ∃ k, fuel = k + 1 := ⟨fuel - 1, by omega⟩
  rw [ubasic_run_line (k + 1) s table ptr hadd hended hfin hnum, statement_next k _ hnx,
    next_statement_plain k
      { s with line_index_table := table, line_index_current_ptr := ptr,
               tok := tokenizer_next s.tok } v t' h1 hframe]
  exact ⟨_, rfl, rfl, rfl, rfl, rfl, rfl, rfl, rfl, hended⟩

/-- C18 on `10 next a / 20 end` with an empty FOR stack: the step leaves the
cursor on line 20.  And on `10 for a=1 to 3 / 20 next b / 30 end` the NEXT on
`b` leaves `a` at 1, the frame in place and the cursor on line 30. -/
theorem C18_next_without_matching_frame_witness :
    (∃ F, ∀ fuel, F ≤ fuel → ∃ s', ubasic_run fuel (cursor_on "10 next a\n20 end\n") = .ok () s'
      ∧ s'.tok = ⟨bytes "10 next a\n20 end\n", 10, 12, TOKENIZER_NUMBER⟩
      ∧ s'.variables_ = (cursor_on "10 next a\n20 end\n").variables_
      ∧ s'.for_stack = (cursor_on "10 next a\n20 end\n").for_stack
      ∧ s'.for_stack_ptr = (cursor_on "10 next a\n20 end\n").for_stack_ptr
      ∧ s'.gosub_stack = (cursor_on "10 next a\n20 end\n").gosub_stack
      ∧ s'.gosub_stack_ptr = (cursor_on "10 next a\n20 end\n").gosub_stack_ptr
      ∧ s'.events = (cursor_on "10 next a\n20 end\n").events ∧ s'.ended = false)
    ∧ (run_steps 30 2 (cursor_on "10 for a=1 to 3\n20 next b\n30 end\n")).returned.map
        (fun s => (s.tok.ptr, s.tok.current_token, ubasic_get_variable s 0,
          ubasic_get_variable s 1, s.for_stack_ptr))
      = some (26, TOKENIZER_NUMBER, 1, 0, 1) :=
  ⟨C18_next_without_matching_frame (cursor_on "10 next a\n20 end\n") 10 0 _ (by decide!)
    (Or.inl (by decide!)) (by decide!) (by decide!), by decide!⟩

/-! ### The line index (C19) -/

/-- The loop of `index_find` is a search for the first entry with the line
number among the cells it visits. -/
theorem index_find_loop_find (s : State) (n : Int) : ∀ (k i : Nat),
    i + k ≤ s.line_index_table.length →
    index_find_loop s n k (i : Int)
      = some ((((s.line_index_table.drop i).take k).find?
          (fun e => decide (e.line_number = n))).map line_index.program_text_position) := by
  intro k
  induction k with
  | zero => intro i _; simp [index_find_loop]
  | succ k ih =>
    intro i hle
    have hlt : i < s.line_index_table.length := by omega
    rw [index_find_loop]
    have hget : aget s.line_index_table (i : Int) = some s.line_index_table[i] := by
      unfold aget
      rw [if_pos (by omega)]
      simp [List.get?_eq_getElem?, List.getElem?_eq_getElem hlt]
    rw [hget]
    simp only
    rw [List.drop_eq_getElem_cons hlt, List.take_succ_cons, List.find?_cons]
    by_cases he : s.line_index_table[i].line_number = n
    · simp [he]
    · have e2 : ((i : Int) + 1) = ((i + 1 : Nat) : Int) := by push_cast; rfl
      rw [if_neg he, e2, ih (i + 1) (by omega)]
      simp [he]

/-- The function `index_find` returns the position of the first stored entry
with the line number, or a null pointer when there is none. -/
theorem index_find_eq (s : State) (n : Int) (hlen : s.line_index_table.length = 256)
    (h0 : 0 ≤ s.line_index_current_ptr) (h1 : s.line_index_current_ptr ≤ 256) :
    index_find s n
      = some (((index_entries s).find? (fun e => decide (e.line_number = n))).map
          line_index.program_text_position) := by
  unfold index_find index_entries
  have := index_find_loop_find s n s.line_index_current_ptr.toNat 0 (by omega)
  simpa using this

theorem find_none_of_not_mem {es : List line_index} {n : Int}
    (h : n ∉ es.map line_index.line_number) :
    es.find? (fun e => decide (e.line_number = n)) = none := by
  rw [List.find?_eq_none]
  intro e he hn
  exact h (List.mem_map.mpr ⟨e, he, by simpa using hn⟩)

theorem find_some_of_mem {es : List line_index} {n : Int}
    (h : n ∈ es.map line_index.line_number) :
    ∃ e, es.find? (fun e => decide (e.line_number = n)) = some e := by
  cases hf : es.find? (fun e => decide (e.line_number = n)) with
  | some e => exact ⟨e, rfl⟩
  | none =>
    exfalso
    rw [List.find?_eq_none] at hf
    obtain ⟨e, he, hn⟩ := List.mem_map.mp h
    exact hf e he (by simpa using hn)

/-- The entries after a store into the first free cell. -/
theorem entries_after_store (table : List line_index) (k : Nat) (e : line_index)
    (hk : k < table.length) : (table.set k e).take (k + 1) = table.take k ++ [e] := by
  rw [List.take_succ, List.set_take, List.set_eq_of_length_le (by simp)]
  simp [List.getElem?_set_self hk]

/-- One call of `index_add` on a line index within its bounds: it returns;
either the entries are as before, or the line number was not stored, there
was room, and the entry is appended. -/
theorem index_add_step (s : State) (n : Int) (p : Nat)
    (hlen : s.line_index_table.length = 256)
    (h0 : 0 ≤ s.line_index_current_ptr) (h1 : s.line_index_current_ptr ≤ 256) :
    (n ∉ index_numbers s → s.line_index_current_ptr < 256 →
      index_add s n p
        = .ok () { s with
            line_index_table := s.line_index_table.set s.line_index_current_ptr.toNat ⟨n, p⟩
            line_index_current_ptr := s.line_index_current_ptr + 1 }
      ∧ index_entries { s with
            line_index_table := s.line_index_table.set s.line_index_current_ptr.toNat ⟨n, p⟩
            line_index_current_ptr := s.line_index_current_ptr + 1 }
          = index_entries s ++ [⟨n, p⟩])
    ∧ ((n ∈ index_numbers s ∨ s.line_index_current_ptr = 256) → index_add s n p = .ok () s) := by
  have hfind := index_find_eq s n hlen h0 h1
  constructor
  · intro hnot hlt
    have hk : s.line_index_current_ptr.toNat < s.line_index_table.length := by omega
    constructor
    · unfold index_add
      rw [hfind, find_none_of_not_mem hnot]
      simp only [Option.map_none', MAX_LINE_INDEXES, Nat.cast_ofNat]
      rw [if_pos hlt]
      unfold aset
      rw [if_pos ⟨h0, hk⟩]
    · unfold index_entries
      simp only
      have e : (s.line_index_current_ptr + 1).toNat = s.line_index_current_ptr.toNat + 1 := by
        omega
      rw [e]
      exact entries_after_store _ _ _ hk
  · intro h
    unfold index_add
    rw [hfind]
    by_cases hmem : n ∈ index_numbers s
    · obtain ⟨e, he⟩ := find_some_of_mem hmem
      rw [he]
      rfl
    · rcases h with h | h
      · exact absurd h hmem
      · rw [find_none_of_not_mem hmem]
        simp only [Option.map_none', MAX_LINE_INDEXES, Nat.cast_ofNat]
        rw [if_neg (by omega)]

theorem find_append_some {es : List line_index} {n : Int} {e x : line_index}
    (h : es.find? (fun e => decide (e.line_number = n)) = some x) :
    (es ++ [e]).find? (fun e => decide (e.line_number = n)) = some x := by
  rw [List.find?_append, h]
  rfl

/-- Any sequence of `index_add` calls returns; it keeps the stored entries in
place, in front of the new ones; what a lookup found before, it finds
afterwards; and distinct line numbers stay distinct. -/
theorem index_adds_spec : ∀ (adds : List (Int × Nat)) (s : State),
    s.line_index_table.length = 256 → 0 ≤ s.line_index_current_ptr →
    s.line_index_current_ptr ≤ 256 →
    ∃ s', index_adds s adds = some s'
      ∧ s'.line_index_table.length = 256 ∧ 0 ≤ s'.line_index_current_ptr
      ∧ s'.line_index_current_ptr ≤ 256
      ∧ index_entries s <+: index_entries s'
      ∧ (∀ m q, index_find s m = some (some q) → index_find s' m = some (some q))
      ∧ ((index_numbers s).Nodup → (index_numbers s').Nodup) := by
  intro adds
  induction adds with
  | nil =>
    intro s hlen h0 h1
    exact ⟨s, rfl, hlen, h0, h1, List.prefix_refl _, fun m q h => h, fun h => h⟩
  | cons a adds ih =>
    intro s hlen h0 h1
    obtain ⟨n, p⟩ := a
    obtain ⟨hadd, hsame⟩ := index_add_step s n p hlen h0 h1
    by_cases hcase : n ∉ index_numbers s ∧ s.line_index_current_ptr < 256
    · obtain ⟨e1, e2⟩ := hadd hcase.1 hcase.2
      obtain ⟨s', r1, r2, r3, r4, r5, r6, r7⟩ := ih
        { s with
          line_index_table := s.line_index_table.set s.line_index_current_ptr.toNat ⟨n, p⟩
          line_index_current_ptr := s.line_index_current_ptr + 1 }
        (by simp [hlen]) (by simp only; omega) (by simp only; omega)
      refine ⟨s', by rw [index_adds, e1]; exact r1, r2, r3, r4, ?_, fun m q h => r6 m q ?_,
        fun h => r7 ?_⟩
      · rw [e2] at r5
        exact List.IsPrefix.trans (List.prefix_append _ _) r5
      · rw [index_find_eq s m hlen h0 h1] at h
        rw [index_find_eq _ m (by simp [hlen]) (by simp only; omega) (by simp only; omega), e2]
        cases hf : (index_entries s).find? (fun e => decide (e.line_number = m)) with
        | none => rw [hf] at h; cases h
        | some x =>
          rw [hf] at h
          rw [find_append_some hf]
          exact h
      · unfold index_numbers at h ⊢
        rw [e2, List.map_append, List.nodup_append]
        refine ⟨h, List.nodup_singleton _, ?_⟩
        intro x hx hx2
        simp only [List.map_cons, List.map_nil, List.mem_singleton] at hx2
        subst hx2
        exact hcase.1 hx
    · have e1 : index_add s n p = .ok () s := by
        apply hsame
        by_cases hmem : n ∈ index_numbers s
        · exact Or.inl hmem
        · exact Or.inr (by
            have : ¬ s.line_index_current_ptr < 256 := fun h => hcase ⟨hmem, h⟩
            omega)
      obtain ⟨s', r1, r2, r3, r4, r5, r6, r7⟩ := ih s hlen h0 h1
      exact ⟨s', by rw [index_adds, e1]; exact r1, r2, r3, r4, r5, r6, r7⟩

/-- C19: the line index keeps the first position given for a line number.
For a line index within its bounds (256 cells, counter between 0 and 256):
`index_find n` returns the position of the first stored entry for `n`, or a
null pointer; `index_add n p` appends the entry `(n, p)` after the stored
ones when `n` is not stored and fewer than 256 entries are, after which
`index_find n` returns `p`, and leaves the whole state unchanged when `n` is
stored or the table is full; and any sequence of further `index_add` calls
returns, keeps the stored entries in place in front of the new ones, finds
on lookup whatever was found before, and keeps distinct line numbers
distinct. -/
theorem C19_index_add_first_occurrence_wins (s : State) (n : Int) (p : Nat)
    (hlen : s.line_index_table.length = 256)
    (h0 : 0 ≤ s.line_index_current_ptr) (h1 : s.line_index_current_ptr ≤ 256) :
    index_find s n
        = some (((index_entries s).find? (fun e => decide (e.line_number = n))).map
            line_index.program_text_position)
    ∧ (n ∉ index_numbers s → s.line_index_current_ptr < 256 →
        ∃ s', index_add s n p = .ok () s'
          ∧ s' = { s with
              line_index_table := s.line_index_table.set s.line_index_current_ptr.toNat ⟨n, p⟩
              line_index_current_ptr := s.line_index_current_ptr + 1 }
          ∧ index_entries s' = index_entries s ++ [⟨n, p⟩]
          ∧ index_find s' n = some (some p))
    ∧ ((n ∈ index_numbers s ∨ s.line_index_current_ptr = 256) → index_add s n p = .ok () s)
    ∧ (∀ adds, ∃ s', index_adds s adds = some s'
        ∧ index_entries s <+: index_entries s'
        ∧ (∀ m q, index_find s m = some (some q) → index_find s' m = some (some q))
        ∧ ((index_numbers s).Nodup → (index_numbers s').Nodup)) := by
  obtain ⟨hadd, hsame⟩ := index_add_step s n p hlen h0 h1
  refine ⟨index_find_eq s n hlen h0 h1, fun hnot hlt => ?_, hsame, fun adds => ?_⟩
  · obtain ⟨e1, e2⟩ := hadd hnot hlt
    refine ⟨_, e1, rfl, e2, ?_⟩
    rw [index_find_eq _ n (by simp [hlen]) (by simp only; omega) (by simp only; omega), e2,
      List.find?_append, find_none_of_not_mem hnot]
    simp
  · obtain ⟨s', r1, _, _, _, r5, r6, r7⟩ := index_adds_spec adds s hlen h0 h1
    exact ⟨s', r1, r5, r6, r7⟩

/-- C19 on a fresh interpreter: after the calls `index_add(10, 0)`,
`index_add(20, 6)` and `index_add(10, 99)` the index holds `(10, 0)` and
`(20, 6)`, and line 10 is found at position 0. -/
theorem C19_index_add_first_occurrence_wins_witness :
    (index_find State.initial 10
        = some (((index_entries State.initial).find?
            (fun e => decide (e.line_number = 10))).map line_index.program_text_position)
      ∧ (10 ∉ index_numbers State.initial → State.initial.line_index_current_ptr < 256 →
          ∃ s', index_add State.initial 10 0 = .ok () s'
            ∧ s' = { State.initial with
                line_index_table := State.initial.line_index_table.set
                  State.initial.line_index_current_ptr.toNat ⟨10, 0⟩
                line_index_current_ptr := State.initial.line_index_current_ptr + 1 }
            ∧ index_entries s' = index_entries State.initial ++ [⟨10, 0⟩]
            ∧ index_find s' 10 = some (some 0))
      ∧ ((10 ∈ index_numbers State.initial ∨ State.initial.line_index_current_ptr = 256) →
          index_add State.initial 10 0 = .ok () State.initial)
      ∧ (∀ adds, ∃ s', index_adds State.initial adds = some s'
          ∧ index_entries State.initial <+: index_entries s'
          ∧ (∀ m q, index_find State.initial m = some (some q) →
              index_find s' m = some (some q))
          ∧ ((index_numbers State.initial).Nodup → (index_numbers s').Nodup)))
    ∧ (index_adds State.initial [(10, 0), (20, 6), (10, 99)]).map index_entries
        = some [⟨10, 0⟩, ⟨20, 6⟩]
    ∧ (index_adds State.initial [(10, 0), (20, 6), (10, 99)]).map (fun s => index_find s 10)
        = some (some (some 0)) :=
  ⟨C19_index_add_first_occurrence_wins State.initial 10 0 (by decide!) (by decide) (by decide),
    by decide!, by decide!⟩

/-! ### Bounds of the stacks and the line index (C20) -/

theorem stacks_ok_unfold {s : State} (h : s.stacks_ok) :
    s.gosub_stack.length = 10 ∧ 0 ≤ s.gosub_stack_ptr ∧ s.gosub_stack_ptr ≤ 10
    ∧ s.for_stack.length = 4 ∧ 0 ≤ s.for_stack_ptr ∧ s.for_stack_ptr ≤ 4
    ∧ s.line_index_table.length = 256 ∧ 0 ≤ s.line_index_current_ptr
    ∧ s.line_index_current_ptr ≤ 256 := by
  simpa [State.stacks_ok, MAX_GOSUB_STACK_DEPTH, MAX_FOR_STACK_DEPTH, MAX_LINE_INDEXES]
    using h

theorem stacks_ok_of_control {s s1 : State} (h : s.stacks_ok) (hc : s.same_control s1) :
    s1.stacks_ok :=
  (same_control_evolves hc).1 h

theorem nofault_andThen {α β : Type} {r : Res α} {k : α → State → Res β}
    (P : State → Prop) (h1 : r ≠ .fault) (h2 : r.sat P)
    (h3 : ∀ a s1, P s1 → k a s1 ≠ .fault) : r.andThen k ≠ .fault := by
  cases r with
  | ok a s1 => exact h3 a s1 h2
  | halt s1 => intro h; cases h
  | fault => exact absurd rfl h1
  | timeout => intro h; cases h

theorem accept_nofault (k : Token) (s : State) : accept k s ≠ .fault := by
  unfold accept
  split <;> intro h <;> cases h

theorem accept_stacks_ok (k : Token) (s : State) (h : s.stacks_ok) :
    (accept k s).sat State.stacks_ok :=
  sat_mono (accept_control k s) (fun _ hc => stacks_ok_of_control h hc)

/-- Within the bounds, every cell that `index_find` reads is a cell of the
table. -/
theorem index_find_in_range (s : State) (L : Int) (h : s.stacks_ok) :
    index_find s L ≠ none := by
  obtain ⟨_, _, _, _, _, _, h1, h2, h3⟩ := stacks_ok_unfold h
  apply index_find_loop_in_bounds s L _ 0 (le_refl 0)
  have : (s.line_index_current_ptr.toNat : Int) = s.line_index_current_ptr :=
    Int.toNat_of_nonneg h2
  omega

theorem aset_in_range {α : Type} (a : List α) (i : Int) (x : α) (h0 : 0 ≤ i)
    (h1 : i < a.length) : aset a i x ≠ none := by
  unfold aset
  rw [if_pos ⟨h0, by omega⟩]
  intro h; cases h

theorem aget_in_range {α : Type} (a : List α) (i : Int) (h0 : 0 ≤ i)
    (h1 : i < a.length) : aget a i ≠ none := by
  unfold aget
  rw [if_pos h0, List.get?_eq_getElem?, List.getElem?_eq_getElem (by omega)]
  intro h; cases h

theorem index_add_nofault (s : State) (L : Int) (pos : Nat) (h : s.stacks_ok) :
    index_add s L pos ≠ .fault := by
  obtain ⟨_, _, _, _, _, _, h1, h2, h3⟩ := stacks_ok_unfold h
  unfold index_add
  have hf := index_find_in_range s L h
  split
  · rename_i hnone; exact absurd hnone hf
  · intro h; cases h
  · split
    · rename_i hlt
      have := aset_in_range s.line_index_table s.line_index_current_ptr
        (⟨L, pos⟩ : line_index) h2 (by
          simp only [MAX_LINE_INDEXES] at hlt
          omega)
      split
      · rename_i hn; exact absurd hn this
      · intro h; cases h
    · intro h; cases h

theorem jump_linenum_nofault (fuel : Nat) (L : Int) (s : State) (h : s.stacks_ok) :
    jump_linenum fuel L s ≠ .fault := by
  unfold jump_linenum
  have hf := index_find_in_range s L h
  split
  · rename_i hnone; exact absurd hnone hf
  · intro h; cases h
  · unfold jump_linenum_slow
    split <;> intro h <;> cases h

theorem goto_statement_nofault (fuel : Nat) (s : State) (h : s.stacks_ok) :
    goto_statement fuel s ≠ .fault := by
  unfold goto_statement
  exact nofault_andThen State.stacks_ok (accept_nofault _ s) (accept_stacks_ok _ s h)
    (fun _ s1 h1 => jump_linenum_nofault fuel _ s1 h1)

theorem gosub_statement_nofault (fuel : Nat) (s : State) (h : s.stacks_ok) :
    gosub_statement fuel s ≠ .fault := by
  unfold gosub_statement
  refine nofault_andThen State.stacks_ok (accept_nofault _ s) (accept_stacks_ok _ s h)
    (fun _ s1 h1 => nofault_andThen State.stacks_ok (accept_nofault _ s1)
      (accept_stacks_ok _ s1 h1)
      (fun _ s2 h2 => nofault_andThen State.stacks_ok (accept_nofault _ s2)
        (accept_stacks_ok _ s2 h2) (fun _ s3 h3 => ?_)))
  obtain ⟨g1, g2, g3, g4, g5, g6, g7, g8, g9⟩ := stacks_ok_unfold h3
  split
  · rename_i hlt
    simp only [MAX_GOSUB_STACK_DEPTH] at hlt
    have hin := aset_in_range s3.gosub_stack s3.gosub_stack_ptr (tokenizer_num s3.tok) g2
      (by omega)
    split
    · rename_i hn; exact absurd hn hin
    · rename_i stack hst
      apply jump_linenum_nofault
      have hl := aset_length hst
      simp only [State.stacks_ok, MAX_GOSUB_STACK_DEPTH, MAX_FOR_STACK_DEPTH,
        MAX_LINE_INDEXES]
      omega
  · intro h; cases h

theorem return_statement_nofault (fuel : Nat) (s : State) (h : s.stacks_ok) :
    return_statement fuel s ≠ .fault := by
  unfold return_statement
  refine nofault_andThen State.stacks_ok (accept_nofault _ s) (accept_stacks_ok _ s h)
    (fun _ s1 h1 => ?_)
  obtain ⟨g1, g2, g3, g4, g5, g6, g7, g8, g9⟩ := stacks_ok_unfold h1
  split
  · rename_i hgt
    dsimp only
    have hin := aget_in_range s1.gosub_stack (s1.gosub_stack_ptr - 1) (by omega) (by omega)
    split
    · rename_i hn; exact absurd hn hin
    · apply jump_linenum_nofault
      simp only [State.stacks_ok, MAX_GOSUB_STACK_DEPTH, MAX_FOR_STACK_DEPTH,
        MAX_LINE_INDEXES]
      omega
  · intro h; cases h

theorem next_statement_nofault (fuel : Nat) (s : State) (h : s.stacks_ok) :
    next_statement fuel s ≠ .fault := by
  unfold next_statement
  refine nofault_andThen State.stacks_ok (accept_nofault _ s) (accept_stacks_ok _ s h)
    (fun _ s1 h1 => nofault_andThen State.stacks_ok (accept_nofault _ s1)
      (accept_stacks_ok _ s1 h1) (fun _ s2 h2 => ?_))
  obtain ⟨g1, g2, g3, g4, g5, g6, g7, g8, g9⟩ := stacks_ok_unfold h2
  split
  · rename_i hgt
    have hin := aget_in_range s2.for_stack (s2.for_stack_ptr - 1) (by omega) (by omega)
    split
    · rename_i hn; exact absurd hn hin
    · split
      · dsimp only
        split
        · exact jump_linenum_nofault fuel _ _
            (stacks_ok_of_control h2 (set_variable_control s2 _ _))
        · exact accept_nofault _ _
      · exact accept_nofault _ _
  · exact accept_nofault _ _

/-- C20: the stack and index counters stay within their arrays, and so does
every access.  After `ubasic_init` on a state whose three arrays have their
declared sizes, and after any number of steps on any program (whether the
last step returned or halted), the counters satisfy
`0 <= gosub_stack_ptr <= 10`, `0 <= for_stack_ptr <= 4` and
`0 <= line_index_current_ptr <= 256`.  These bounds are kept by every step
and by the parts of a step that come before an access (`accept`, `expr`,
`relation`).  And in every state within the bounds each access made by the
handlers falls inside its array: the reads of `index_find`, the write of
`index_add`, the write of GOSUB at `gosub_stack_ptr` when it is below 10, the
read of RETURN at `gosub_stack_ptr - 1` when the counter is positive, the
read of NEXT at `for_stack_ptr - 1` when the counter is positive and the
write of FOR at `for_stack_ptr` when it is below 4; so that jumps and the
handlers of GOTO, GOSUB, RETURN and NEXT never perform an undefined
access. -/
theorem C20_counters_and_accesses_within_bounds (s0 : State) (program : List Nat)
    (hg : s0.gosub_stack.length = 10) (hf : s0.for_stack.length = 4)
    (hi : s0.line_index_table.length = 256) :
    (ubasic_init s0 program).stacks_ok
    ∧ (∀ fuel n, (run_steps fuel n (ubasic_init s0 program)).sat State.stacks_ok)
    ∧ (∀ s : State, s.stacks_ok →
        (0 ≤ s.gosub_stack_ptr ∧ s.gosub_stack_ptr ≤ 10 ∧ 0 ≤ s.for_stack_ptr
          ∧ s.for_stack_ptr ≤ 4 ∧ 0 ≤ s.line_index_current_ptr
          ∧ s.line_index_current_ptr ≤ 256)
        ∧ (∀ fuel, (ubasic_run fuel s).sat State.stacks_ok)
        ∧ (∀ fuel, (statement fuel s).sat State.stacks_ok)
        ∧ (∀ k, (accept k s).sat State.stacks_ok)
        ∧ (∀ fuel, (expr fuel s).sat State.stacks_ok)
        ∧ (∀ fuel, (relation fuel s).sat State.stacks_ok)
        ∧ (∀ L, index_find s L ≠ none)
        ∧ (∀ L pos, index_add s L pos ≠ .fault)
        ∧ (s.gosub_stack_ptr < MAX_GOSUB_STACK_DEPTH →
            ∀ x, aset s.gosub_stack s.gosub_stack_ptr x ≠ none)
        ∧ (s.gosub_stack_ptr > 0 → aget s.gosub_stack (s.gosub_stack_ptr - 1) ≠ none)
        ∧ (s.for_stack_ptr > 0 → aget s.for_stack (s.for_stack_ptr - 1) ≠ none)
        ∧ (s.for_stack_ptr < MAX_FOR_STACK_DEPTH →
            ∀ x, aset s.for_stack s.for_stack_ptr x ≠ none)
        ∧ (∀ fuel L, jump_linenum fuel L s ≠ .fault)
        ∧ (∀ fuel, goto_statement fuel s ≠ .fault ∧ gosub_statement fuel s ≠ .fault
            ∧ return_statement fuel s ≠ .fault ∧ next_statement fuel s ≠ .fault)) := by
  have hinit : (ubasic_init s0 program).stacks_ok := by
    simp only [State.stacks_ok, ubasic_init, MAX_GOSUB_STACK_DEPTH, MAX_FOR_STACK_DEPTH,
      MAX_LINE_INDEXES, hg, hf, hi]
    norm_num
  refine ⟨hinit, fun fuel n => sat_mono (run_steps_evolves fuel n _) (fun _ h => h.1 hinit),
    fun s h => ?_⟩
  obtain ⟨g1, g2, g3, g4, g5, g6, g7, g8, g9⟩ := stacks_ok_unfold h
  refine ⟨⟨g2, g3, g5, g6, g8, g9⟩,
    fun fuel => sat_mono (ubasic_run_evolves fuel s) (fun _ h2 => h2.1 h),
    fun fuel => sat_mono (statement_evolves fuel s) (fun _ h2 => h2.1 h),
    fun k => accept_stacks_ok k s h,
    fun fuel => sat_mono (expr_control fuel s) (fun _ hc => stacks_ok_of_control h hc),
    fun fuel => sat_mono (relation_control fuel s) (fun _ hc => stacks_ok_of_control h hc),
    fun L => index_find_in_range s L h, fun L pos => index_add_nofault s L pos h,
    fun hlt x => aset_in_range _ _ x g2 (by simp only [MAX_GOSUB_STACK_DEPTH] at hlt; omega),
    fun hgt => aget_in_range _ _ (by omega) (by omega),
    fun hgt => aget_in_range _ _ (by omega) (by omega),
    fun hlt x => aset_in_range _ _ x g5 (by simp only [MAX_FOR_STACK_DEPTH] at hlt; omega),
    fun fuel L => jump_linenum_nofault fuel L s h,
    fun fuel => ⟨goto_statement_nofault fuel s h, gosub_statement_nofault fuel s h,
      return_statement_nofault fuel s h, next_statement_nofault fuel s h⟩⟩

/-- C20 on a fresh interpreter with the program `10 gosub 10`: the bounds
hold after any number of steps; after 12 steps the Gosub stack holds its 10
entries and no more.  And 30 steps of
`10 gosub 20 / 20 for a=1 to 2 / 30 goto 10` fill both stacks to 10 and 4. -/
theorem C20_counters_and_accesses_within_bounds_witness :
    (State.initial.gosub_stack.length = 10 ∧ State.initial.for_stack.length = 4
      ∧ State.initial.line_index_table.length = 256)
    ∧ (ubasic_init State.initial (bytes "10 gosub 10\n")).stacks_ok
    ∧ (∀ fuel n,
        (run_steps fuel n (ubasic_init State.initial (bytes "10 gosub 10\n"))).sat
          State.stacks_ok)
    ∧ (run_steps 30 12 (cursor_on "10 gosub 10\n")).returned.map
        (fun s => (s.gosub_stack_ptr, s.for_stack_ptr, s.line_index_current_ptr))
      = some (10, 0, 1)
    ∧ (run_steps 30 30 (cursor_on "10 gosub 20\n20 for a=1 to 2\n30 goto 10\n")).returned.map
        (fun s => (s.gosub_stack_ptr, s.for_stack_ptr, s.line_index_current_ptr))
      = some (10, 4, 3) :=
  ⟨⟨by decide, by decide, by decide!⟩,
    (C20_counters_and_accesses_within_bounds State.initial (bytes "10 gosub 10\n")
      (by decide) (by decide) (by decide!)).1,
    (C20_counters_and_accesses_within_bounds State.initial (bytes "10 gosub 10\n")
      (by decide) (by decide) (by decide!)).2.1,
    by decide!, by decide!⟩

/-! ### Initialisation on a used interpreter -/

/-- C14 on a state with entries on both stacks, five indexed lines, the ended
flag set and 7 in variable `a`, re-initialised on `10 end`: the scanner is
the one of a fresh interpreter on this program, the counters are 0, the flag
is clear, and `a` still reads 7. -/
theorem C14_init_resets_control_and_keeps_variables_witness :
    (ubasic_init
        { State.initial with
          gosub_stack_ptr := 3, for_stack_ptr := 2, line_index_current_ptr := 5,
          ended := true, variables_ := State.initial.variables_.set 0 7 }
        (bytes "10 end\n")).tok = start_cursor (bytes "10 end\n")
    ∧ (∀ L, index_find (ubasic_init
        { State.initial with
          gosub_stack_ptr := 3, for_stack_ptr := 2, line_index_current_ptr := 5,
          ended := true, variables_ := State.initial.variables_.set 0 7 }
        (bytes "10 end\n")) L = some none)
    ∧ (∀ v, ubasic_get_variable (ubasic_init
        { State.initial with
          gosub_stack_ptr := 3, for_stack_ptr := 2, line_index_current_ptr := 5,
          ended := true, variables_ := State.initial.variables_.set 0 7 }
        (bytes "10 end\n")) v
          = ubasic_get_variable
              { State.initial with
                gosub_stack_ptr := 3, for_stack_ptr := 2, line_index_current_ptr := 5,
                ended := true, variables_ := State.initial.variables_.set 0 7 } v)
    ∧ ubasic_get_variable (ubasic_init
        { State.initial with
          gosub_stack_ptr := 3, for_stack_ptr := 2, line_index_current_ptr := 5,
          ended := true, variables_ := State.initial.variables_.set 0 7 }
        (bytes "10 end\n")) 0 = 7 :=
  ⟨(C14_init_resets_control_and_keeps_variables _ (bytes "10 end\n")).2.2.2.1
      (by decide!) (by decide!),
    (C14_init_resets_control_and_keeps_variables _ (bytes "10 end\n")).2.2.2.2.2.2.2.1,
    (C14_init_resets_control_and_keeps_variables _ (bytes "10 end\n")).2.2.2.2.2.2.2.2.2.2,
    by decide!⟩

/-! ### More fuel, same result -/

theorem andThen_eq_ok {α β : Type} {r : Res α} {k : α → State → Res β} {b : β} {s' : State}
    (h : r.andThen k = .ok b s') : ∃ a s1, r = .ok a s1 ∧ k a s1 = .ok b s' := by
  cases r with
  | ok a s1 => exact ⟨a, s1, rfl, h⟩
  | halt s1 => cases h
  | fault => cases h
  | timeout => cases h

/-- More fuel does not change an expression that returned. -/
theorem expr_mono_succ : ∀ fuel : Nat,
    (∀ s v s', factor fuel s = .ok v s' → factor (fuel + 1) s = .ok v s')
    ∧ (∀ f1 s v s', term_loop fuel f1 s = .ok v s' → term_loop (fuel + 1) f1 s = .ok v s')
    ∧ (∀ s v s', term fuel s = .ok v s' → term (fuel + 1) s = .ok v s')
    ∧ (∀ t1 s v s', expr_loop fuel t1 s = .ok v s' → expr_loop (fuel + 1) t1 s = .ok v s')
    ∧ (∀ s v s', expr fuel s = .ok v s' → expr (fuel + 1) s = .ok v s') := by
  intro fuel
  induction fuel with
  | zero =>
    refine ⟨fun s v s' h => ?_, fun f1 s v s' h => ?_, fun s v s' h => ?_,
      fun t1 s v s' h => ?_, fun s v s' h => ?_⟩
    · rw [factor] at h; cases h
    · rw [term_loop] at h; cases h
    · rw [term] at h; cases h
    · rw [expr_loop] at h; cases h
    · rw [expr] at h; cases h
  | succ n ih =>
    obtain ⟨ihf, ihtl, iht, ihel, ihe⟩ := ih
    refine ⟨fun s v s' h => ?_, fun f1 s v s' h => ?_, fun s v s' h => ?_,
      fun t1 s v s' h => ?_, fun s v s' h => ?_⟩
    · rw [factor] at h ⊢
      split at h
      · exact h
      · obtain ⟨_, s1, h1, h2⟩ := andThen_eq_ok h
        obtain ⟨r, s2, h3, h4⟩ := andThen_eq_ok h2
        rw [h1]
        simp only [Res.andThen]
        rw [ihe _ _ _ h3]
        exact h4
      · exact h
    · rw [term_loop] at h ⊢
      split at h
      · rename_i hop
        rw [if_pos hop]
        obtain ⟨f2, s1, h1, h2⟩ := andThen_eq_ok h
        rw [ihf _ _ _ h1]
        simp only [Res.andThen]
        split at h2
        · cases h2
        · exact ihtl _ _ _ _ h2
      · rename_i hop
        rw [if_neg hop]
        exact h
    · rw [term] at h ⊢
      obtain ⟨f1, s1, h1, h2⟩ := andThen_eq_ok h
      rw [ihf _ _ _ h1]
      exact ihtl _ _ _ _ h2
    · rw [expr_loop] at h ⊢
      split at h
      · rename_i hop
        rw [if_pos hop]
        obtain ⟨t2, s1, h1, h2⟩ := andThen_eq_ok h
        rw [iht _ _ _ h1]
        exact ihel _ _ _ _ h2
      · rename_i hop
        rw [if_neg hop]
        exact h
    · rw [expr] at h ⊢
      obtain ⟨t1, s1, h1, h2⟩ := andThen_eq_ok h
      rw [iht _ _ _ h1]
      exact ihel _ _ _ _ h2

theorem expr_mono {fuel fuel' : Nat} {s s' : State} {v : Int} (h : expr fuel s = .ok v s')
    (hle : fuel ≤ fuel') : expr fuel' s = .ok v s' := by
  induction hle with
  | refl => exact h
  | step _ ih => exact (expr_mono_succ _).2.2.2.2 _ _ _ ih

theorem accept_halt (k : Token) (s : State) (h : s.tok.current_token ≠ k) :
    accept k s = .halt (circle_basic_print s (bytes "Unexpected token error\n")) := by
  unfold accept
  rw [if_pos (by simpa [tokenizer_token] using fun e => h e.symm)]

/-- The handler `let_statement` on `v = e` followed by the end of input: with
enough fuel it stores the value and then halts in `accept(TOKENIZER_CR)`; with
no amount of fuel does it return. -/
theorem let_statement_at_end (s : State) (v : Int) (E : SExpr) (n : Int) (tE : Tokenizer)
    (hs : scan s.tok (Lexeme.var v :: Lexeme.sym TOKENIZER_EQ :: E.toks) = some tE)
    (hend : tE.current_token = TOKENIZER_ENDOFINPUT)
    (hv : E.eval (ubasic_get_variable s) = some n) :
    (∃ F, ∀ fuel, F ≤ fuel →
      let_statement fuel s
        = .halt (circle_basic_print ((ubasic_set_variable s v n).at_cursor tE)
            (bytes "Unexpected token error\n")))
    ∧ (∀ fuel, (let_statement fuel s).returned = none) := by
  obtain ⟨hx, h1⟩ := scan_cons_some hs
  obtain ⟨hvar, hnum⟩ := shown_var hx
  obtain ⟨hy, h2⟩ := scan_cons_some h1
  have heq := shown_sym hy
  obtain ⟨F, hF⟩ := expr_ok E
    (s.at_cursor (tokenizer_next (tokenizer_next s.tok))) tE n
    (by simpa using h2) (by simpa using hv) (by rw [hend]; rfl) (by rw [hend]; rfl)
  have hstep : ∀ fuel, let_statement fuel s
      = (expr fuel (s.at_cursor (tokenizer_next (tokenizer_next s.tok)))).andThen
          fun x s1 => accept TOKENIZER_CR (ubasic_set_variable s1 v x) := by
    intro fuel
    unfold let_statement
    rw [accept_ok TOKENIZER_VARIABLE s hvar]
    simp only [Res.andThen]
    rw [accept_ok TOKENIZER_EQ _ (by simpa using heq)]
    simp only [Res.andThen, at_cursor_tok, at_cursor_at_cursor, hnum]
  have hhalt : accept TOKENIZER_CR
      (ubasic_set_variable (s.at_cursor (tokenizer_next (tokenizer_next s.tok))
        |>.at_cursor tE) v n)
      = .halt (circle_basic_print ((ubasic_set_variable s v n).at_cursor tE)
          (bytes "Unexpected token error\n")) := by
    rw [accept_halt]
    · rw [at_cursor_at_cursor, set_variable_at_cursor]
    · rw [set_variable_tok]
      simp only [at_cursor_tok, hend]
      decide
  constructor
  · refine ⟨F, fun fuel hf => ?_⟩
    rw [hstep, hF fuel hf]
    simp only [Res.andThen]
    exact hhalt
  · intro fuel
    cases hr : let_statement fuel s with
    | halt s1 => rfl
    | fault => rfl
    | timeout => rfl
    | ok a s1 =>
      exfalso
      rw [hstep] at hr
      obtain ⟨x, s2, e1, e2⟩ := andThen_eq_ok hr
      have e3 := expr_mono e1 (le_max_left fuel F)
      rw [hF (max fuel F) (le_max_right fuel F)] at e3
      cases e3
      rw [hhalt] at e2
      cases e2

/-! ### LET at the end of input (C22) -/

/-- What the halt of `let_statement` at the end of input leaves behind, for a
state `s1` that has the variables and the host log of `s`. -/
theorem let_halt_state (s s1 : State) (v n : Int) (tE : Tokenizer)
    (hvars : s1.variables_ = s.variables_) (hev : s1.events = s.events)
    (hv0 : 0 ≤ v) (hv1 : v < 26) (hlen : s.variables_.length = 26) :
    ubasic_get_variable (circle_basic_print ((ubasic_set_variable s1 v n).at_cursor tE)
        (bytes "Unexpected token error\n")) v = n
    ∧ (∀ j, j ≠ v →
        ubasic_get_variable (circle_basic_print ((ubasic_set_variable s1 v n).at_cursor tE)
          (bytes "Unexpected token error\n")) j = ubasic_get_variable s j)
    ∧ (circle_basic_print ((ubasic_set_variable s1 v n).at_cursor tE)
        (bytes "Unexpected token error\n")).events
        = s.events ++ [Event.print (bytes "Unexpected token error\n")] := by
  have hget : ubasic_get_variable s1 = ubasic_get_variable s := by
    funext j; simp [ubasic_get_variable, hvars]
  refine ⟨?_, fun j hj => ?_, ?_⟩
  · show ubasic_get_variable ((ubasic_set_variable s1 v n).at_cursor tE) v = n
    rw [get_variable_at_cursor]
    exact get_set_variable_same s1 v n hv0 hv1 (by rw [hvars]; exact hlen)
  · show ubasic_get_variable ((ubasic_set_variable s1 v n).at_cursor tE) j = _
    rw [get_variable_at_cursor, get_set_variable_other s1 v n j hj, hget]
  · rw [set_variable_in_range s1 v n hv0 hv1]
    simp [circle_basic_print, State.at_cursor, hev]

/-- C22: a LET line that ends at the end of input halts after the
assignment.  In a well-formed state that has not ended, on a line `N let v=e`
(or `N v=e`) whose expression has the value `n` (no `/` or `%` in it divides
by zero or divides -2147483648 by -1) and is followed by the end of input
instead of a newline: the interpreter is not finished before the step;
given enough fuel the step stores `n` in `v`, leaves the other variables
alone, reports `Unexpected token error` and reaches `HALT()`; and with no
amount of fuel does `ubasic_run` return, so the caller never gets to see
`ubasic_finished`. -/
theorem C22_let_at_end_of_input_halts (s : State) (lead : List Lexeme) (N v n : Int)
    (E : SExpr) (t' : Tokenizer)
    (hlead : lead = [Lexeme.sym TOKENIZER_LET] ∨ lead = [])
    (hs : scan s.tok (Lexeme.num N :: (lead ++ Lexeme.var v :: Lexeme.sym TOKENIZER_EQ
            :: (E.toks ++ [Lexeme.sym TOKENIZER_ENDOFINPUT]))) = some t')
    (hv : E.eval (ubasic_get_variable s) = some n)
    (hv0 : 0 ≤ v) (hv1 : v < 26)
    (hwf : s.wf = true) (hended : s.ended = false) :
    ubasic_finished s = false
    ∧ (∃ F, ∀ fuel, F ≤ fuel → ∃ s', ubasic_run fuel s = .halt s'
        ∧ ubasic_get_variable s' v = n
        ∧ (∀ j, j ≠ v → ubasic_get_variable s' j = ubasic_get_variable s j)
        ∧ s'.events = s.events ++ [Event.print (bytes "Unexpected token error\n")])
    ∧ (∀ fuel, (ubasic_run fuel s).returned = none) := by
  obtain ⟨hx, h1⟩ := scan_cons_some hs
  obtain ⟨hnum, _⟩ := shown_num hx
  have hfin : tokenizer_finished s.tok = false := by
    rcases hlead with rfl | rfl
    · exact not_finished_of_scan TOKENIZER_NUMBER TOKENIZER_LET hs
        (fun h => (shown_num h).1) (fun u h => shown_sym h) (by decide)
    · exact not_finished_of_scan TOKENIZER_NUMBER TOKENIZER_VARIABLE hs
        (fun h => (shown_num h).1) (fun u h => (shown_var h).1) (by decide)
  have hlen := (wf_unfold hwf).2.1
  obtain ⟨table, ptr, hadd, _⟩ := index_add_ok s (tokenizer_num s.tok) s.tok.ptr hwf
  have hrun : ∀ fuel, ubasic_run fuel s
      = statement fuel { s with line_index_table := table, line_index_current_ptr := ptr,
                                tok := tokenizer_next s.tok } :=
    fun fuel => ubasic_run_line fuel s table ptr hadd hended hfin hnum
  have hnotfin : ubasic_finished s = false := by
    simp [ubasic_finished, hended, hfin]
  -- the handler, in the state it is entered in
  have key : ∀ (s1 : State), s1.variables_ = s.variables_ → s1.events = s.events →
      scan s1.tok (Lexeme.var v :: Lexeme.sym TOKENIZER_EQ
        :: (E.toks ++ [Lexeme.sym TOKENIZER_ENDOFINPUT])) = some t' →
      (∃ F, ∀ fuel, F ≤ fuel → ∃ s', let_statement fuel s1 = .halt s'
        ∧ ubasic_get_variable s' v = n
        ∧ (∀ j, j ≠ v → ubasic_get_variable s' j = ubasic_get_variable s j)
        ∧ s'.events = s.events ++ [Event.print (bytes "Unexpected token error\n")])
      ∧ (∀ fuel, (let_statement fuel s1).returned = none) := by
    intro s1 e1 e2 hsc
    have hsc' : scan s1.tok ((Lexeme.var v :: Lexeme.sym TOKENIZER_EQ :: E.toks)
        ++ [Lexeme.sym TOKENIZER_ENDOFINPUT]) = some t' := by
      simpa using hsc
    obtain ⟨tE, h3, h4⟩ := scan_append_some hsc'
    have hend := shown_sym (scan_cons_some h4).1
    have hget : ubasic_get_variable s1 = ubasic_get_variable s := by
      funext j; simp [ubasic_get_variable, e1]
    obtain ⟨⟨F, hF⟩, hnever⟩ := let_statement_at_end s1 v E n tE h3 hend
      (by rw [hget]; exact hv)
    obtain ⟨g1, g2, g3⟩ := let_halt_state s s1 v n tE e1 e2 hv0 hv1 hlen
    exact ⟨⟨F, fun fuel hf => ⟨_, hF fuel hf, g1, g2, g3⟩⟩, hnever⟩
  rcases hlead with rfl | rfl
  · simp only [List.singleton_append] at h1
    obtain ⟨hy, h2⟩ := scan_cons_some h1
    have hlet := shown_sym hy
    obtain ⟨⟨F, hF⟩, hnever⟩ := key
      { s with line_index_table := table, line_index_current_ptr := ptr,
               tok := tokenizer_next (tokenizer_next s.tok) } rfl rfl h2
    refine ⟨hnotfin, ⟨F + 1, fun fuel hf => ?_⟩, fun fuel => ?_⟩
    · obtain ⟨k, rfl⟩ : ∃ k, fuel = k + 1 := ⟨fuel - 1, by omega⟩
      rw [hrun, statement_let k _ hlet]
      exact hF k (by omega)
    · rw [hrun]
      cases fuel with
      | zero => rw [statement]; rfl
      | succ k =>
        rw [statement_let k _ hlet]
        exact hnever k
  · simp only [List.nil_append] at h1
    have hvar := (shown_var (scan_cons_some h1).1).1
    obtain ⟨⟨F, hF⟩, hnever⟩ := key
      { s with line_index_table := table, line_index_current_ptr := ptr,
               tok := tokenizer_next s.tok } rfl rfl h1
    refine ⟨hnotfin, ⟨F + 1, fun fuel hf => ?_⟩, fun fuel => ?_⟩
    · obtain ⟨k, rfl⟩ : ∃ k, fuel = k + 1 := ⟨fuel - 1, by omega⟩
      rw [hrun, statement_variable k _ hvar]
      exact hF k (by omega)
    · rw [hrun]
      cases fuel with
      | zero => rw [statement]; rfl
      | succ k =>
        rw [statement_variable k _ hvar]
        exact hnever k

/-- C22 on the program `10 let a=5` without a final newline: the step stores
5 in `a`, reports the error and halts, and never returns.  The same happens
at the last line of `10 print 1 / 20 b=2+3`; with a final newline,
`10 let a=5` returns and the interpreter is finished. -/
theorem C22_let_at_end_of_input_halts_witness :
    (ubasic_finished (cursor_on "10 let a=5") = false
      ∧ (∃ F, ∀ fuel, F ≤ fuel → ∃ s', ubasic_run fuel (cursor_on "10 let a=5") = .halt s'
          ∧ ubasic_get_variable s' 0 = 5
          ∧ (∀ j, j ≠ 0 →
              ubasic_get_variable s' j = ubasic_get_variable (cursor_on "10 let a=5") j)
          ∧ s'.events = (cursor_on "10 let a=5").events
              ++ [Event.print (bytes "Unexpected token error\n")])
      ∧ (∀ fuel, (ubasic_run fuel (cursor_on "10 let a=5")).returned = none))
    ∧ (run_steps 30 2 (cursor_on "10 print 1\n20 b=2+3")).halted.map
        (fun s => (s.events, ubasic_get_variable s 1))
      = some ([Event.print_num 1, Event.print (bytes "\n"),
          Event.print (bytes "Unexpected token error\n")], 5)
    ∧ (ubasic_run 30 (cursor_on "10 let a=5\n")).returned.map
        (fun s => (ubasic_get_variable s 0, ubasic_finished s)) = some (5, true) :=
  ⟨C22_let_at_end_of_input_halts (cursor_on "10 let a=5") [Lexeme.sym TOKENIZER_LET] 10 0 5
      (SExpr.term (STerm.factor (SFactor.num 5)))
      ⟨bytes "10 let a=5", 10, 10, TOKENIZER_ENDOFINPUT⟩ (Or.inl rfl) (by decide!) rfl
      (by decide) (by decide) (by decide!) (by decide!),
    by decide!, by decide!⟩

/-! ### The string buffer (C21) -/

/-- The copy made by `tokenizer_string` for a terminated payload of 40 bytes
or more into a buffer of 40 bytes: the store of the terminating zero goes to
index 40, outside the buffer. -/
theorem tokenizer_string_overflow (t : Tokenizer) (dest : List Nat) (p : List Nat)
    (hshown : (Lexeme.str p).shown t = true) (hlen : 40 ≤ p.length)
    (hdest : dest.length = 40) :
    tokenizer_string t dest MAX_STRINGLEN = none := by
  simp only [Lexeme.shown, Bool.and_eq_true, decide_eq_true_eq] at hshown
  obtain ⟨⟨htok, hchr⟩, htake⟩ := hshown
  unfold tokenizer_string
  simp only [htok, ne_eq, not_true_eq_false, if_false, hchr]
  have e1 : ((t.ptr + 1 + p.length : Nat) : Int) - (t.ptr : Int) - 1 = (p.length : Int) := by
    push_cast; ring
  simp only [e1, MAX_STRINGLEN]
  have e2 : (if ((40 : Nat) : Int) < (p.length : Int) then ((40 : Nat) : Int)
      else (p.length : Int)) = 40 := by
    split <;> omega
  rw [e2]
  unfold aset
  rw [if_neg]
  intro h
  have hl : (memcpy dest (t.text.drop (t.ptr + 1)) (40 : Int).toNat).length ≤ 40 := by
    simp only [memcpy, List.length_append, List.length_take, List.length_drop, hdest]
    have : (40 : Int).toNat = 40 := rfl
    omega
  have : (40 : Int).toNat = 40 := rfl
  omega

/-- C21 (code defect): a string literal of 40 bytes or more makes
`tokenizer_string` store the terminating zero at index 40 of the 40-byte
buffer.  On `10 print "` followed by 40 letters `a` and a closing quote, the
copy into the buffer of the interpreter is an access outside the buffer and
the step is undefined; given a buffer of 41 bytes the same call puts the 40
letters at indices 0..39 and the zero at index 40, which shows where the
store goes.  With 39 letters the copy fits: the step returns and prints the
39 letters. -/
theorem C21_forty_byte_string_overflows_buffer :
    tokenizer_string
        (tokenizer_next (tokenizer_next
          (cursor_on "10 print \"aaaaaaaaaaaaaaaaaaaaaaaaaaaaaaaaaaaaaaaa\"\n").tok))
        State.initial.string MAX_STRINGLEN = none
    ∧ (ubasic_run 30
        (cursor_on "10 print \"aaaaaaaaaaaaaaaaaaaaaaaaaaaaaaaaaaaaaaaa\"\n")).undefined = true
    ∧ tokenizer_string
        (tokenizer_next (tokenizer_next
          (cursor_on "10 print \"aaaaaaaaaaaaaaaaaaaaaaaaaaaaaaaaaaaaaaaa\"\n").tok))
        (List.replicate 41 1) MAX_STRINGLEN = some (List.replicate 40 97 ++ [0])
    ∧ (ubasic_run 30
        (cursor_on "10 print \"aaaaaaaaaaaaaaaaaaaaaaaaaaaaaaaaaaaaaaa\"\n")).events
      = some [Event.print (List.replicate 39 97), Event.print (bytes "\n")] := by
  decide!

/-! ### GOSUB and RETURN in any run (C6) -/

/-- C3 (counterexample): the expression `(0-65536)*32768/(0-1)` is well
formed and divides by -1, not by zero, yet `relation` does not return a
value on it.  The scanner delivers the lexemes of its parse, the dividend
`(0-65536)*32768` has the value -2147483648 and the divisor `(0-1)` the value
-1, so the truncated quotient 2147483648 is not a 32-bit integer; the C
division is undefined there and the run is the undefined outcome, for `/` and
for `%` alike. -/
theorem C3_quotient_outside_int_is_undefined :
    (scan (cursor_on "(0-65536)*32768/(0-1)\n").tok
        (SRelation.expr (.term (.binop
          (.binop (.factor (.paren (.binop (.term (.factor (.num 0))) .sub
            (.factor (.num 65536))))) .mul (.num 32768))
          .div (.paren (.binop (.term (.factor (.num 0))) .sub (.factor (.num 1))))))).toks
      ).isSome = true
    ∧ (STerm.binop (.factor (.paren (.binop (.term (.factor (.num 0))) .sub
          (.factor (.num 65536))))) .mul (.num 32768)).eval (fun _ => 0)
        = some (-2147483648)
    ∧ (SFactor.paren (.binop (.term (.factor (.num 0))) .sub (.factor (.num 1)))).eval
          (fun _ => 0) = some (-1)
    ∧ Int.tdiv (-2147483648) (-1) = 2147483648
    ∧ (relation 50 (cursor_on "(0-65536)*32768/(0-1)\n")).undefined = true
    ∧ (relation 50 (cursor_on "(0-65536)*32768/(0-1)\n")).returned.isSome = false
    ∧ (relation 50 (cursor_on "(0-65536)*32768%(0-1)\n")).undefined = true := by
  decide!

/-- C4 (counterexample): on the line `10 a=(0-65536)*32768/(0-1)` the step
does not store a value in `a`: the expression divides -2147483648 by -1, the
C division is undefined, and the step is the undefined outcome; it neither
returns nor halts. -/
theorem C4_assignment_of_undefined_quotient :
    (ubasic_run 50 (cursor_on "10 a=(0-65536)*32768/(0-1)\n")).undefined = true
    ∧ (ubasic_run 50 (cursor_on "10 a=(0-65536)*32768/(0-1)\n")).returned.isSome = false
    ∧ (ubasic_run 50 (cursor_on "10 a=(0-65536)*32768/(0-1)\n")).halted.isSome = false
    ∧ (ubasic_run 50 (cursor_on "10 a=(0-65536)*32768\n")).returned.map
        (fun s => ubasic_get_variable s 0) = some (-2147483648)
    ∧ (ubasic_run 50 (cursor_on "10 a=(0-1)\n")).returned.map
        (fun s => ubasic_get_variable s 0) = some (-1) := by
  decide!

/-- C10 (counterexample): on `10 a=(0-65536)*32768 / 20 b=0-1 / 30 print a/b`
the PRINT line has a single item, an expression that starts with a variable,
but the step at it emits nothing and does not return: after two steps
`a = -2147483648` and `b = -1`, the C division `a/b` is undefined, and the
third step is the undefined outcome.  The same holds for the line
`10 print a/b` run with `b = 0`. -/
theorem C10_print_of_undefined_quotient :
    (run_steps 50 2 (cursor_on "10 a=(0-65536)*32768\n20 b=0-1\n30 print a/b\n")).returned.map
        (fun s => (ubasic_get_variable s 0, ubasic_get_variable s 1, s.tok.ptr, s.events))
      = some (-2147483648, -1, 30, [])
    ∧ (run_steps 50 3
        (cursor_on "10 a=(0-65536)*32768\n20 b=0-1\n30 print a/b\n")).undefined = true
    ∧ (run_steps 50 3
        (cursor_on "10 a=(0-65536)*32768\n20 b=0-1\n30 print a/b\n")).returned.isSome = false
    ∧ (ubasic_run 50 (cursor_on "10 print a/b\n")).undefined = true
    ∧ (ubasic_run 50 (cursor_on "10 print a/b\n")).returned.isSome = false := by
  decide!

/-- C22 (counterexample): the program `10 let c=(0-65536)*32768/(0-1)`, which
ends without a newline, does not reach the `Unexpected token` halt and
performs no assignment: the expression divides -2147483648 by -1, the C
division is undefined, and the step is the undefined outcome before
`let_statement` stores anything or calls `accept(TOKENIZER_CR)`.  The same
holds for `10 let c=1/0`. -/
theorem C22_undefined_quotient_before_halt :
    (ubasic_run 50 (cursor_on "10 let c=(0-65536)*32768/(0-1)")).undefined = true
    ∧ (ubasic_run 50 (cursor_on "10 let c=(0-65536)*32768/(0-1)")).halted.isSome = false
    ∧ (ubasic_run 50 (cursor_on "10 let c=(0-65536)*32768/(0-1)")).returned.isSome = false
    ∧ (ubasic_run 50 (cursor_on "10 let c=1/0")).undefined = true
    ∧ (ubasic_run 50 (cursor_on "10 let c=1/0")).halted.isSome = false := by
  decide!

/-- C9 (counterexample): a jump to a number that no line carries returns
when the line index holds that number.  The text
`10 print 1 then 20 a=1 / 30 goto 20` starts with a number token and none of
its lines is numbered 20.  The first step prints 1 and stops at `then`, which
leaves the cursor on the `20` in the middle of the line (offset 16); the
second step indexes that number with that offset and runs `a=1`; the third
step, `goto 20`, finds 20 in the index and returns with the cursor at offset
16. -/
theorem C9_cached_number_in_mid_line_is_a_target :
    first_token (bytes "10 print 1 then 20 a=1\n30 goto 20\n") = TOKENIZER_NUMBER
    ∧ no_line_numbered (bytes "10 print 1 then 20 a=1\n30 goto 20\n") 20 = true
    ∧ (run_steps 50 2 (cursor_on "10 print 1 then 20 a=1\n30 goto 20\n")).returned.map
        (fun s => (s.tok.ptr, index_find s 20)) = some (23, some (some 16))
    ∧ (run_steps 50 3 (cursor_on "10 print 1 then 20 a=1\n30 goto 20\n")).returned.map
        (fun s => (s.tok.ptr, s.tok.current_token)) = some (16, TOKENIZER_NUMBER) := by
  decide!

/-- A number that no line of the program carries is not in a line index that
holds program lines only. -/
theorem index_find_no_line {text : List Nat} {p : List TLine} (s : State) (L : Int)
    (hwf : s.wf = true) (hidx : index_ok text p s) (hL : ∀ l ∈ p, l.number ≠ L) :
    index_find s L = some none := by
  have hp0 := (wf_unfold hwf).2.2.2.2.2.2.2.2.2.1
  have key : ∀ (k i : Nat), i + k = s.line_index_current_ptr.toNat →
      index_find_loop s L k (i : Int) = some none := by
    intro k
    induction k with
    | zero => intro i _; rfl
    | succ k ih =>
      intro i hik
      obtain ⟨j, l, u, hj, _, hget⟩ := hidx i (by omega)
      have hne : l.number ≠ L := hL l (List.get?_mem hj)
      unfold index_find_loop
      have hag : aget s.line_index_table (i : Int) = some ⟨l.number, u.ptr⟩ := by
        rw [List.get?_eq_getElem?] at hget
        simp [aget, hget]
      rw [hag]
      simp only [if_neg hne]
      exact ih (i + 1) (by omega)
  have := key s.line_index_current_ptr.toNat 0 (by simp)
  simpa [index_find] using this

end UBasic
